import Mathlib

/-! Chess rule engine of `chess-game/main.cpp`.

A shallow embedding of the rule engine and of the game session of `main.cpp`
(board, attack detection, move legality, move application, undo, terminal
detection and the board-click handler), followed by theorems about it.

Conventions of the embedding:

* `char board[8][8]` is a function `Board`, read as `b y x` for `board[y][x]`;
* C++ `int` is `Int`; the coordinates that occur stay far away from overflow;
* a computation whose C++ behaviour is undefined (a read outside the array) or
  that does not finish within its fuel is `none`;
* a function that writes to the global board returns the board it leaves behind;
* a `for` loop over `0..7` with an early `return` is `forLoop` / `forLoopS`.
-/

namespace Chess

/-! ## Definitions: the data model, the rule engine and the game session -/

/-- The array `char board[8][8]`; `b y x` is `board[y][x]`. -/
abbrev Board := Int → Int → Char

/-- The assignment `board[y][x] = c`. -/
def setCell (b : Board) (y x : Int) (c : Char) : Board :=
  fun y' x' => if y' = y ∧ x' = x then c else b y' x'

/-- The values `0, 1, ..., 7` of a loop `for (int i = 0; i < 8; ++i)`. -/
def idx8 : List Int := [0, 1, 2, 3, 4, 5, 6, 7]

/-- A `for` loop over the given indices whose body may leave the enclosing function
with a value (`some (some r)`), fall through to the next iteration (`some none`), or
have no defined behaviour (`none`). -/
def forLoop {ρ : Type} (body : Int → Option (Option ρ)) : List Int → Option (Option ρ)
  | [] => some none
  | i :: rest =>
    match body i with
    | none => none
    | some (some r) => some (some r)
    | some none => forLoop body rest

/-- The same loop for a body that also updates a state of type `σ`. -/
def forLoopS {σ ρ : Type} (body : Int → σ → Option (Option ρ × σ)) :
    List Int → σ → Option (Option ρ × σ)
  | [], s => some (none, s)
  | i :: rest, s =>
    match body i s with
    | none => none
    | some (some r, s') => some (some r, s')
    | some (none, s') => forLoopS body rest s'

/-- The function `bool isInside(int x, int y)`. -/
def isInside (x y : Int) : Bool := decide (x ≥ 0) && decide (x < 8) && decide (y ≥ 0) && decide (y < 8)

/-- The function `bool isWhitePiece(char p)`. -/
def isWhitePiece (p : Char) : Bool := decide (p ≥ 'A') && decide (p ≤ 'Z')

/-- The function `bool isBlackPiece(char p)`. -/
def isBlackPiece (p : Char) : Bool := decide (p ≥ 'a') && decide (p ≤ 'z')

/-- The C library function `toupper` on the characters of the board. -/
def toupper (p : Char) : Char := p.toUpper

/-- The C library function `abs` on `int`. -/
def iabs (v : Int) : Int := if v < 0 then -v else v

/-- The function `bool sameColor(char a, char b)`. -/
def sameColor (a b : Char) : Bool :=
  if a = '.' ∨ b = '.' then false
  else (isWhitePiece a && isWhitePiece b) || (isBlackPiece a && isBlackPiece b)

/-- The `while` loop of `clearPath`, started at `(x, y)`. A read of `board[y][x]` outside
the array is undefined behaviour (`none`); so is running out of fuel. -/
def clearPathLoop (b : Board) (dx dy tx ty : Int) : Nat → Int → Int → Option Bool
  | 0, _, _ => none
  | fuel + 1, x, y =>
    if x ≠ tx ∨ y ≠ ty then
      if !isInside x y then none
      else if b y x ≠ '.' then some false
      else clearPathLoop b dx dy tx ty fuel (x + dx) (y + dy)
    else some true

/-- The function `bool clearPath(int sx, int sy, int tx, int ty)`. -/
def clearPath (b : Board) (sx sy tx ty : Int) : Option Bool :=
  let dx : Int := if tx > sx then 1 else if tx < sx then -1 else 0
  let dy : Int := if ty > sy then 1 else if ty < sy then -1 else 0
  clearPathLoop b dx dy tx ty 16 (sx + dx) (sy + dy)

/-- The short-circuit conjunction `c && call` where only `call` reads the board. -/
def guardCall (c : Bool) (call : Option Bool) : Option Bool :=
  if c then call else some false

/-- The statement `if (c) return true;` inside a loop body. -/
def retTrueIf : Option Bool → Option (Option Bool)
  | none => none
  | some true => some (some true)
  | some false => some none

/-- The body of the two loops of `isSquareAttacked` for the square `(sx, sy)`. -/
def attackFrom (b : Board) (x y : Int) (byWhite : Bool) (sy sx : Int) : Option (Option Bool) :=
  let p := b sy sx
  if p = '.' then some none
  else if byWhite && !isWhitePiece p then some none
  else if !byWhite && !isBlackPiece p then some none
  else
    let dx := x - sx
    let dy := y - sy
    let adx := iabs dx
    let ady := iabs dy
    let u := toupper p
    if u = 'P' then
      let dir : Int := if byWhite then -1 else 1
      retTrueIf (some (decide (iabs dx = 1) && decide (dy = dir)))
    else if u = 'N' then
      retTrueIf (some ((decide (adx = 1) && decide (ady = 2)) || (decide (adx = 2) && decide (ady = 1))))
    else if u = 'B' then
      retTrueIf (guardCall (decide (adx = ady) && decide (adx > 0)) (clearPath b sx sy x y))
    else if u = 'R' then
      retTrueIf (guardCall ((decide (adx = 0) && decide (ady > 0)) || (decide (ady = 0) && decide (adx > 0)))
        (clearPath b sx sy x y))
    else if u = 'Q' then
      retTrueIf (guardCall ((decide (adx = ady) && decide (adx > 0)) || (decide (adx = 0) && decide (ady > 0))
        || (decide (ady = 0) && decide (adx > 0))) (clearPath b sx sy x y))
    else if u = 'K' then
      retTrueIf (some (decide (max adx ady = 1)))
    else some none

/-- The function `bool isSquareAttacked(int x, int y, bool byWhite)`. -/
def isSquareAttacked (b : Board) (x y : Int) (byWhite : Bool) : Option Bool :=
  (forLoop (fun sy => forLoop (fun sx => attackFrom b x y byWhite sy sx) idx8) idx8).map
    (fun r => r.getD false)

/-- The function `bool isInCheck(bool white)`. -/
def isInCheck (b : Board) (white : Bool) : Option Bool :=
  (forLoop (fun y => forLoop (fun x =>
      let p := b y x
      if (white && decide (p = 'K')) || (!white && decide (p = 'k')) then
        (isSquareAttacked b x y (!white)).map some
      else some none) idx8) idx8).map (fun r => r.getD false)

/-- The function `bool wouldBeInCheck(int sx, int sy, int tx, int ty, bool white)`: the
result and the board left behind. -/
def wouldBeInCheck (b : Board) (sx sy tx ty : Int) (white : Bool) : Option (Bool × Board) :=
  let temp := b ty tx
  let b1 := setCell b ty tx (b sy sx)
  let b2 := setCell b1 sy sx '.'
  match isInCheck b2 white with
  | none => none
  | some check =>
    let b3 := setCell b2 sy sx (b2 ty tx)
    let b4 := setCell b3 ty tx temp
    some (check, b4)

/-- The `switch (toupper(p))` of `isLegalMove`: `some false` where a case returns false,
`some true` where control leaves the switch. -/
def movePattern (b : Board) (p : Char) (sx sy tx ty : Int) : Option Bool :=
  let dx := tx - sx
  let dy := ty - sy
  let adx := iabs dx
  let ady := iabs dy
  let white := isWhitePiece p
  let u := toupper p
  if u = 'P' then
    let dir : Int := if white then -1 else 1
    let startRow : Int := if white then 6 else 1
    if dx = 0 ∧ dy = dir ∧ b ty tx = '.' then some true
    else if dx = 0 ∧ dy = 2 * dir ∧ sy = startRow ∧ b (sy + dir) sx = '.' ∧ b ty tx = '.' then some true
    else if iabs dx = 1 ∧ dy = dir ∧ b ty tx ≠ '.' ∧ sameColor p (b ty tx) = false then some true
    else some false
  else if u = 'N' then
    some ((decide (adx = 1) && decide (ady = 2)) || (decide (adx = 2) && decide (ady = 1)))
  else if u = 'B' then
    guardCall (decide (adx = ady) && decide (adx > 0)) (clearPath b sx sy tx ty)
  else if u = 'R' then
    guardCall ((decide (adx = 0) && decide (ady > 0)) || (decide (ady = 0) && decide (adx > 0)))
      (clearPath b sx sy tx ty)
  else if u = 'Q' then
    guardCall ((decide (adx = ady) && decide (adx > 0)) || (decide (adx = 0) && decide (ady > 0))
      || (decide (ady = 0) && decide (adx > 0))) (clearPath b sx sy tx ty)
  else if u = 'K' then
    some (decide (max adx ady = 1))
  else some true

/-- The function `bool isLegalMove(int sx, int sy, int tx, int ty)`: the result and the
board left behind. -/
def isLegalMove (b : Board) (sx sy tx ty : Int) : Option (Bool × Board) :=
  if !isInside sx sy || !isInside tx ty then some (false, b)
  else if sx = tx ∧ sy = ty then some (false, b)
  else
    let p := b sy sx
    if p = '.' then some (false, b)
    else if sameColor p (b ty tx) then some (false, b)
    else
      match movePattern b p sx sy tx ty with
      | none => none
      | some false => some (false, b)
      | some true =>
        match wouldBeInCheck b sx sy tx ty (isWhitePiece p) with
        | none => none
        | some (check, b') => some (!check, b')

/-- The function `bool hasLegalMoves(bool white)`: the result and the board left behind. -/
def hasLegalMoves (b : Board) (white : Bool) : Option (Bool × Board) :=
  (forLoopS (fun sy b1 => forLoopS (fun sx b2 =>
      let p := b2 sy sx
      if p = '.' then some (none, b2)
      else if white && !isWhitePiece p then some (none, b2)
      else if !white && !isBlackPiece p then some (none, b2)
      else
        forLoopS (fun ty b3 => forLoopS (fun tx b4 =>
          match isLegalMove b4 sx sy tx ty with
          | none => none
          | some (true, b5) => some (some true, b5)
          | some (false, b5) => some (none, b5)) idx8 b3) idx8 b2) idx8 b1) idx8 b).map
    (fun r => (r.1.getD false, r.2))

/-- The structure `struct Move`. -/
structure Move where
  sx : Int
  sy : Int
  tx : Int
  ty : Int
  captured : Char
  wasKingMove : Bool
  wasRookMove : Bool

/-- The structure `struct GameState`; `legalMoves y x` is `legalMoves[y][x]`, a `std::wstring` is a
`String`. -/
structure GameState where
  board : Board
  selX : Int
  selY : Int
  whiteTurn : Bool
  legalMoves : Int → Int → Bool
  moveCount : Int
  whiteKingMoved : Bool
  blackKingMoved : Bool
  whiteRookKMoved : Bool
  whiteRookQMoved : Bool
  blackRookKMoved : Bool
  blackRookQMoved : Bool
  moveHistory : List String
  lastCaptured : Char
  gameOver : Bool
  gameResult : String
  lastMoveFromX : Int
  lastMoveFromY : Int
  lastMoveToX : Int
  lastMoveToY : Int
  whiteCaptures : Int
  blackCaptures : Int

/-- The two globals `game` and `moveStack`; the back of the vector is the end of the
list. -/
structure Session where
  game : GameState
  moveStack : List Move

/-- The assignment `legalMoves[y][x] = v`. -/
def setFlag (f : Int → Int → Bool) (y x : Int) (v : Bool) : Int → Int → Bool :=
  fun y' x' => if y' = y ∧ x' = x then v else f y' x'

/-- The function `void clearLegalMoves()`. -/
def clearLegalMoves (g : GameState) : GameState :=
  { g with legalMoves :=
      idx8.foldl (fun f y => idx8.foldl (fun f' x => setFlag f' y x false) f) g.legalMoves }

/-- Rows of characters as a board; squares outside the rows hold `'.'`. -/
def boardOfRows (rows : List (List Char)) : Board :=
  fun y x => if y < 0 ∨ x < 0 then '.' else (rows.getD y.toNat []).getD x.toNat '.'

/-- The table `start` of `initBoard`. -/
def startRows : List (List Char) :=
  ["rnbqkbnr".toList, "pppppppp".toList, "........".toList, "........".toList,
   "........".toList, "........".toList, "PPPPPPPP".toList, "RNBQKBNR".toList]

/-- The function `void initBoard()`. -/
def initBoard (s : Session) : Session :=
  let board := idx8.foldl (fun b y => idx8.foldl (fun b' x =>
    setCell b' y x ((startRows.getD y.toNat []).getD x.toNat '.')) b) s.game.board
  { game := clearLegalMoves { s.game with
      board := board, selX := -1, selY := -1, whiteTurn := true, moveCount := 0,
      whiteKingMoved := false, blackKingMoved := false,
      whiteRookKMoved := false, whiteRookQMoved := false,
      blackRookKMoved := false, blackRookQMoved := false,
      moveHistory := [], gameOver := false, gameResult := "",
      lastMoveFromX := -1, lastMoveFromY := -1, lastMoveToX := -1, lastMoveToY := -1,
      whiteCaptures := 0, blackCaptures := 0 },
    moveStack := [] }

/-- The globals as the program starts: `game` holds its default member initialisers on
zeroed storage and `moveStack` is empty. -/
def startup : Session :=
  { game := { board := fun _ _ => Char.ofNat 0, selX := -1, selY := -1, whiteTurn := true,
              legalMoves := fun _ _ => false, moveCount := 0,
              whiteKingMoved := false, blackKingMoved := false,
              whiteRookKMoved := false, whiteRookQMoved := false,
              blackRookKMoved := false, blackRookQMoved := false,
              moveHistory := [], lastCaptured := '.', gameOver := false, gameResult := "",
              lastMoveFromX := -1, lastMoveFromY := -1, lastMoveToX := -1, lastMoveToY := -1,
              whiteCaptures := 0, blackCaptures := 0 },
    moveStack := [] }

/-- The function `std::wstring pieceToName(char p)`. -/
def pieceToName (p : Char) : String :=
  let u := toupper p
  if u = 'K' then "King"
  else if u = 'Q' then "Queen"
  else if u = 'R' then "Rook"
  else if u = 'B' then "Bishop"
  else if u = 'N' then "Knight"
  else if u = 'P' then "Pawn"
  else ""

/-- The conversion of an `int` to the 16-bit `wchar_t` (code units that are not
surrogates). -/
def toWchar (v : Int) : Char := Char.ofNat (v % 65536).toNat

/-- The function `std::wstring posToNotation(int x, int y)`. -/
def posToNotation (x y : Int) : String :=
  let col := toWchar (97 + x)
  let row := toWchar (56 - y)
  String.mk [col, row]

/-- The function `void makeMove(int sx, int sy, int tx, int ty)`; `none` when a square
lies outside the array. -/
def makeMove (s : Session) (sx sy tx ty : Int) : Option Session :=
  if !isInside sx sy || !isInside tx ty then none
  else
    let g := s.game
    let captured := g.board ty tx
    let p := g.board sy sx
    let whiteCaptures := if captured ≠ '.' ∧ isWhitePiece p then g.whiteCaptures + 1 else g.whiteCaptures
    let blackCaptures := if captured ≠ '.' ∧ ¬ isWhitePiece p then g.blackCaptures + 1 else g.blackCaptures
    let isKing : Bool := decide (toupper p = 'K')
    let isRook : Bool := decide (toupper p = 'R')
    let m : Move := { sx := sx, sy := sy, tx := tx, ty := ty, captured := captured,
                      wasKingMove := isKing, wasRookMove := isRook }
    let b1 := setCell g.board ty tx p
    let b2 := setCell b1 sy sx '.'
    let b3 := if b2 ty tx = 'P' ∧ ty = 0 then setCell b2 ty tx 'Q' else b2
    let b4 := if b3 ty tx = 'p' ∧ ty = 7 then setCell b3 ty tx 'q' else b3
    let moveStr := posToNotation sx sy ++ "-" ++ posToNotation tx ty
    let moveStr := if captured ≠ '.' then moveStr ++ (" x" ++ pieceToName captured) else moveStr
    some
      { game := { g with
          board := b4,
          whiteCaptures := whiteCaptures,
          blackCaptures := blackCaptures,
          whiteKingMoved := g.whiteKingMoved || (isKing && isWhitePiece p),
          blackKingMoved := g.blackKingMoved || (isKing && !isWhitePiece p),
          whiteRookKMoved := g.whiteRookKMoved ||
            (isRook && isWhitePiece p && decide (sx = 7) && decide (sy = 7)),
          whiteRookQMoved := g.whiteRookQMoved ||
            (isRook && isWhitePiece p && decide (sx = 0) && decide (sy = 7)),
          blackRookKMoved := g.blackRookKMoved ||
            (isRook && !isWhitePiece p && decide (sx = 7) && decide (sy = 0)),
          blackRookQMoved := g.blackRookQMoved ||
            (isRook && !isWhitePiece p && decide (sx = 0) && decide (sy = 0)),
          lastMoveFromX := sx, lastMoveFromY := sy, lastMoveToX := tx, lastMoveToY := ty,
          moveHistory := g.moveHistory ++ [moveStr],
          moveCount := g.moveCount + 1 },
        moveStack := s.moveStack ++ [m] }

/-- The function `void undoMove()` without its three repaint calls, which write to no
global of the session; `none` when the popped record names a square outside the array. -/
def undoMove (s : Session) : Option Session :=
  match s.moveStack.getLast? with
  | none => some s
  | some m =>
    if !isInside m.sx m.sy || !isInside m.tx m.ty then none
    else
      let g := s.game
      let stack := s.moveStack.dropLast
      let b1 := setCell g.board m.sy m.sx (g.board m.ty m.tx)
      let b2 := setCell b1 m.ty m.tx m.captured
      let p := b2 m.sy m.sx
      let whiteCaptures := if m.captured ≠ '.' ∧ isWhitePiece p then g.whiteCaptures - 1 else g.whiteCaptures
      let blackCaptures := if m.captured ≠ '.' ∧ ¬ isWhitePiece p then g.blackCaptures - 1 else g.blackCaptures
      let history := if g.moveHistory.isEmpty then g.moveHistory else g.moveHistory.dropLast
      let last : Int × Int × Int × Int :=
        match stack.getLast? with
        | some prev => (prev.sx, prev.sy, prev.tx, prev.ty)
        | none => (-1, -1, -1, -1)
      some
        { game := { g with
            board := b2,
            whiteCaptures := whiteCaptures,
            blackCaptures := blackCaptures,
            moveHistory := history,
            moveCount := g.moveCount - 1,
            whiteTurn := !g.whiteTurn,
            gameOver := false,
            lastMoveFromX := last.1, lastMoveFromY := last.2.1,
            lastMoveToX := last.2.2.1, lastMoveToY := last.2.2.2 },
          moveStack := stack }

/-- The function `void checkGameEnd()`. -/
def checkGameEnd (g : GameState) : Option GameState :=
  match hasLegalMoves g.board g.whiteTurn with
  | none => none
  | some (currentPlayerHasMoves, b) =>
    let g1 := { g with board := b }
    if !currentPlayerHasMoves then
      match isInCheck b g.whiteTurn with
      | none => none
      | some true =>
        some { g1 with gameOver := true,
                       gameResult := if g.whiteTurn then "Checkmate! Black Wins!"
                                     else "Checkmate! White Wins!" }
      | some false => some { g1 with gameOver := true, gameResult := "Stalemate! Draw." }
    else some g1

/-- The function `void computeLegalMoves(int sx, int sy)`. -/
def computeLegalMoves (g : GameState) (sx sy : Int) : Option GameState :=
  let g0 := clearLegalMoves g
  if !isInside sx sy then some g0
  else if g0.board sy sx = '.' then some g0
  else
    match forLoopS (fun y g1 => forLoopS (fun x (g2 : GameState) =>
        match isLegalMove g2.board sx sy x y with
        | none => none
        | some (true, b) =>
          some ((none : Option Unit), { g2 with board := b, legalMoves := setFlag g2.legalMoves y x true })
        | some (false, b) => some (none, { g2 with board := b })) idx8 g1) idx8 g0 with
    | none => none
    | some (_, g3) => some { g3 with legalMoves := setFlag g3.legalMoves sy sx false }

/-- The constant `CELL`. -/
def CELL : Int := 80

/-- The constant `BOARD_PADDING`. -/
def BOARD_PADDING : Int := 40

/-- The function `void pixelToCell(int px, int py, int &cx, int &cy)`; the division of C++
truncates. -/
def pixelToCell (px py : Int) : Int × Int :=
  (Int.tdiv (px - BOARD_PADDING) CELL, Int.tdiv (py - BOARD_PADDING) CELL)

/-- The `WM_LBUTTONDOWN` case of `WindowProc` for a click at pixel `(mx, my)`, without its
repaint calls. -/
def onLButtonDown (s : Session) (mx my : Int) : Option Session :=
  let g := s.game
  if g.gameOver then some s
  else
    let cx := (pixelToCell mx my).1
    let cy := (pixelToCell mx my).2
    if !isInside cx cy then some s
    else if g.selX = -1 then
      let p := g.board cy cx
      if p = '.' then some s
      else if (g.whiteTurn && !isWhitePiece p) || (!g.whiteTurn && !isBlackPiece p) then some s
      else
        (computeLegalMoves { g with selX := cx, selY := cy } cx cy).map
          (fun g1 => { s with game := g1 })
    else if g.legalMoves cy cx then
      match makeMove s g.selX g.selY cx cy with
      | none => none
      | some s1 =>
        let g1 := { s1.game with whiteTurn := !s1.game.whiteTurn }
        let g2 := clearLegalMoves { g1 with selX := -1, selY := -1 }
        (checkGameEnd g2).map (fun g3 => { s1 with game := g3 })
    else
      let p := g.board cy cx
      if p ≠ '.' ∧ ((g.whiteTurn ∧ isWhitePiece p) ∨ (¬ g.whiteTurn ∧ isBlackPiece p)) then
        (computeLegalMoves { g with selX := cx, selY := cy } cx cy).map
          (fun g1 => { s with game := g1 })
      else some { s with game := clearLegalMoves { g with selX := -1, selY := -1 } }

/-- What the user can do to a running session: click a pixel of the window, or press the
Undo button (`WM_COMMAND` 103). -/
inductive Event where
  | click (mx my : Int)
  | undo

/-- One message handled by `WindowProc`. -/
def handle (s : Session) : Event → Option Session
  | Event.click mx my => onLButtonDown s mx my
  | Event.undo => undoMove s

/-- A sequence of messages handled one after the other. -/
def handleAll : Session → List Event → Option Session
  | s, [] => some s
  | s, e :: rest =>
    match handle s e with
    | none => none
    | some s1 => handleAll s1 rest

/-- A click on the middle of the square `(x, y)`. -/
def clickSquare (x y : Int) : Event := Event.click (BOARD_PADDING + CELL * x + 40) (BOARD_PADDING + CELL * y + 40)

/-- The lines `makeMove(...); game.whiteTurn = !game.whiteTurn;` of the click handler. -/
def moveAndFlip (s : Session) (sx sy tx ty : Int) : Option Session :=
  (makeMove s sx sy tx ty).map
    (fun s1 => { s1 with game := { s1.game with whiteTurn := !s1.game.whiteTurn } })

/-- Two boards that the search for a check of the given colour cannot tell apart: each
square holds the same character on both, or on both a character that is not empty, is
not the king of that colour and is not a piece of the attacking colour. -/
def CheckEquiv (white : Bool) (b1 b2 : Board) : Prop :=
  ∀ y x, b1 y x = b2 y x ∨
    ((b1 y x ≠ '.' ∧ b1 y x ≠ (if white then 'K' else 'k') ∧
        (if white then isBlackPiece (b1 y x) else isWhitePiece (b1 y x)) = false) ∧
     (b2 y x ≠ '.' ∧ b2 y x ≠ (if white then 'K' else 'k') ∧
        (if white then isBlackPiece (b2 y x) else isWhitePiece (b2 y x)) = false))

/-- The board on which `wouldBeInCheck` asks for a check: the piece of `(sx, sy)` stands
on `(tx, ty)` and `(sx, sy)` is empty. -/
def movedBoard (b : Board) (sx sy tx ty : Int) : Board :=
  setCell (setCell b ty tx (b sy sx)) sy sx '.'

/-- The sign of a difference, the step of `clearPath` along one axis. -/
def sgn (v : Int) : Int := if v > 0 then 1 else if v < 0 then -1 else 0

/-- Every square strictly between `(sx, sy)` and `(tx, ty)` on their common file, rank or
diagonal is empty. -/
def PathClear (b : Board) (sx sy tx ty : Int) : Prop :=
  ∀ k : Int, 0 < k → k < max |tx - sx| |ty - sy| →
    b (sy + k * Int.sign (ty - sy)) (sx + k * Int.sign (tx - sx)) = '.'

/-- Two distinct squares on a common file, rank or diagonal. -/
def Aligned (sx sy tx ty : Int) : Prop :=
  (tx ≠ sx ∨ ty ≠ sy) ∧ (tx = sx ∨ ty = sy ∨ |tx - sx| = |ty - sy|)

/-- An operation on the session: a move applied for the side to move, or an undo. -/
inductive Action where
  | move (sx sy tx ty : Int)
  | undo

/-- The square `(x, y)` holds a piece of the side to move. -/
def ownPiece (g : GameState) (x y : Int) : Bool :=
  isInside x y && (if g.whiteTurn then isWhitePiece (g.board y x) else isBlackPiece (g.board y x))

/-- One operation: a move is applied (`makeMove` and the turn flip) only when it moves a
piece of the side to move and `isLegalMove` accepts it; an undo is `undoMove`. -/
def step (s : Session) : Action → Option Session
  | Action.move sx sy tx ty =>
    if ownPiece s.game sx sy &&
        ((isLegalMove s.game.board sx sy tx ty).map Prod.fst == some true) then
      moveAndFlip s sx sy tx ty
    else none
  | Action.undo => undoMove s

/-- A sequence of operations applied one after the other. -/
def play : Session → List Action → Option Session
  | s, [] => some s
  | s, a :: rest =>
    match step s a with
    | none => none
    | some s1 => play s1 rest

/-- The number of squares of the board that hold the character `c`. -/
def countPiece (b : Board) (c : Char) : Nat :=
  (idx8.map (fun y => (idx8.filter (fun x => b y x == c)).length)).sum

/-- The game 1. a4 c5 2. a5 d5 3. a6 e5 4. axb7 Ke7: a White pawn stands on b7, one step
from promotion, and the Black king on e7. -/
def pawnToSeventh : List Action :=
  [Action.move 0 6 0 4, Action.move 2 1 2 3, Action.move 0 4 0 3, Action.move 3 1 3 3,
   Action.move 0 3 0 2, Action.move 4 1 4 3, Action.move 0 2 1 1, Action.move 4 0 4 1]

/-- The clicks 1. e4 d5 followed by a click that selects the White pawn on e4. -/
def selectThenUndo : List Event :=
  [clickSquare 4 6, clickSquare 4 4, clickSquare 3 1, clickSquare 3 3, clickSquare 4 4,
   Event.undo]

/-- All squares of the board as `(x, y)`, row by row. -/
def allSquares : List (Int × Int) :=
  idx8.flatMap (fun y => idx8.map (fun x => (x, y)))

/-- The destinations `(tx, ty)` for which `isLegalMove` accepts the move from `(sx, sy)`. -/
def legalDestinations (b : Board) (sx sy : Int) : List (Int × Int) :=
  allSquares.filter (fun d => (isLegalMove b sx sy d.1 d.2).map Prod.fst == some true)

/-- The squares that hold a White piece. -/
def whiteSquares (b : Board) : List (Int × Int) :=
  allSquares.filter (fun s => isWhitePiece (b s.2 s.1))

/-- The moves `(sx, sy, tx, ty)` of White pieces that `isLegalMove` accepts on the board
`b`. -/
def whiteLegalMoves (b : Board) : List (Int × Int × Int × Int) :=
  (whiteSquares b).flatMap (fun s =>
    (legalDestinations b s.1 s.2).map (fun d => (s.1, s.2, d.1, d.2)))

/-- The board with a Black king on a8, a White king on a6 and a White queen on b6. -/
def stalemateBoard : Board :=
  boardOfRows ["k.......".toList, "........".toList, "KQ......".toList, "........".toList,
               "........".toList, "........".toList, "........".toList, "........".toList]

/-- The characters of the White pieces. -/
def whitePieces : List Char := ['P', 'N', 'B', 'R', 'Q', 'K']

/-- The characters of the Black pieces. -/
def blackPieces : List Char := ['p', 'n', 'b', 'r', 'q', 'k']

/-- Every square of the board holds `'.'`, one of `PNBRQK` or one of `pnbrqk`. -/
def validBoard (b : Board) : Bool :=
  idx8.all (fun y => idx8.all (fun x =>
    decide (b y x = '.' ∨ b y x ∈ whitePieces ∨ b y x ∈ blackPieces)))

/-- The movement pattern of the piece on `(sx, sy)` towards `(tx, ty)` as the
specification words it, piece by piece. -/
def PatternSpec (b : Board) (sx sy tx ty : Int) : Prop :=
  let p := b sy sx
  let q := b ty tx
  let dx := tx - sx
  let dy := ty - sy
  let forward : Int := if p ∈ whitePieces then -1 else 1
  let startRow : Int := if p ∈ whitePieces then 6 else 1
  ((p = 'P' ∨ p = 'p') ∧
    ((dx = 0 ∧ dy = forward ∧ q = '.') ∨
     (dx = 0 ∧ dy = 2 * forward ∧ sy = startRow ∧ b (sy + forward) sx = '.' ∧ q = '.') ∨
     (|dx| = 1 ∧ dy = forward ∧
       ((p ∈ whitePieces ∧ q ∈ blackPieces) ∨ (p ∈ blackPieces ∧ q ∈ whitePieces))))) ∨
  ((p = 'N' ∨ p = 'n') ∧ ((|dx| = 1 ∧ |dy| = 2) ∨ (|dx| = 2 ∧ |dy| = 1))) ∨
  ((p = 'B' ∨ p = 'b') ∧ (|dx| = |dy| ∧ |dx| > 0) ∧ PathClear b sx sy tx ty) ∨
  ((p = 'R' ∨ p = 'r') ∧ ((dx = 0 ∧ dy ≠ 0) ∨ (dy = 0 ∧ dx ≠ 0)) ∧ PathClear b sx sy tx ty) ∨
  ((p = 'Q' ∨ p = 'q') ∧
    ((|dx| = |dy| ∧ |dx| > 0) ∨ (dx = 0 ∧ dy ≠ 0) ∨ (dy = 0 ∧ dx ≠ 0)) ∧
    PathClear b sx sy tx ty) ∨
  ((p = 'K' ∨ p = 'k') ∧ max |dx| |dy| = 1)

/-- The legality of the move from `(sx, sy)` to `(tx, ty)` as the specification words it:
both squares in range and different, a piece on the source, no piece of its colour on the
destination, its movement pattern, and no check of its colour once it has moved. -/
def LegalSpec (b : Board) (sx sy tx ty : Int) : Prop :=
  (0 ≤ sx ∧ sx ≤ 7 ∧ 0 ≤ sy ∧ sy ≤ 7) ∧ (0 ≤ tx ∧ tx ≤ 7 ∧ 0 ≤ ty ∧ ty ≤ 7) ∧
  (sx ≠ tx ∨ sy ≠ ty) ∧
  b sy sx ≠ '.' ∧
  ¬ ((b sy sx ∈ whitePieces ∧ b ty tx ∈ whitePieces) ∨
     (b sy sx ∈ blackPieces ∧ b ty tx ∈ blackPieces)) ∧
  PatternSpec b sx sy tx ty ∧
  isInCheck (movedBoard b sx sy tx ty) (decide (b sy sx ∈ whitePieces)) = some false

/-- A White pawn on a7 one step from promotion, the White king on e1 and the Black king
on h8. -/
def promotionBoard : Board :=
  boardOfRows [".......k".toList, "P.......".toList, "........".toList, "........".toList,
               "........".toList, "........".toList, "........".toList, "....K...".toList]

/-- Whether `isLegalMove` accepts the move, as a Boolean. -/
def accepts (b : Board) (sx sy tx ty : Int) : Bool :=
  (isLegalMove b sx sy tx ty).map Prod.fst == some true

/-- The side `white` has a move that `isLegalMove` accepts: some square holds one of its
pieces and some destination is accepted for it. -/
def HasLegalMove (b : Board) (white : Bool) : Prop :=
  ∃ sx sy tx ty : Int, isInside sx sy = true ∧
    (if white then isWhitePiece (b sy sx) else isBlackPiece (b sy sx)) = true ∧
    (isLegalMove b sx sy tx ty).map Prod.fst = some true

/-- The side `white` has a legal move in the words of the specification: an in-range
source square holds a piece of that colour, and `isLegalMove` is true for it and some
in-range destination square. -/
def ExistsLegalMove (b : Board) (white : Bool) : Prop :=
  ∃ sx sy tx ty : Int, isInside sx sy = true ∧ isInside tx ty = true ∧
    (if white then isWhitePiece (b sy sx) else isBlackPiece (b sy sx)) = true ∧
    (isLegalMove b sx sy tx ty).map Prod.fst = some true

/-- The character of the king of a colour. -/
def kingChar (white : Bool) : Char := if white then 'K' else 'k'

/-- The piece on `(sx, sy)` is a piece of the colour `byWhite` that attacks `(x, y)`, in
the words of the specification: a pawn one file away and one rank behind the target in
its forward direction, a knight at an L-offset, a bishop, rook or queen on its own kind
of line with every square strictly between empty, or a king at Chebyshev distance 1. -/
def AttacksFrom (b : Board) (x y : Int) (byWhite : Bool) (sx sy : Int) : Prop :=
  let p := b sy sx
  let dx := x - sx
  let dy := y - sy
  (p = (if byWhite then 'P' else 'p') ∧ |dx| = 1 ∧ dy = (if byWhite then -1 else 1)) ∨
  (p = (if byWhite then 'N' else 'n') ∧ ((|dx| = 1 ∧ |dy| = 2) ∨ (|dx| = 2 ∧ |dy| = 1))) ∨
  (p = (if byWhite then 'B' else 'b') ∧ (|dx| = |dy| ∧ |dx| > 0) ∧ PathClear b sx sy x y) ∨
  (p = (if byWhite then 'R' else 'r') ∧ ((dx = 0 ∧ dy ≠ 0) ∨ (dy = 0 ∧ dx ≠ 0)) ∧
    PathClear b sx sy x y) ∨
  (p = (if byWhite then 'Q' else 'q') ∧
    ((|dx| = |dy| ∧ |dx| > 0) ∨ (dx = 0 ∧ dy ≠ 0) ∨ (dy = 0 ∧ dx ≠ 0)) ∧
    PathClear b sx sy x y) ∨
  (p = (if byWhite then 'K' else 'k') ∧ max |dx| |dy| = 1)

/-- Some square of the board holds a piece of the colour `byWhite` that attacks
`(x, y)`. -/
def AttackSpec (b : Board) (x y : Int) (byWhite : Bool) : Prop :=
  ∃ sx sy : Int, (0 ≤ sx ∧ sx ≤ 7 ∧ 0 ≤ sy ∧ sy ≤ 7) ∧ AttacksFrom b x y byWhite sx sy

/-- The name of a piece in the words of the specification, whatever its colour. -/
def pieceNameOf (c : Char) : String :=
  if c = 'P' ∨ c = 'p' then "Pawn"
  else if c = 'N' ∨ c = 'n' then "Knight"
  else if c = 'B' ∨ c = 'b' then "Bishop"
  else if c = 'R' ∨ c = 'r' then "Rook"
  else if c = 'Q' ∨ c = 'q' then "Queen"
  else if c = 'K' ∨ c = 'k' then "King"
  else ""

/-- A session that holds the given board and is otherwise as the program starts. -/
def sessionOf (b : Board) : Session :=
  { startup with game := { startup.game with board := b } }

/-- The log entry of a move without a capture: source, a dash, destination. -/
def plainEntry (sx sy tx ty : Int) : String :=
  posToNotation sx sy ++ "-" ++ posToNotation tx ty

/-- The move log and the undo stack hold equally many entries. Both are empty when the
program starts and after `initBoard`; `makeMove` appends one entry to each and `undoMove`
removes one from each; no other function writes either. -/
def LogMatchesStack (s : Session) : Prop :=
  s.game.moveHistory.length = s.moveStack.length

/-- The record that `makeMove` pushes for 1. e4. -/
def e4Record : Move :=
  { sx := 4, sy := 6, tx := 4, ty := 4, captured := '.',
    wasKingMove := false, wasRookMove := false }

/-- The session after 1. e4 played from the position of `initBoard`. -/
def afterE4 : Session :=
  (moveAndFlip (initBoard startup) 4 6 4 4).getD (initBoard startup)

/-- A White rook on a1 facing a Black pawn on a7, the White king on e1 and the Black king
on h8. -/
def captureBoard : Board :=
  boardOfRows [".......k".toList, "p.......".toList, "........".toList, "........".toList,
               "........".toList, "........".toList, "........".toList, "R...K...".toList]

/-- The piece that `makeMove` leaves on the destination row `ty` for the moved piece `p`:
the two promotion lines turn a `'P'` on row 0 into `'Q'` and a `'p'` on row 7 into
`'q'`. -/
def promoted (p : Char) (ty : Int) : Char :=
  if p = 'P' ∧ ty = 0 then 'Q' else if p = 'p' ∧ ty = 7 then 'q' else p

/-- One call of `makeMove` or of `undoMove` as it stands in the source: no test of
legality, of the side to move or of the game-over flag comes before it. -/
def rawStep (s : Session) : Action → Option Session
  | Action.move sx sy tx ty => makeMove s sx sy tx ty
  | Action.undo => undoMove s

/-- A sequence of calls of `makeMove` and `undoMove`. -/
def rawPlay : Session → List Action → Option Session
  | s, [] => some s
  | s, a :: rest =>
    match rawStep s a with
    | none => none
    | some s1 => rawPlay s1 rest

/-- The board after the two board assignments of `undoMove` for the record `m`. -/
def undoBoard (b : Board) (m : Move) : Board :=
  setCell (setCell b m.sy m.sx (b m.ty m.tx)) m.ty m.tx m.captured

/-- The number of captures that the undos of the given records, the top of the stack
first and starting from the board `b`, take from the count of the colour `white`: the
undo of a record with a captured piece decrements `whiteCaptures` when the piece it has
put back on the source square is White, and `blackCaptures` otherwise. -/
def pendingCaptures (white : Bool) : List Move → Board → Nat
  | [], _ => 0
  | m :: rest, b =>
    (if m.captured ≠ '.' ∧ isWhitePiece (undoBoard b m m.sy m.sx) = white then 1 else 0) +
      pendingCaptures white rest (undoBoard b m)

/-- The calls 1. e4 d5 2. exd5, a fourth call that moves the empty square a3 onto the
pawn a7, and one undo. -/
def sampleCalls : List Action :=
  [Action.move 4 6 4 4, Action.move 3 1 3 3, Action.move 4 4 3 3, Action.move 0 5 0 1,
   Action.undo]

/-- The session that `sampleCalls` reaches from the position of `initBoard`. -/
def sampleSession : Session :=
  (rawPlay (initBoard startup) sampleCalls).getD startup

/-- The `while` loop of `clearPath` with a record of its work: the result and the squares
whose `board[y][x]` it has read, one for each iteration, in order. No read is refused
here; running out of fuel is `none`. -/
def clearPathTrace (b : Board) (dx dy tx ty : Int) :
    Nat → Int → Int → Option (Bool × List (Int × Int))
  | 0, _, _ => none
  | fuel + 1, x, y =>
    if x ≠ tx ∨ y ≠ ty then
      if b y x ≠ '.' then some (false, [(x, y)])
      else (clearPathTrace b dx dy tx ty fuel (x + dx) (y + dy)).map
        (fun r => (r.1, (x, y) :: r.2))
    else some (true, [])

/-- The function `clearPath` with the record of the squares it reads. -/
def clearPathReads (b : Board) (sx sy tx ty : Int) : Option (Bool × List (Int × Int)) :=
  let dx : Int := if tx > sx then 1 else if tx < sx then -1 else 0
  let dy : Int := if ty > sy then 1 else if ty < sy then -1 else 0
  clearPathTrace b dx dy tx ty 16 (sx + dx) (sy + dy)

instance decidableAligned (sx sy tx ty : Int) : Decidable (Aligned sx sy tx ty) :=
  inferInstanceAs (Decidable ((tx ≠ sx ∨ ty ≠ sy) ∧ (tx = sx ∨ ty = sy ∨ |tx - sx| = |ty - sy|)))

/-- A call of `clearPath` behind an assertion of what its callers are to guarantee: both
squares on the board, distinct, and on a common file, rank or diagonal. A call that
breaks the assertion has no result. -/
def clearPathAsserted (b : Board) (sx sy tx ty : Int) : Option Bool :=
  if isInside sx sy = true ∧ isInside tx ty = true ∧ Aligned sx sy tx ty then
    clearPath b sx sy tx ty
  else none

/-- The body of the two loops of `isSquareAttacked`, with the function it calls for
`clearPath` as a parameter `cp`. -/
def attackFromWith (cp : Board → Int → Int → Int → Int → Option Bool)
    (b : Board) (x y : Int) (byWhite : Bool) (sy sx : Int) : Option (Option Bool) :=
  let p := b sy sx
  if p = '.' then some none
  else if byWhite && !isWhitePiece p then some none
  else if !byWhite && !isBlackPiece p then some none
  else
    let dx := x - sx
    let dy := y - sy
    let adx := iabs dx
    let ady := iabs dy
    let u := toupper p
    if u = 'P' then
      let dir : Int := if byWhite then -1 else 1
      retTrueIf (some (decide (iabs dx = 1) && decide (dy = dir)))
    else if u = 'N' then
      retTrueIf (some ((decide (adx = 1) && decide (ady = 2)) || (decide (adx = 2) && decide (ady = 1))))
    else if u = 'B' then
      retTrueIf (guardCall (decide (adx = ady) && decide (adx > 0)) (cp b sx sy x y))
    else if u = 'R' then
      retTrueIf (guardCall ((decide (adx = 0) && decide (ady > 0)) || (decide (ady = 0) && decide (adx > 0)))
        (cp b sx sy x y))
    else if u = 'Q' then
      retTrueIf (guardCall ((decide (adx = ady) && decide (adx > 0)) || (decide (adx = 0) && decide (ady > 0))
        || (decide (ady = 0) && decide (adx > 0))) (cp b sx sy x y))
    else if u = 'K' then
      retTrueIf (some (decide (max adx ady = 1)))
    else some none

/-- The function `isSquareAttacked` with the callee `cp` for `clearPath`. -/
def isSquareAttackedWith (cp : Board → Int → Int → Int → Int → Option Bool)
    (b : Board) (x y : Int) (byWhite : Bool) : Option Bool :=
  (forLoop (fun sy => forLoop (fun sx => attackFromWith cp b x y byWhite sy sx) idx8) idx8).map
    (fun r => r.getD false)

/-- The function `isInCheck` with the callee `cp` for `clearPath`. -/
def isInCheckWith (cp : Board → Int → Int → Int → Int → Option Bool)
    (b : Board) (white : Bool) : Option Bool :=
  (forLoop (fun y => forLoop (fun x =>
      let p := b y x
      if (white && decide (p = 'K')) || (!white && decide (p = 'k')) then
        (isSquareAttackedWith cp b x y (!white)).map some
      else some none) idx8) idx8).map (fun r => r.getD false)

/-- The function `wouldBeInCheck` with the callee `cp` for `clearPath`. -/
def wouldBeInCheckWith (cp : Board → Int → Int → Int → Int → Option Bool)
    (b : Board) (sx sy tx ty : Int) (white : Bool) : Option (Bool × Board) :=
  let temp := b ty tx
  let b1 := setCell b ty tx (b sy sx)
  let b2 := setCell b1 sy sx '.'
  match isInCheckWith cp b2 white with
  | none => none
  | some check =>
    let b3 := setCell b2 sy sx (b2 ty tx)
    let b4 := setCell b3 ty tx temp
    some (check, b4)

/-- The `switch (toupper(p))` of `isLegalMove` with the callee `cp` for `clearPath`. -/
def movePatternWith (cp : Board → Int → Int → Int → Int → Option Bool)
    (b : Board) (p : Char) (sx sy tx ty : Int) : Option Bool :=
  let dx := tx - sx
  let dy := ty - sy
  let adx := iabs dx
  let ady := iabs dy
  let white := isWhitePiece p
  let u := toupper p
  if u = 'P' then
    let dir : Int := if white then -1 else 1
    let startRow : Int := if white then 6 else 1
    if dx = 0 ∧ dy = dir ∧ b ty tx = '.' then some true
    else if dx = 0 ∧ dy = 2 * dir ∧ sy = startRow ∧ b (sy + dir) sx = '.' ∧ b ty tx = '.' then some true
    else if iabs dx = 1 ∧ dy = dir ∧ b ty tx ≠ '.' ∧ sameColor p (b ty tx) = false then some true
    else some false
  else if u = 'N' then
    some ((decide (adx = 1) && decide (ady = 2)) || (decide (adx = 2) && decide (ady = 1)))
  else if u = 'B' then
    guardCall (decide (adx = ady) && decide (adx > 0)) (cp b sx sy tx ty)
  else if u = 'R' then
    guardCall ((decide (adx = 0) && decide (ady > 0)) || (decide (ady = 0) && decide (adx > 0)))
      (cp b sx sy tx ty)
  else if u = 'Q' then
    guardCall ((decide (adx = ady) && decide (adx > 0)) || (decide (adx = 0) && decide (ady > 0))
      || (decide (ady = 0) && decide (adx > 0))) (cp b sx sy tx ty)
  else if u = 'K' then
    some (decide (max adx ady = 1))
  else some true

/-- The function `isLegalMove` with the callee `cp` for `clearPath`. -/
def isLegalMoveWith (cp : Board → Int → Int → Int → Int → Option Bool)
    (b : Board) (sx sy tx ty : Int) : Option (Bool × Board) :=
  if !isInside sx sy || !isInside tx ty then some (false, b)
  else if sx = tx ∧ sy = ty then some (false, b)
  else
    let p := b sy sx
    if p = '.' then some (false, b)
    else if sameColor p (b ty tx) then some (false, b)
    else
      match movePatternWith cp b p sx sy tx ty with
      | none => none
      | some false => some (false, b)
      | some true =>
        match wouldBeInCheckWith cp b sx sy tx ty (isWhitePiece p) with
        | none => none
        | some (check, b') => some (!check, b')

/-! ## Theorems -/

theorem setCell_same (b : Board) (y x : Int) (c : Char) : setCell b y x c y x = c := by
  simp [setCell]

theorem setCell_other (b : Board) (y x y' x' : Int) (c : Char) (h : ¬ (y' = y ∧ x' = x)) :
    setCell b y x c y' x' = b y' x' := by
  simp [setCell, h]

theorem forLoop_congr {ρ : Type} (f g : Int → Option (Option ρ)) (l : List Int)
    (h : ∀ i, i ∈ l → f i = g i) : forLoop f l = forLoop g l := by
  induction l with
  | nil => rfl
  | cons i rest ih =>
    have hi : f i = g i := h i (List.mem_cons_self _ _)
    have hrest : forLoop f rest = forLoop g rest :=
      ih (fun j hj => h j (List.mem_cons_of_mem _ hj))
    simp only [forLoop, hi, hrest]

/-- The loop of `clearPath` only looks at which squares are empty. -/
theorem clearPathLoop_congr (b1 b2 : Board) (dx dy tx ty : Int)
    (h : ∀ y x, b1 y x = '.' ↔ b2 y x = '.') (fuel : Nat) (x y : Int) :
    clearPathLoop b1 dx dy tx ty fuel x y = clearPathLoop b2 dx dy tx ty fuel x y := by
  induction fuel generalizing x y with
  | zero => rfl
  | succ n ih =>
    simp only [clearPathLoop, ih, ne_eq, h y x]

theorem clearPath_congr (b1 b2 : Board) (sx sy tx ty : Int)
    (h : ∀ y x, b1 y x = '.' ↔ b2 y x = '.') :
    clearPath b1 sx sy tx ty = clearPath b2 sx sy tx ty := by
  simp only [clearPath, clearPathLoop_congr b1 b2 _ _ _ _ h]

theorem CheckEquiv.empty_iff {white : Bool} {b1 b2 : Board} (h : CheckEquiv white b1 b2)
    (y x : Int) : b1 y x = '.' ↔ b2 y x = '.' := by
  rcases h y x with e | ⟨⟨h1, _, _⟩, ⟨h2, _, _⟩⟩
  · rw [e]
  · exact ⟨fun a => absurd a h1, fun a => absurd a h2⟩

theorem attackFrom_congr (white : Bool) (b1 b2 : Board) (h : CheckEquiv white b1 b2)
    (x y sy sx : Int) :
    attackFrom b1 x y (!white) sy sx = attackFrom b2 x y (!white) sy sx := by
  have hcp : clearPath b1 sx sy x y = clearPath b2 sx sy x y :=
    clearPath_congr b1 b2 sx sy x y h.empty_iff
  rcases h sy sx with e | ⟨⟨h1, _, h1c⟩, ⟨h2, _, h2c⟩⟩
  · simp only [attackFrom, e, hcp]
  · cases white
    · simp only [Bool.false_eq_true, if_false] at h1c h2c
      simp [attackFrom, h1, h2, h1c, h2c]
    · simp only [if_true] at h1c h2c
      simp [attackFrom, h1, h2, h1c, h2c]

theorem isSquareAttacked_congr (white : Bool) (b1 b2 : Board) (h : CheckEquiv white b1 b2)
    (x y : Int) :
    isSquareAttacked b1 x y (!white) = isSquareAttacked b2 x y (!white) := by
  have hbody : (fun sy => forLoop (fun sx => attackFrom b1 x y (!white) sy sx) idx8)
      = (fun sy => forLoop (fun sx => attackFrom b2 x y (!white) sy sx) idx8) := by
    funext sy
    exact forLoop_congr _ _ _ (fun sx _ => attackFrom_congr white b1 b2 h x y sy sx)
  simp only [isSquareAttacked, hbody]

theorem isInCheck_congr (white : Bool) (b1 b2 : Board) (h : CheckEquiv white b1 b2) :
    isInCheck b1 white = isInCheck b2 white := by
  have hking : ∀ y x, ((white && decide (b1 y x = 'K')) || (!white && decide (b1 y x = 'k')))
      = ((white && decide (b2 y x = 'K')) || (!white && decide (b2 y x = 'k'))) := by
    intro y x
    rcases h y x with e | ⟨⟨_, h1, _⟩, ⟨_, h2, _⟩⟩
    · rw [e]
    · cases white
      · simp only [Bool.false_eq_true, if_false] at h1 h2
        simp [h1, h2]
      · simp only [if_true] at h1 h2
        simp [h1, h2]
  have hbody : (fun y => forLoop (fun x =>
        if ((white && decide (b1 y x = 'K')) || (!white && decide (b1 y x = 'k'))) = true then
          (isSquareAttacked b1 x y (!white)).map some
        else some none) idx8)
      = (fun y => forLoop (fun x =>
        if ((white && decide (b2 y x = 'K')) || (!white && decide (b2 y x = 'k'))) = true then
          (isSquareAttacked b2 x y (!white)).map some
        else some none) idx8) := by
    funext y
    refine forLoop_congr _ _ _ (fun x _ => ?_)
    simp only [hking y x, isSquareAttacked_congr white b1 b2 h x y]
  simp only [isInCheck]
  exact congrArg (fun f => Option.map (fun r => r.getD false) (forLoop f idx8)) hbody

theorem wouldBeInCheck_eq (b : Board) (sx sy tx ty : Int) (white : Bool) :
    wouldBeInCheck b sx sy tx ty white
      = (isInCheck (movedBoard b sx sy tx ty) white).map (fun c => (c, b)) := by
  have hb : setCell (setCell (movedBoard b sx sy tx ty) sy sx
      (movedBoard b sx sy tx ty ty tx)) ty tx (b ty tx) = b := by
    funext y x
    by_cases h1 : y = ty ∧ x = tx
    · obtain ⟨rfl, rfl⟩ := h1
      simp [setCell]
    · by_cases h2 : y = sy ∧ x = sx
      · obtain ⟨rfl, rfl⟩ := h2
        have h3 : ¬ (ty = y ∧ tx = x) := fun h => h1 ⟨h.1.symm, h.2.symm⟩
        simp [setCell, movedBoard, h1, h3]
      · simp [setCell, movedBoard, h1, h2]
  unfold wouldBeInCheck
  simp only []
  change (match isInCheck (movedBoard b sx sy tx ty) white with
    | none => none
    | some check => some (check, setCell (setCell (movedBoard b sx sy tx ty) sy sx
        (movedBoard b sx sy tx ty ty tx)) ty tx (b ty tx))) = _
  rw [hb]
  cases isInCheck (movedBoard b sx sy tx ty) white <;> rfl

/-- What an accepted move has passed: the range test, the test for equal squares, the
occupancy tests, the `switch` and the search for a check. -/
theorem isLegalMove_true_iff (b : Board) (sx sy tx ty : Int) :
    (isLegalMove b sx sy tx ty).map Prod.fst = some true ↔
      (isInside sx sy = true ∧ isInside tx ty = true ∧ ¬ (sx = tx ∧ sy = ty) ∧
        b sy sx ≠ '.' ∧ sameColor (b sy sx) (b ty tx) = false ∧
        movePattern b (b sy sx) sx sy tx ty = some true ∧
        isInCheck (movedBoard b sx sy tx ty) (isWhitePiece (b sy sx)) = some false) := by
  unfold isLegalMove
  by_cases h1 : isInside sx sy = true
  · by_cases h2 : isInside tx ty = true
    · by_cases h3 : sx = tx ∧ sy = ty
      · simp [h1, h2, h3]
      · by_cases h4 : b sy sx = '.'
        · simp [h1, h2, h3, h4]
        · by_cases h5 : sameColor (b sy sx) (b ty tx) = true
          · simp [h1, h2, h3, h4, h5]
          · have h5f : sameColor (b sy sx) (b ty tx) = false := by simpa using h5
            simp only [h1, h2, h3, h4, h5f, Bool.not_true, Bool.or_self, Bool.false_eq_true,
              if_false, ne_eq, not_false_eq_true, true_and, wouldBeInCheck_eq]
            rcases hp : movePattern b (b sy sx) sx sy tx ty with _ | _ | _
            · simp
            · simp
            · rcases hc : isInCheck (movedBoard b sx sy tx ty) (isWhitePiece (b sy sx))
                with _ | _ | _ <;> simp
    · simp [h1, h2]
  · simp [h1]

/-- The board after `makeMove` is the board on which `isLegalMove` looked for a check,
up to the promotion of the pawn that has just arrived on its last row. -/
theorem makeMove_board (s : Session) (sx sy tx ty : Int)
    (hs : isInside sx sy = true) (ht : isInside tx ty = true) :
    ∃ s1, makeMove s sx sy tx ty = some s1 ∧
      s1.game.board =
        (let b2 := movedBoard s.game.board sx sy tx ty
         let b3 := if b2 ty tx = 'P' ∧ ty = 0 then setCell b2 ty tx 'Q' else b2
         if b3 ty tx = 'p' ∧ ty = 7 then setCell b3 ty tx 'q' else b3) := by
  simp [makeMove, hs, ht, movedBoard]

theorem checkEquiv_promote_white (b : Board) (y x : Int) (h : b y x = 'P') :
    CheckEquiv true (setCell b y x 'Q') b := by
  intro y' x'
  by_cases e : y' = y ∧ x' = x
  · obtain ⟨rfl, rfl⟩ := e
    right
    rw [setCell_same, h]
    decide
  · left
    exact setCell_other b y x y' x' 'Q' e

theorem checkEquiv_promote_black (b : Board) (y x : Int) (h : b y x = 'p') :
    CheckEquiv false (setCell b y x 'q') b := by
  intro y' x'
  by_cases e : y' = y ∧ x' = x
  · obtain ⟨rfl, rfl⟩ := e
    right
    rw [setCell_same, h]
    decide
  · left
    exact setCell_other b y x y' x' 'q' e

/-- C1 (check symmetry): a move accepted by `isLegalMove` can be made, and on the board
that `makeMove` produces, promotion included, the colour of the moved piece is not in
check. -/
theorem legal_move_leaves_mover_out_of_check (s : Session) (sx sy tx ty : Int)
    (hlegal : (isLegalMove s.game.board sx sy tx ty).map Prod.fst = some true) :
    ∃ s1, makeMove s sx sy tx ty = some s1 ∧
      isInCheck s1.game.board (isWhitePiece (s.game.board sy sx)) = some false := by
  obtain ⟨hs, ht, hne, _, _, _, hchk⟩ := (isLegalMove_true_iff _ _ _ _ _).mp hlegal
  obtain ⟨s1, hmk, hboard⟩ := makeMove_board s sx sy tx ty hs ht
  refine ⟨s1, hmk, ?_⟩
  have hdest : movedBoard s.game.board sx sy tx ty ty tx = s.game.board sy sx := by
    have h3 : ¬ (ty = sy ∧ tx = sx) := fun h => hne ⟨h.2.symm, h.1.symm⟩
    simp [movedBoard, setCell, h3]
  rw [hboard]
  simp only [hdest]
  by_cases hP : s.game.board sy sx = 'P' ∧ ty = 0
  · have hq : ¬ (setCell (movedBoard s.game.board sx sy tx ty) ty tx 'Q' ty tx = 'p' ∧ ty = 7) := by
      rw [setCell_same]
      intro h
      exact absurd h.1 (by decide)
    rw [if_pos hP, if_neg hq]
    have hw : isWhitePiece (s.game.board sy sx) = true := by rw [hP.1]; decide
    rw [hw] at hchk ⊢
    rw [isInCheck_congr true _ _ (checkEquiv_promote_white _ ty tx (by rw [hdest]; exact hP.1))]
    exact hchk
  · rw [if_neg hP]
    simp only [hdest]
    by_cases hp : s.game.board sy sx = 'p' ∧ ty = 7
    · rw [if_pos hp]
      have hw : isWhitePiece (s.game.board sy sx) = false := by rw [hp.1]; decide
      rw [hw] at hchk ⊢
      rw [isInCheck_congr false _ _ (checkEquiv_promote_black _ ty tx (by rw [hdest]; exact hp.1))]
      exact hchk
    · rw [if_neg hp]
      exact hchk

theorem isInside_iff (x y : Int) : isInside x y = true ↔ (0 ≤ x ∧ x < 8 ∧ 0 ≤ y ∧ y < 8) := by
  simp [isInside, and_assoc]

theorem mem_idx8 (i : Int) : i ∈ idx8 ↔ (0 ≤ i ∧ i < 8) := by
  simp only [idx8, List.mem_cons, List.mem_singleton, List.not_mem_nil, or_false]
  omega

theorem abs_eq_iabs (v : Int) : |v| = iabs v := by
  unfold iabs
  split_ifs with h
  · exact abs_of_neg h
  · exact abs_of_nonneg (by omega)

theorem sign_eq_sgn (v : Int) : Int.sign v = sgn v := by
  unfold sgn
  split_ifs with h1 h2
  · exact Int.sign_eq_one_of_pos h1
  · exact Int.sign_eq_neg_one_of_neg h2
  · have : v = 0 := by omega
    subst this
    rfl

/-- The loop of `clearPath`, started `n` steps before its target with all squares on the
way inside the board, stops after `n` iterations and reports whether they are empty. -/
theorem clearPathLoop_spec (b : Board) (dx dy : Int) (hd : dx ≠ 0 ∨ dy ≠ 0) (n : Nat) :
    ∀ (fuel : Nat) (x y : Int), n < fuel →
      (∀ k : Nat, k < n → isInside (x + k * dx) (y + k * dy) = true) →
      ∃ r, clearPathLoop b dx dy (x + n * dx) (y + n * dy) fuel x y = some r ∧
        (r = true ↔ ∀ k : Nat, k < n → b (y + k * dy) (x + k * dx) = '.') := by
  induction n with
  | zero =>
    intro fuel x y hf _
    obtain ⟨f, rfl⟩ : ∃ f, fuel = f + 1 := ⟨fuel - 1, by omega⟩
    refine ⟨true, ?_, by simp⟩
    simp [clearPathLoop]
  | succ n ih =>
    intro fuel x y hf hin
    obtain ⟨f, rfl⟩ : ∃ f, fuel = f + 1 := ⟨fuel - 1, by omega⟩
    have hne : x ≠ x + ((n + 1 : Nat) : Int) * dx ∨ y ≠ y + ((n + 1 : Nat) : Int) * dy := by
      have hpos : ((n + 1 : Nat) : Int) ≠ 0 := by omega
      rcases hd with h | h
      · left
        intro e
        have : ((n + 1 : Nat) : Int) * dx = 0 := by linarith
        rcases mul_eq_zero.mp this with h0 | h0
        · exact hpos h0
        · exact h h0
      · right
        intro e
        have : ((n + 1 : Nat) : Int) * dy = 0 := by linarith
        rcases mul_eq_zero.mp this with h0 | h0
        · exact hpos h0
        · exact h h0
    have h0 : isInside x y = true := by
      have := hin 0 (by omega)
      simpa using this
    have htx : x + ((n + 1 : Nat) : Int) * dx = (x + dx) + (n : Int) * dx := by
      push_cast; ring
    have hty : y + ((n + 1 : Nat) : Int) * dy = (y + dy) + (n : Int) * dy := by
      push_cast; ring
    by_cases hb : b y x = '.'
    · have hin1 : ∀ k : Nat, k < n → isInside (x + dx + k * dx) (y + dy + k * dy) = true := by
        intro k hk
        have := hin (k + 1) (by omega)
        have e1 : x + ((k + 1 : Nat) : Int) * dx = x + dx + (k : Int) * dx := by push_cast; ring
        have e2 : y + ((k + 1 : Nat) : Int) * dy = y + dy + (k : Int) * dy := by push_cast; ring
        rw [e1, e2] at this
        exact this
      obtain ⟨r, hr, hiff⟩ := ih f (x + dx) (y + dy) (by omega) hin1
      refine ⟨r, ?_, ?_⟩
      · rw [clearPathLoop, if_pos hne]
        simp only [h0, Bool.not_true, Bool.false_eq_true, if_false, ne_eq, hb,
          not_true_eq_false]
        rw [htx, hty]
        exact hr
      · rw [hiff]
        constructor
        · intro h k hk
          rcases Nat.eq_zero_or_pos k with rfl | hk0
          · simpa using hb
          · obtain ⟨j, rfl⟩ : ∃ j, k = j + 1 := ⟨k - 1, by omega⟩
            have := h j (by omega)
            have e1 : x + ((j + 1 : Nat) : Int) * dx = x + dx + (j : Int) * dx := by push_cast; ring
            have e2 : y + ((j + 1 : Nat) : Int) * dy = y + dy + (j : Int) * dy := by push_cast; ring
            rw [e1, e2]
            exact this
        · intro h k hk
          have := h (k + 1) (by omega)
          have e1 : x + ((k + 1 : Nat) : Int) * dx = x + dx + (k : Int) * dx := by push_cast; ring
          have e2 : y + ((k + 1 : Nat) : Int) * dy = y + dy + (k : Int) * dy := by push_cast; ring
          rw [e1, e2] at this
          exact this
    · refine ⟨false, ?_, ?_⟩
      · rw [clearPathLoop, if_pos hne]
        simp [h0, hb]
      · constructor
        · intro h
          exact absurd h (by decide)
        · intro h
          have := h 0 (by omega)
          simp at this
          exact absurd this hb

theorem sgn_cases (v : Int) :
    (sgn v = 1 ∧ 0 < v ∧ iabs v = v) ∨ (sgn v = -1 ∧ v < 0 ∧ iabs v = -v) ∨
      (sgn v = 0 ∧ v = 0 ∧ iabs v = 0) := by
  unfold sgn iabs
  rcases lt_trichotomy v 0 with h | h | h
  · right; left
    simp [h, not_lt_of_gt h]
  · right; right
    simp [h]
  · left
    simp [h, not_lt_of_gt h]

theorem clearPath_step_eq (sx tx : Int) :
    (if tx > sx then (1 : Int) else if tx < sx then -1 else 0) = sgn (tx - sx) := by
  unfold sgn
  split_ifs <;> omega

/-- On two distinct squares of the board that share a file, rank or diagonal, `clearPath`
returns, and it returns true exactly when every square strictly between them is empty. -/
theorem clearPath_spec (b : Board) (sx sy tx ty : Int)
    (hs : isInside sx sy = true) (ht : isInside tx ty = true) (hal : Aligned sx sy tx ty) :
    ∃ r, clearPath b sx sy tx ty = some r ∧ (r = true ↔ PathClear b sx sy tx ty) := by
  rw [isInside_iff] at hs ht
  obtain ⟨hne, hline⟩ := hal
  rw [abs_eq_iabs, abs_eq_iabs] at hline
  unfold clearPath PathClear
  simp only [clearPath_step_eq, abs_eq_iabs, sign_eq_sgn]
  obtain ⟨n, hn⟩ : ∃ n : Nat, (n : Int) + 1 = max (iabs (tx - sx)) (iabs (ty - sy)) := by
    refine ⟨(max (iabs (tx - sx)) (iabs (ty - sy)) - 1).toNat, ?_⟩
    rcases sgn_cases (tx - sx) with ⟨_, h1, e1⟩ | ⟨_, h1, e1⟩ | ⟨_, h1, e1⟩ <;>
    rcases sgn_cases (ty - sy) with ⟨_, h2, e2⟩ | ⟨_, h2, e2⟩ | ⟨_, h2, e2⟩ <;>
    rw [e1, e2] <;> omega
  have hn7 : n < 16 := by
    rcases sgn_cases (tx - sx) with ⟨_, h1, e1⟩ | ⟨_, h1, e1⟩ | ⟨_, h1, e1⟩ <;>
    rcases sgn_cases (ty - sy) with ⟨_, h2, e2⟩ | ⟨_, h2, e2⟩ | ⟨_, h2, e2⟩ <;>
    rw [e1, e2] at hn <;> omega
  have hd : sgn (tx - sx) ≠ 0 ∨ sgn (ty - sy) ≠ 0 := by
    rcases sgn_cases (tx - sx) with ⟨d1, h1, e1⟩ | ⟨d1, h1, e1⟩ | ⟨d1, h1, e1⟩ <;>
    rcases sgn_cases (ty - sy) with ⟨d2, h2, e2⟩ | ⟨d2, h2, e2⟩ | ⟨d2, h2, e2⟩ <;>
    rw [d1, d2] <;> omega
  have htx : sx + sgn (tx - sx) + (n : Int) * sgn (tx - sx) = tx := by
    rcases sgn_cases (tx - sx) with ⟨d1, h1, e1⟩ | ⟨d1, h1, e1⟩ | ⟨d1, h1, e1⟩ <;>
    rcases sgn_cases (ty - sy) with ⟨d2, h2, e2⟩ | ⟨d2, h2, e2⟩ | ⟨d2, h2, e2⟩ <;>
    rw [e1, e2] at hn hline <;> rw [d1] <;> omega
  have hty : sy + sgn (ty - sy) + (n : Int) * sgn (ty - sy) = ty := by
    rcases sgn_cases (tx - sx) with ⟨d1, h1, e1⟩ | ⟨d1, h1, e1⟩ | ⟨d1, h1, e1⟩ <;>
    rcases sgn_cases (ty - sy) with ⟨d2, h2, e2⟩ | ⟨d2, h2, e2⟩ | ⟨d2, h2, e2⟩ <;>
    rw [e1, e2] at hn hline <;> rw [d2] <;> omega
  have hin : ∀ k : Nat, k < n →
      isInside (sx + sgn (tx - sx) + k * sgn (tx - sx)) (sy + sgn (ty - sy) + k * sgn (ty - sy))
        = true := by
    intro k hk
    rw [isInside_iff]
    rcases sgn_cases (tx - sx) with ⟨d1, h1, e1⟩ | ⟨d1, h1, e1⟩ | ⟨d1, h1, e1⟩ <;>
    rcases sgn_cases (ty - sy) with ⟨d2, h2, e2⟩ | ⟨d2, h2, e2⟩ | ⟨d2, h2, e2⟩ <;>
    rw [e1, e2] at hn hline <;> rw [d1, d2] <;> omega
  obtain ⟨r, hr, hiff⟩ := clearPathLoop_spec b (sgn (tx - sx)) (sgn (ty - sy)) hd n 16
    (sx + sgn (tx - sx)) (sy + sgn (ty - sy)) hn7 hin
  rw [htx, hty] at hr
  refine ⟨r, hr, ?_⟩
  rw [hiff, ← hn]
  constructor
  · intro h k hk0 hkn
    obtain ⟨j, rfl⟩ : ∃ j : Nat, k = (j : Int) + 1 := ⟨(k - 1).toNat, by omega⟩
    have := h j (by omega)
    have e1 : sx + ((j : Int) + 1) * sgn (tx - sx) = sx + sgn (tx - sx) + (j : Int) * sgn (tx - sx) := by
      ring
    have e2 : sy + ((j : Int) + 1) * sgn (ty - sy) = sy + sgn (ty - sy) + (j : Int) * sgn (ty - sy) := by
      ring
    rw [e1, e2]
    exact this
  · intro h k hk
    have := h ((k : Int) + 1) (by omega) (by omega)
    have e1 : sx + ((k : Int) + 1) * sgn (tx - sx) = sx + sgn (tx - sx) + (k : Int) * sgn (tx - sx) := by
      ring
    have e2 : sy + ((k : Int) + 1) * sgn (ty - sy) = sy + sgn (ty - sy) + (k : Int) * sgn (ty - sy) := by
      ring
    rw [e1, e2] at this
    exact this

theorem iabs_cases (v : Int) : (0 ≤ v ∧ iabs v = v) ∨ (v < 0 ∧ iabs v = -v) := by
  unfold iabs
  by_cases h : v < 0
  · right; simp [h]
  · left; simp [h]; omega

theorem forLoop_total {ρ : Type} (body : Int → Option (Option ρ)) (l : List Int)
    (h : ∀ i, i ∈ l → ∃ r, body i = some r) : ∃ r, forLoop body l = some r := by
  induction l with
  | nil => exact ⟨none, rfl⟩
  | cons i rest ih =>
    obtain ⟨r, hr⟩ := h i (List.mem_cons_self _ _)
    obtain ⟨r2, hr2⟩ := ih (fun j hj => h j (List.mem_cons_of_mem _ hj))
    cases r with
    | none => exact ⟨r2, by simp only [forLoop, hr, hr2]⟩
    | some v => exact ⟨some v, by simp only [forLoop, hr]⟩

/-- A loop whose body keeps an invariant of the state returns and keeps it. -/
theorem forLoopS_inv {σ ρ : Type} (P : σ → Prop) (body : Int → σ → Option (Option ρ × σ))
    (l : List Int)
    (h : ∀ i, i ∈ l → ∀ s, P s → ∃ r s1, body i s = some (r, s1) ∧ P s1) :
    ∀ s, P s → ∃ r s1, forLoopS body l s = some (r, s1) ∧ P s1 := by
  induction l with
  | nil => intro s hs; exact ⟨none, s, rfl, hs⟩
  | cons i rest ih =>
    intro s hs
    obtain ⟨r, s1, hr, hs1⟩ := h i (List.mem_cons_self _ _) s hs
    cases r with
    | none =>
      obtain ⟨r2, s2, hr2, hs2⟩ := ih (fun j hj => h j (List.mem_cons_of_mem _ hj)) s1 hs1
      exact ⟨r2, s2, by simp only [forLoopS, hr, hr2], hs2⟩
    | some v => exact ⟨some v, s1, by simp only [forLoopS, hr], hs1⟩

/-- The guarded call of `clearPath` returns whenever its guard implies that the two
squares are aligned. -/
theorem guardCall_clearPath (b : Board) (c : Bool) (sx sy tx ty : Int)
    (hs : isInside sx sy = true) (ht : isInside tx ty = true)
    (hc : c = true → Aligned sx sy tx ty) :
    ∃ r, guardCall c (clearPath b sx sy tx ty) = some r ∧
      (r = true ↔ (c = true ∧ PathClear b sx sy tx ty)) := by
  cases c with
  | false => exact ⟨false, rfl, by simp⟩
  | true =>
    obtain ⟨r, hr, hiff⟩ := clearPath_spec b sx sy tx ty hs ht (hc rfl)
    exact ⟨r, by simpa [guardCall] using hr, by simpa using hiff⟩

theorem aligned_of_diag (sx sy tx ty : Int)
    (h : (decide (iabs (tx - sx) = iabs (ty - sy)) && decide (iabs (tx - sx) > 0)) = true) :
    Aligned sx sy tx ty := by
  simp only [Bool.and_eq_true, decide_eq_true_eq] at h
  unfold Aligned
  simp only [abs_eq_iabs]
  rcases iabs_cases (tx - sx) with ⟨_, e1⟩ | ⟨_, e1⟩ <;>
  rcases iabs_cases (ty - sy) with ⟨_, e2⟩ | ⟨_, e2⟩ <;>
  rw [e1, e2] at h ⊢ <;> omega

theorem aligned_of_line (sx sy tx ty : Int)
    (h : ((decide (iabs (tx - sx) = 0) && decide (iabs (ty - sy) > 0)) ||
      (decide (iabs (ty - sy) = 0) && decide (iabs (tx - sx) > 0))) = true) :
    Aligned sx sy tx ty := by
  simp only [Bool.or_eq_true, Bool.and_eq_true, decide_eq_true_eq] at h
  unfold Aligned
  simp only [abs_eq_iabs]
  rcases iabs_cases (tx - sx) with ⟨_, e1⟩ | ⟨_, e1⟩ <;>
  rcases iabs_cases (ty - sy) with ⟨_, e2⟩ | ⟨_, e2⟩ <;>
  rw [e1, e2] at h ⊢ <;> omega

theorem aligned_of_queen (sx sy tx ty : Int)
    (h : ((decide (iabs (tx - sx) = iabs (ty - sy)) && decide (iabs (tx - sx) > 0)) ||
      (decide (iabs (tx - sx) = 0) && decide (iabs (ty - sy) > 0)) ||
      (decide (iabs (ty - sy) = 0) && decide (iabs (tx - sx) > 0))) = true) :
    Aligned sx sy tx ty := by
  rw [Bool.or_assoc, Bool.or_eq_true] at h
  rcases h with h | h
  · exact aligned_of_diag sx sy tx ty h
  · exact aligned_of_line sx sy tx ty h

theorem retTrueIf_some (r : Bool) : ∃ v, retTrueIf (some r) = some v := by
  cases r
  · exact ⟨none, rfl⟩
  · exact ⟨some true, rfl⟩

theorem attackFrom_total (b : Board) (x y : Int) (byWhite : Bool) (sy sx : Int)
    (hs : isInside sx sy = true) (ht : isInside x y = true) :
    ∃ r, attackFrom b x y byWhite sy sx = some r := by
  unfold attackFrom
  simp only []
  split_ifs
  all_goals first
    | exact ⟨_, rfl⟩
    | exact retTrueIf_some _
    | (obtain ⟨r, hr, _⟩ := guardCall_clearPath b _ sx sy x y hs ht (aligned_of_diag sx sy x y)
       rw [hr]; exact retTrueIf_some r)
    | (obtain ⟨r, hr, _⟩ := guardCall_clearPath b _ sx sy x y hs ht (aligned_of_line sx sy x y)
       rw [hr]; exact retTrueIf_some r)
    | (obtain ⟨r, hr, _⟩ := guardCall_clearPath b _ sx sy x y hs ht (aligned_of_queen sx sy x y)
       rw [hr]; exact retTrueIf_some r)

theorem isInside_of_mem {x y : Int} (hx : x ∈ idx8) (hy : y ∈ idx8) : isInside x y = true := by
  rw [mem_idx8] at hx hy
  rw [isInside_iff]
  omega

/-- The function `isSquareAttacked` returns for every square of the board. -/
theorem isSquareAttacked_total (b : Board) (x y : Int) (byWhite : Bool)
    (h : isInside x y = true) : ∃ r, isSquareAttacked b x y byWhite = some r := by
  obtain ⟨r, hr⟩ := forLoop_total
    (fun sy => forLoop (fun sx => attackFrom b x y byWhite sy sx) idx8) idx8
    (fun sy hsy => forLoop_total _ idx8
      (fun sx hsx => attackFrom_total b x y byWhite sy sx (isInside_of_mem hsx hsy) h))
  exact ⟨r.getD false, by simp only [isSquareAttacked, hr, Option.map_some']⟩

/-- The function `isInCheck` returns on every board. -/
theorem isInCheck_total (b : Board) (white : Bool) : ∃ r, isInCheck b white = some r := by
  obtain ⟨r, hr⟩ := forLoop_total
    (fun y => forLoop (fun x =>
      if ((white && decide (b y x = 'K')) || (!white && decide (b y x = 'k'))) = true then
        (isSquareAttacked b x y (!white)).map some
      else some none) idx8) idx8
    (fun y hy => forLoop_total _ idx8 (fun x hx => by
      obtain ⟨a, ha⟩ := isSquareAttacked_total b x y (!white) (isInside_of_mem hx hy)
      by_cases hk : ((white && decide (b y x = 'K')) || (!white && decide (b y x = 'k'))) = true
      · exact ⟨some a, by simp only [hk, if_true, ha, Option.map_some']⟩
      · exact ⟨none, by simp [hk]⟩))
  exact ⟨r.getD false, by simp only [isInCheck, hr, Option.map_some']⟩

theorem movePattern_total (b : Board) (p : Char) (sx sy tx ty : Int)
    (hs : isInside sx sy = true) (ht : isInside tx ty = true) :
    ∃ r, movePattern b p sx sy tx ty = some r := by
  unfold movePattern
  simp only []
  split_ifs
  all_goals first
    | exact ⟨_, rfl⟩
    | (obtain ⟨r, hr, _⟩ := guardCall_clearPath b _ sx sy tx ty hs ht (aligned_of_diag sx sy tx ty)
       exact ⟨r, hr⟩)
    | (obtain ⟨r, hr, _⟩ := guardCall_clearPath b _ sx sy tx ty hs ht (aligned_of_line sx sy tx ty)
       exact ⟨r, hr⟩)
    | (obtain ⟨r, hr, _⟩ := guardCall_clearPath b _ sx sy tx ty hs ht (aligned_of_queen sx sy tx ty)
       exact ⟨r, hr⟩)

/-- The function `isLegalMove` returns for all four integers and leaves the board as it
found it. -/
theorem isLegalMove_total (b : Board) (sx sy tx ty : Int) :
    ∃ r, isLegalMove b sx sy tx ty = some (r, b) := by
  unfold isLegalMove
  by_cases h1 : isInside sx sy = true
  · by_cases h2 : isInside tx ty = true
    · by_cases h3 : sx = tx ∧ sy = ty
      · exact ⟨false, by simp [h1, h2, h3]⟩
      · by_cases h4 : b sy sx = '.'
        · exact ⟨false, by simp [h1, h2, h3, h4]⟩
        · by_cases h5 : sameColor (b sy sx) (b ty tx) = true
          · exact ⟨false, by simp [h1, h2, h3, h4, h5]⟩
          · obtain ⟨r, hr⟩ := movePattern_total b (b sy sx) sx sy tx ty h1 h2
            obtain ⟨c, hc⟩ := isInCheck_total (movedBoard b sx sy tx ty) (isWhitePiece (b sy sx))
            cases r with
            | false => exact ⟨false, by simp [h1, h2, h3, h4, h5, hr]⟩
            | true => exact ⟨!c, by simp [h1, h2, h3, h4, h5, hr, wouldBeInCheck_eq, hc]⟩
    · exact ⟨false, by simp [h1, h2]⟩
  · exact ⟨false, by simp [h1]⟩

/-- The function `hasLegalMoves` returns on every board and leaves it as it found it. -/
theorem hasLegalMoves_total (b : Board) (white : Bool) :
    ∃ r, hasLegalMoves b white = some (r, b) := by
  obtain ⟨r, b1, hr, hb1⟩ := forLoopS_inv (fun b1 : Board => b1 = b)
    (fun sy b1 => forLoopS (fun sx b2 =>
      let p := b2 sy sx
      if p = '.' then some (none, b2)
      else if (white && !isWhitePiece p) = true then some (none, b2)
      else if (!white && !isBlackPiece p) = true then some (none, b2)
      else
        forLoopS (fun ty b3 => forLoopS (fun tx b4 =>
          match isLegalMove b4 sx sy tx ty with
          | none => none
          | some (true, b5) => some (some true, b5)
          | some (false, b5) => some (none, b5)) idx8 b3) idx8 b2) idx8 b1) idx8
    (fun sy _ => forLoopS_inv _ _ idx8 (fun sx _ b2 hb2 => by
      subst hb2
      simp only []
      split_ifs
      · exact ⟨none, _, rfl, rfl⟩
      · exact ⟨none, _, rfl, rfl⟩
      · exact ⟨none, _, rfl, rfl⟩
      · exact forLoopS_inv (fun b1 : Board => b1 = b2) _ idx8
          (fun ty _ => forLoopS_inv _ _ idx8 (fun tx _ b4 hb4 => by
            subst hb4
            obtain ⟨r, hr⟩ := isLegalMove_total b4 sx sy tx ty
            cases r with
            | false => exact ⟨none, b4, by simp only [hr], rfl⟩
            | true => exact ⟨some true, b4, by simp only [hr], rfl⟩)) b2 rfl)) b rfl
  subst hb1
  exact ⟨r.getD false, by simp only [hasLegalMoves]; rw [hr]; rfl⟩

/-- The function `computeLegalMoves` returns for every state and every two integers and leaves the
board as it found it. -/
theorem computeLegalMoves_total (g : GameState) (sx sy : Int) :
    ∃ g1, computeLegalMoves g sx sy = some g1 ∧ g1.board = g.board := by
  unfold computeLegalMoves
  simp only []
  split_ifs
  · exact ⟨_, rfl, rfl⟩
  · exact ⟨_, rfl, rfl⟩
  · obtain ⟨r, g3, hr, hg3⟩ := forLoopS_inv (fun g1 : GameState => g1.board = g.board)
      (fun y g1 => forLoopS (fun x (g2 : GameState) =>
        match isLegalMove g2.board sx sy x y with
        | none => none
        | some (true, b) =>
          some ((none : Option Unit),
            { g2 with board := b, legalMoves := setFlag g2.legalMoves y x true })
        | some (false, b) => some (none, { g2 with board := b })) idx8 g1) idx8
      (fun y _ => forLoopS_inv _ _ idx8 (fun x _ g2 hg2 => by
        obtain ⟨r, hr⟩ := isLegalMove_total g2.board sx sy x y
        cases r with
        | false =>
          refine ⟨none, { g2 with board := g2.board }, ?_, hg2⟩
          simp only [hr]
        | true =>
          refine ⟨none, { g2 with board := g2.board,
                                  legalMoves := setFlag g2.legalMoves y x true }, ?_, hg2⟩
          simp only [hr])) (clearLegalMoves g) rfl
    refine ⟨{ g3 with legalMoves := setFlag g3.legalMoves sy sx false }, ?_, hg3⟩
    rw [hr]

/-- C5 (purity of the legality queries): `isLegalMove` returns for every board and every
four integers, with either answer, and the board it leaves behind is the board it was
given; the same holds for `hasLegalMoves` and `computeLegalMoves`. -/
theorem legality_queries_restore_board :
    (∀ (b : Board) (sx sy tx ty : Int), ∃ r, isLegalMove b sx sy tx ty = some (r, b)) ∧
    (∀ (b : Board) (white : Bool), ∃ r, hasLegalMoves b white = some (r, b)) ∧
    (∀ (g : GameState) (sx sy : Int),
      ∃ g1, computeLegalMoves g sx sy = some g1 ∧ g1.board = g.board) :=
  ⟨isLegalMove_total, hasLegalMoves_total, computeLegalMoves_total⟩

/-- C2 (undo inverse law), evaluated where it fails: after 1. a4 c5 2. a5 d5 3. a6 e5
4. axb7 Ke7 the move b7xa8 is legal for White, who is to move, and b7 holds a pawn; after
the move, the turn flip and `undoMove`, White is to move again but b7 holds a queen. -/
theorem undo_of_promotion_leaves_queen :
    ((play (initBoard startup) pawnToSeventh).bind (fun P =>
      (moveAndFlip P 1 1 0 0).bind (fun s1 => (undoMove s1).map (fun s2 =>
        (ownPiece P.game 1 1, (isLegalMove P.game.board 1 1 0 0).map Prod.fst,
          P.game.board 1 1, P.game.whiteTurn, s2.game.board 1 1, s2.game.whiteTurn)))))
      = some (true, some true, 'P', true, 'Q', true) := by
  decide!

/-- C3 (king invariant), evaluated where it fails: after 1. a4 c5 2. a5 d5 3. a6 e5
4. axb7 Ke7 5. bxa8 and an undo, the queen that the undo left on b7 takes the king on e7
by a move that `isLegalMove` accepts; the board then holds one `'K'` and no `'k'`. -/
theorem king_captured_after_undo_of_promotion :
    (play (initBoard startup)
        (pawnToSeventh ++ [Action.move 1 1 0 0, Action.undo, Action.move 1 1 4 1])).map
      (fun s => (countPiece s.game.board 'K', countPiece s.game.board 'k'))
      = some (1, 0) := by
  decide!

/-- C4 (guarded application), evaluated where it fails: after the clicks 1. e4 d5, a click
that selects the pawn on e4, and Undo, it is Black to move, the selected square holds a
White pawn, and `isLegalMove` rejects e4-d5 on the current board; yet a click on d5 calls
`makeMove`: the undo stack grows from one record to two and the pawn stands on d5. -/
theorem stale_selection_moves_unchecked :
    (handleAll (initBoard startup) selectThenUndo).map (fun s =>
        (s.game.gameOver, s.game.whiteTurn, s.game.selX, s.game.selY, s.game.board 4 4,
          s.moveStack.length)) = some (false, false, 4, 4, 'P', 1) ∧
    (handleAll (initBoard startup) selectThenUndo).bind (fun s =>
        (isLegalMove s.game.board 4 4 3 3).map Prod.fst) = some false ∧
    (handleAll (initBoard startup) (selectThenUndo ++ [clickSquare 3 3])).map (fun s1 =>
        (s1.moveStack.length, s1.game.board 3 3, s1.game.board 4 4)) = some (2, 'P', '.') := by
  refine ⟨?_, ?_, ?_⟩ <;> decide!

/-- C8 (legality exhaustiveness): on the board of `initBoard`, `isLegalMove` accepts
exactly 20 moves of White pieces, 16 of them of a pawn and 4 of a knight. -/
theorem initial_position_has_twenty_white_moves :
    (whiteLegalMoves (initBoard startup).game.board).length = 20 ∧
    ((whiteLegalMoves (initBoard startup).game.board).filter
      (fun m => (initBoard startup).game.board m.2.1 m.1 == 'P')).length = 16 ∧
    ((whiteLegalMoves (initBoard startup).game.board).filter
      (fun m => (initBoard startup).game.board m.2.1 m.1 == 'N')).length = 4 := by
  have hW : whiteSquares (initBoard startup).game.board =
      [(0, 6), (1, 6), (2, 6), (3, 6), (4, 6), (5, 6), (6, 6), (7, 6), (0, 7), (1, 7), (2, 7), (3, 7), (4, 7), (5, 7), (6, 7), (7, 7)] := by
    decide!
  have h06 : legalDestinations (initBoard startup).game.board 0 6 = [(0, 4), (0, 5)] := by
    decide!
  have h16 : legalDestinations (initBoard startup).game.board 1 6 = [(1, 4), (1, 5)] := by
    decide!
  have h26 : legalDestinations (initBoard startup).game.board 2 6 = [(2, 4), (2, 5)] := by
    decide!
  have h36 : legalDestinations (initBoard startup).game.board 3 6 = [(3, 4), (3, 5)] := by
    decide!
  have h46 : legalDestinations (initBoard startup).game.board 4 6 = [(4, 4), (4, 5)] := by
    decide!
  have h56 : legalDestinations (initBoard startup).game.board 5 6 = [(5, 4), (5, 5)] := by
    decide!
  have h66 : legalDestinations (initBoard startup).game.board 6 6 = [(6, 4), (6, 5)] := by
    decide!
  have h76 : legalDestinations (initBoard startup).game.board 7 6 = [(7, 4), (7, 5)] := by
    decide!
  have h07 : legalDestinations (initBoard startup).game.board 0 7 = [] := by
    decide!
  have h17 : legalDestinations (initBoard startup).game.board 1 7 = [(0, 5), (2, 5)] := by
    decide!
  have h27 : legalDestinations (initBoard startup).game.board 2 7 = [] := by
    decide!
  have h37 : legalDestinations (initBoard startup).game.board 3 7 = [] := by
    decide!
  have h47 : legalDestinations (initBoard startup).game.board 4 7 = [] := by
    decide!
  have h57 : legalDestinations (initBoard startup).game.board 5 7 = [] := by
    decide!
  have h67 : legalDestinations (initBoard startup).game.board 6 7 = [(5, 5), (7, 5)] := by
    decide!
  have h77 : legalDestinations (initBoard startup).game.board 7 7 = [] := by
    decide!
  have hall : whiteLegalMoves (initBoard startup).game.board =
      [(0, 6, 0, 4), (0, 6, 0, 5), (1, 6, 1, 4), (1, 6, 1, 5), (2, 6, 2, 4),
       (2, 6, 2, 5), (3, 6, 3, 4), (3, 6, 3, 5), (4, 6, 4, 4), (4, 6, 4, 5),
       (5, 6, 5, 4), (5, 6, 5, 5), (6, 6, 6, 4), (6, 6, 6, 5), (7, 6, 7, 4),
       (7, 6, 7, 5), (1, 7, 0, 5), (1, 7, 2, 5), (6, 7, 5, 5), (6, 7, 7, 5)] := by
    unfold whiteLegalMoves
    rw [hW]
    simp only [List.flatMap_cons, List.flatMap_nil, h06, h16, h26, h36, h46, h56, h66, h76, h07, h17, h27, h37, h47, h57, h67, h77,
      List.map_cons, List.map_nil, List.cons_append, List.nil_append, List.append_nil]
  rw [hall]
  refine ⟨by decide, ?_, ?_⟩ <;> decide!

/-- C10 (stalemate scenario): with a Black king on a8, a White king on a6, a White queen
on b6 and Black to move, Black is not in check and has no legal move, and `checkGameEnd`
sets the game-over flag with the stalemate result. -/
theorem stalemate_scenario :
    isInCheck stalemateBoard false = some false ∧
    (hasLegalMoves stalemateBoard false).map Prod.fst = some false ∧
    (checkGameEnd { startup.game with board := stalemateBoard, whiteTurn := false }).map
      (fun g => (g.gameOver, g.gameResult)) = some (true, "Stalemate! Draw.") := by
  decide!

/-- C7 (rejection): `isLegalMove` returns false, and leaves the board alone, whenever a
coordinate is outside `0..7` (whatever the board holds), whenever the two squares are
equal, whenever the source square is `'.'`, and whenever source and destination hold
pieces of one colour. -/
theorem isLegalMove_rejects (b : Board) (sx sy tx ty : Int)
    (h : (isInside sx sy = false ∨ isInside tx ty = false) ∨ (sx = tx ∧ sy = ty) ∨
      b sy sx = '.' ∨
      (isWhitePiece (b sy sx) = true ∧ isWhitePiece (b ty tx) = true) ∨
      (isBlackPiece (b sy sx) = true ∧ isBlackPiece (b ty tx) = true)) :
    isLegalMove b sx sy tx ty = some (false, b) := by
  unfold isLegalMove
  by_cases h1 : isInside sx sy = true
  · by_cases h2 : isInside tx ty = true
    · by_cases h3 : sx = tx ∧ sy = ty
      · simp [h1, h2, h3]
      · by_cases h4 : b sy sx = '.'
        · simp [h1, h2, h3, h4]
        · have h5 : sameColor (b sy sx) (b ty tx) = true := by
            rcases h with h | h | h | h | h
            · rcases h with h | h
              · rw [h1] at h; exact absurd h (by decide)
              · rw [h2] at h; exact absurd h (by decide)
            · exact absurd h h3
            · exact absurd h h4
            · have hd : b ty tx ≠ '.' := by
                intro e
                rw [e] at h
                exact absurd h.2 (by decide)
              simp [sameColor, h4, hd, h.1, h.2]
            · have hd : b ty tx ≠ '.' := by
                intro e
                rw [e] at h
                exact absurd h.2 (by decide)
              simp [sameColor, h4, hd, h.1, h.2]
          simp [h1, h2, h3, h4, h5]
    · simp [h1, h2]
  · simp [h1]

theorem isLegalMove_rejects_witness :
    isLegalMove (initBoard startup).game.board 8 6 4 4
      = some (false, (initBoard startup).game.board) :=
  isLegalMove_rejects (initBoard startup).game.board 8 6 4 4 (Or.inl (Or.inl (by decide)))

/-- A loop whose body leaves the state alone returns the value of the first iteration
that returns one. -/
theorem forLoopS_pure {σ ρ : Type} (body : Int → σ → Option (Option ρ × σ))
    (f : Int → Option ρ) (s : σ) (l : List Int)
    (h : ∀ i, i ∈ l → body i s = some (f i, s)) :
    forLoopS body l s = some (l.findSome? f, s) := by
  induction l with
  | nil => rfl
  | cons i rest ih =>
    have hi := h i (List.mem_cons_self _ _)
    have hrest := ih (fun j hj => h j (List.mem_cons_of_mem _ hj))
    cases hfi : f i with
    | none =>
      rw [hfi] at hi
      simp only [forLoopS, hi, hrest, List.findSome?, hfi]
    | some r =>
      rw [hfi] at hi
      simp only [forLoopS, hi, List.findSome?, hfi]

theorem findSome_true_cases (f : Int → Option Bool) (l : List Int)
    (hf : ∀ i, i ∈ l → f i = none ∨ f i = some true) :
    (l.findSome? f = none ∧ ∀ i, i ∈ l → f i = none) ∨
    (l.findSome? f = some true ∧ ∃ i, i ∈ l ∧ f i = some true) := by
  induction l with
  | nil => left; exact ⟨rfl, fun i hi => absurd hi (List.not_mem_nil i)⟩
  | cons i rest ih =>
    rcases hf i (List.mem_cons_self _ _) with hi | hi
    · rcases ih (fun j hj => hf j (List.mem_cons_of_mem _ hj)) with ⟨h1, h2⟩ | ⟨h1, j, hj, hj2⟩
      · left
        refine ⟨by simp only [List.findSome?, hi, h1], ?_⟩
        intro j hj
        rcases List.mem_cons.mp hj with rfl | hj
        · exact hi
        · exact h2 j hj
      · right
        exact ⟨by simp only [List.findSome?, hi, h1], j, List.mem_cons_of_mem _ hj, hj2⟩
    · right
      exact ⟨by simp only [List.findSome?, hi], i, List.mem_cons_self _ _, hi⟩

theorem isLegalMove_eq_accepts (b : Board) (sx sy tx ty : Int) :
    isLegalMove b sx sy tx ty = some (accepts b sx sy tx ty, b) := by
  obtain ⟨r, hr⟩ := isLegalMove_total b sx sy tx ty
  cases r <;> simp [accepts, hr]

theorem not_white_dot : isWhitePiece '.' = false := by decide

theorem not_black_dot : isBlackPiece '.' = false := by decide

/-- The early return of `hasLegalMoves` does not change its answer: it returns true
exactly when some piece of the colour has an accepted move. -/
theorem hasLegalMoves_iff (b : Board) (white : Bool) :
    (hasLegalMoves b white = some (true, b) ↔ HasLegalMove b white) ∧
    (hasLegalMoves b white = some (false, b) ↔ ¬ HasLegalMove b white) := by
  -- the value of the two inner loops for the source square
  let inner : Int → Int → Option Bool := fun sy sx =>
    idx8.findSome? (fun ty => idx8.findSome? (fun tx =>
      if accepts b sx sy tx ty = true then some true else none))
  let src : Int → Int → Option Bool := fun sy sx =>
    if b sy sx = '.' then none
    else if (white && !isWhitePiece (b sy sx)) = true then none
    else if (!white && !isBlackPiece (b sy sx)) = true then none
    else inner sy sx
  have hloop : forLoopS (fun sy b1 => forLoopS (fun sx b2 =>
      let p := b2 sy sx
      if p = '.' then some (none, b2)
      else if (white && !isWhitePiece p) = true then some (none, b2)
      else if (!white && !isBlackPiece p) = true then some (none, b2)
      else
        forLoopS (fun ty b3 => forLoopS (fun tx b4 =>
          match isLegalMove b4 sx sy tx ty with
          | none => none
          | some (true, b5) => some (some true, b5)
          | some (false, b5) => some (none, b5)) idx8 b3) idx8 b2) idx8 b1) idx8 b
      = some (idx8.findSome? (fun sy => idx8.findSome? (fun sx => src sy sx)), b) := by
    refine forLoopS_pure _ _ b idx8 (fun sy _ => ?_)
    refine forLoopS_pure _ _ b idx8 (fun sx _ => ?_)
    simp only [src]
    split_ifs
    · rfl
    · rfl
    · rfl
    · refine forLoopS_pure _ _ b idx8 (fun ty _ => ?_)
      refine forLoopS_pure _ _ b idx8 (fun tx _ => ?_)
      rw [isLegalMove_eq_accepts]
      cases accepts b sx sy tx ty <;> rfl
  have hinner : ∀ sy sx, (inner sy sx = none ∧
        ∀ ty, ty ∈ idx8 → ∀ tx, tx ∈ idx8 → accepts b sx sy tx ty = false) ∨
      (inner sy sx = some true ∧ ∃ ty tx, accepts b sx sy tx ty = true) := by
    intro sy sx
    have hrow : ∀ ty, (idx8.findSome? (fun tx =>
          if accepts b sx sy tx ty = true then some true else none) = none ∧
          ∀ tx, tx ∈ idx8 → accepts b sx sy tx ty = false) ∨
        (idx8.findSome? (fun tx =>
          if accepts b sx sy tx ty = true then some true else none) = some true ∧
          ∃ tx, accepts b sx sy tx ty = true) := by
      intro ty
      rcases findSome_true_cases
          (fun tx => if accepts b sx sy tx ty = true then some true else none) idx8
          (fun tx _ => by by_cases h : accepts b sx sy tx ty = true <;> simp [h])
        with ⟨h1, h2⟩ | ⟨h1, tx, _, h2⟩
      · left
        refine ⟨h1, fun tx htx => ?_⟩
        have := h2 tx htx
        by_cases h : accepts b sx sy tx ty = true
        · simp [h] at this
        · simpa using h
      · right
        refine ⟨h1, tx, ?_⟩
        by_cases h : accepts b sx sy tx ty = true
        · exact h
        · simp [h] at h2
    rcases findSome_true_cases
        (fun ty => idx8.findSome? (fun tx =>
          if accepts b sx sy tx ty = true then some true else none)) idx8
        (fun ty _ => by
          rcases hrow ty with ⟨h, _⟩ | ⟨h, _⟩
          · left; exact h
          · right; exact h)
      with ⟨h1, h2⟩ | ⟨h1, ty, _, h2⟩
    · left
      refine ⟨h1, fun ty hty tx htx => ?_⟩
      rcases hrow ty with ⟨_, h⟩ | ⟨h, _⟩
      · exact h tx htx
      · exact absurd (h.symm.trans (h2 ty hty)) (by decide)
    · right
      refine ⟨h1, ty, ?_⟩
      rcases hrow ty with ⟨h, _⟩ | ⟨_, h⟩
      · exact absurd (h2.symm.trans h) (by decide)
      · exact h
  have hacc : ∀ sx sy tx ty, accepts b sx sy tx ty = true →
      isInside sx sy = true ∧ tx ∈ idx8 ∧ ty ∈ idx8 := by
    intro sx sy tx ty h
    have h1 : (isLegalMove b sx sy tx ty).map Prod.fst = some true := by
      simpa [accepts] using h
    obtain ⟨hs, ht, _⟩ := (isLegalMove_true_iff b sx sy tx ty).mp h1
    rw [isInside_iff] at ht
    exact ⟨hs, (mem_idx8 tx).mpr ⟨ht.1, ht.2.1⟩, (mem_idx8 ty).mpr ⟨ht.2.2.1, ht.2.2.2⟩⟩
  have hsrc : ∀ sy sx, (src sy sx = none ∧
        ¬ ((if white then isWhitePiece (b sy sx) else isBlackPiece (b sy sx)) = true ∧
           ∃ ty tx, accepts b sx sy tx ty = true)) ∨
      (src sy sx = some true ∧
        (if white then isWhitePiece (b sy sx) else isBlackPiece (b sy sx)) = true ∧
        ∃ ty tx, accepts b sx sy tx ty = true) := by
    intro sy sx
    simp only [src]
    by_cases h0 : b sy sx = '.'
    · left
      refine ⟨by simp [h0], ?_⟩
      rintro ⟨hc, _⟩
      rw [h0] at hc
      cases white <;> simp [not_white_dot, not_black_dot] at hc
    · by_cases hc : (if white then isWhitePiece (b sy sx) else isBlackPiece (b sy sx)) = true
      · have e1 : (white && !isWhitePiece (b sy sx)) = false := by
          cases white <;> simp_all
        have e2 : (!white && !isBlackPiece (b sy sx)) = false := by
          cases white <;> simp_all
        simp only [h0, e1, e2, if_false, Bool.false_eq_true]
        rcases hinner sy sx with ⟨h1, h2⟩ | ⟨h1, h2⟩
        · left
          refine ⟨h1, ?_⟩
          rintro ⟨_, ty, tx, h⟩
          obtain ⟨_, htx, hty⟩ := hacc sx sy tx ty h
          rw [h2 ty hty tx htx] at h
          exact absurd h (by decide)
        · right
          exact ⟨h1, hc, h2⟩
      · left
        refine ⟨?_, fun h => hc h.1⟩
        cases white
        · have e2 : isBlackPiece (b sy sx) = false := by simpa using hc
          simp [h0, e2]
        · have e2 : isWhitePiece (b sy sx) = false := by simpa using hc
          simp [h0, e2]
  have hrowS : ∀ sy, (idx8.findSome? (fun sx => src sy sx) = none ∧
        ∀ sx, sx ∈ idx8 → src sy sx = none) ∨
      (idx8.findSome? (fun sx => src sy sx) = some true ∧
        ∃ sx, sx ∈ idx8 ∧ src sy sx = some true) := by
    intro sy
    exact findSome_true_cases (fun sx => src sy sx) idx8 (fun sx _ => by
      rcases hsrc sy sx with ⟨h, _⟩ | ⟨h, _⟩
      · left; exact h
      · right; exact h)
  have hall := findSome_true_cases (fun sy => idx8.findSome? (fun sx => src sy sx)) idx8
    (fun sy _ => by
      rcases hrowS sy with ⟨h, _⟩ | ⟨h, _⟩
      · left; exact h
      · right; exact h)
  have hval : hasLegalMoves b white
      = some ((idx8.findSome? (fun sy => idx8.findSome? (fun sx => src sy sx))).getD false, b) :=
    congrArg (Option.map (fun r : Option Bool × Board => (r.1.getD false, r.2))) hloop
  rw [hval]
  rcases hall with ⟨h1, h2⟩ | ⟨h1, sy, hsy, h2⟩
  · have hno : ¬ HasLegalMove b white := by
      rintro ⟨sx, sy, tx, ty, hs, hc, hl⟩
      have hsI := (isInside_iff sx sy).mp hs
      have hsx : sx ∈ idx8 := (mem_idx8 sx).mpr ⟨hsI.1, hsI.2.1⟩
      have hsy : sy ∈ idx8 := (mem_idx8 sy).mpr ⟨hsI.2.2.1, hsI.2.2.2⟩
      have hacc1 : accepts b sx sy tx ty = true := by simpa [accepts] using hl
      rcases hrowS sy with ⟨_, h3⟩ | ⟨h3, _⟩
      · rcases hsrc sy sx with ⟨_, h4⟩ | ⟨h4, _⟩
        · exact h4 ⟨hc, ty, tx, hacc1⟩
        · exact absurd (h4.symm.trans (h3 sx hsx)) (by decide)
      · exact absurd (h3.symm.trans (h2 sy hsy)) (by decide)
    rw [h1]
    simp [hno]
  · have hyes : HasLegalMove b white := by
      rcases hrowS sy with ⟨h3, _⟩ | ⟨_, sx, hsx, h3⟩
      · exact absurd (h2.symm.trans h3) (by decide)
      · rcases hsrc sy sx with ⟨h4, _⟩ | ⟨_, hc, ty, tx, h4⟩
        · exact absurd (h3.symm.trans h4) (by decide)
        · exact ⟨sx, sy, tx, ty, (hacc sx sy tx ty h4).1, hc, by simpa [accepts] using h4⟩
    rw [h1]
    simp [hyes]

/-- C9 (terminal detection): on every state `checkGameEnd` returns, leaving the board and
the side to move alone, and it judges the side to move. When that side has no move that
`isLegalMove` accepts and is in check, the game-over flag is set and the result names the
other colour as the winner; when it has no such move and is not in check, the flag is set
with the stalemate result; when it has such a move, nothing changes. -/
theorem checkGameEnd_detects_terminal (g : GameState) :
    ∃ (chk : Bool) (g1 : GameState),
      isInCheck g.board g.whiteTurn = some chk ∧
      checkGameEnd g = some g1 ∧
      g1.board = g.board ∧ g1.whiteTurn = g.whiteTurn ∧
      (¬ HasLegalMove g.board g.whiteTurn → chk = true → g1.gameOver = true ∧
        g1.gameResult = (if g.whiteTurn then "Checkmate! Black Wins!"
                         else "Checkmate! White Wins!")) ∧
      (¬ HasLegalMove g.board g.whiteTurn → chk = false →
        g1.gameOver = true ∧ g1.gameResult = "Stalemate! Draw.") ∧
      (HasLegalMove g.board g.whiteTurn → g1 = g) := by
  obtain ⟨chk, hchk⟩ := isInCheck_total g.board g.whiteTurn
  by_cases hm : HasLegalMove g.board g.whiteTurn
  · have hhas := (hasLegalMoves_iff g.board g.whiteTurn).1.mpr hm
    refine ⟨chk, g, hchk, ?_, rfl, rfl, ?_, ?_, fun _ => rfl⟩
    · simp [checkGameEnd, hhas]
    · intro h; exact absurd hm h
    · intro h; exact absurd hm h
  · have hhas := (hasLegalMoves_iff g.board g.whiteTurn).2.mpr hm
    cases chk with
    | true =>
      refine ⟨true,
        { g with gameOver := true,
                 gameResult := if g.whiteTurn then "Checkmate! Black Wins!"
                               else "Checkmate! White Wins!" },
        hchk, ?_, rfl, rfl, fun _ _ => ⟨rfl, rfl⟩, ?_, ?_⟩
      · simp [checkGameEnd, hhas, hchk]
      · intro _ h; exact absurd h (by decide)
      · intro h; exact absurd h hm
    | false =>
      refine ⟨false, { g with gameOver := true, gameResult := "Stalemate! Draw." },
        hchk, ?_, rfl, rfl, ?_, fun _ _ => ⟨rfl, rfl⟩, ?_⟩
      · simp [checkGameEnd, hhas, hchk]
      · intro _ h; exact absurd h (by decide)
      · intro h; exact absurd h hm

theorem validBoard_at (b : Board) (hv : validBoard b = true) (x y : Int)
    (h : isInside x y = true) :
    b y x = '.' ∨ b y x ∈ whitePieces ∨ b y x ∈ blackPieces := by
  rw [isInside_iff] at h
  unfold validBoard at hv
  rw [List.all_eq_true] at hv
  have h1 := hv y ((mem_idx8 y).mpr ⟨h.2.2.1, h.2.2.2⟩)
  rw [List.all_eq_true] at h1
  have h2 := h1 x ((mem_idx8 x).mpr ⟨h.1, h.2.1⟩)
  exact of_decide_eq_true h2

theorem isWhitePiece_iff_mem (c : Char)
    (h : c = '.' ∨ c ∈ whitePieces ∨ c ∈ blackPieces) :
    isWhitePiece c = true ↔ c ∈ whitePieces := by
  simp only [whitePieces, blackPieces, List.mem_cons, List.mem_singleton, List.not_mem_nil,
    or_false] at h
  rcases h with rfl | (rfl | rfl | rfl | rfl | rfl | rfl) | (rfl | rfl | rfl | rfl | rfl | rfl) <;>
    decide

theorem isBlackPiece_iff_mem (c : Char)
    (h : c = '.' ∨ c ∈ whitePieces ∨ c ∈ blackPieces) :
    isBlackPiece c = true ↔ c ∈ blackPieces := by
  simp only [whitePieces, blackPieces, List.mem_cons, List.mem_singleton, List.not_mem_nil,
    or_false] at h
  rcases h with rfl | (rfl | rfl | rfl | rfl | rfl | rfl) | (rfl | rfl | rfl | rfl | rfl | rfl) <;>
    decide

theorem sameColor_eq_true_iff (a c : Char)
    (ha : a = '.' ∨ a ∈ whitePieces ∨ a ∈ blackPieces)
    (hc : c = '.' ∨ c ∈ whitePieces ∨ c ∈ blackPieces) :
    sameColor a c = true ↔
      ((a ∈ whitePieces ∧ c ∈ whitePieces) ∨ (a ∈ blackPieces ∧ c ∈ blackPieces)) := by
  have hdw : ('.' : Char) ∉ whitePieces := by decide
  have hdb : ('.' : Char) ∉ blackPieces := by decide
  unfold sameColor
  by_cases h1 : a = '.'
  · subst h1
    simp [hdw, hdb]
  · by_cases h2 : c = '.'
    · subst h2
      simp [hdw, hdb]
    · simp only [h1, h2, or_self, if_false, Bool.or_eq_true, Bool.and_eq_true,
        isWhitePiece_iff_mem a ha, isWhitePiece_iff_mem c hc,
        isBlackPiece_iff_mem a ha, isBlackPiece_iff_mem c hc]

theorem guardCall_clearPath_true_iff (b : Board) (c : Bool) (sx sy tx ty : Int)
    (hs : isInside sx sy = true) (ht : isInside tx ty = true)
    (hc : c = true → Aligned sx sy tx ty) :
    guardCall c (clearPath b sx sy tx ty) = some true ↔ (c = true ∧ PathClear b sx sy tx ty) := by
  obtain ⟨r, hr, hiff⟩ := guardCall_clearPath b c sx sy tx ty hs ht hc
  rw [hr, ← hiff]
  simp

theorem rook_shape_iff (dx dy : Int) :
    ((iabs dx = 0 ∧ iabs dy > 0) ∨ (iabs dy = 0 ∧ iabs dx > 0)) ↔
      ((dx = 0 ∧ dy ≠ 0) ∨ (dy = 0 ∧ dx ≠ 0)) := by
  rcases iabs_cases dx with ⟨_, e1⟩ | ⟨_, e1⟩ <;>
  rcases iabs_cases dy with ⟨_, e2⟩ | ⟨_, e2⟩ <;>
  rw [e1, e2] <;> omega

theorem movePattern_iff_spec_white (b : Board) (sx sy tx ty : Int)
    (hs : isInside sx sy = true) (ht : isInside tx ty = true)
    (hp : b sy sx ∈ whitePieces)
    (hq : b ty tx = '.' ∨ b ty tx ∈ whitePieces ∨ b ty tx ∈ blackPieces)
    (hsc : sameColor (b sy sx) (b ty tx) = false) :
    movePattern b (b sy sx) sx sy tx ty = some true ↔ PatternSpec b sx sy tx ty := by
  have hqW : b ty tx ∉ whitePieces := by
    intro h
    have := (sameColor_eq_true_iff _ _ (Or.inr (Or.inl hp)) hq).mpr (Or.inl ⟨hp, h⟩)
    rw [hsc] at this
    exact absurd this (by decide)
  have hqB : b ty tx ≠ '.' ↔ b ty tx ∈ blackPieces := by
    constructor
    · intro h
      rcases hq with h1 | h1 | h1
      · exact absurd h1 h
      · exact absurd h1 hqW
      · exact h1
    · intro h e
      rw [e] at h
      exact absurd h (by decide)
  have hdiag := guardCall_clearPath_true_iff b
    (decide (iabs (tx - sx) = iabs (ty - sy)) && decide (iabs (tx - sx) > 0)) sx sy tx ty hs ht
    (aligned_of_diag sx sy tx ty)
  have hline := guardCall_clearPath_true_iff b
    ((decide (iabs (tx - sx) = 0) && decide (iabs (ty - sy) > 0)) ||
      (decide (iabs (ty - sy) = 0) && decide (iabs (tx - sx) > 0))) sx sy tx ty hs ht
    (aligned_of_line sx sy tx ty)
  have hqueen := guardCall_clearPath_true_iff b
    ((decide (iabs (tx - sx) = iabs (ty - sy)) && decide (iabs (tx - sx) > 0)) ||
      (decide (iabs (tx - sx) = 0) && decide (iabs (ty - sy) > 0)) ||
      (decide (iabs (ty - sy) = 0) && decide (iabs (tx - sx) > 0))) sx sy tx ty hs ht
    (aligned_of_queen sx sy tx ty)
  have hrook := rook_shape_iff (tx - sx) (ty - sy)
  simp only [whitePieces, List.mem_cons, List.mem_singleton, List.not_mem_nil, or_false] at hp
  rcases hp with hp | hp | hp | hp | hp | hp
  · rw [hp] at hsc
    have hPw : 'P' ∈ whitePieces := by decide
    have hPb : 'P' ∉ blackPieces := by decide
    unfold movePattern PatternSpec
    simp only [hp]
    simp [toupper, hPw, hPb, isWhitePiece, abs_eq_iabs, hsc]
    rw [← hqB]
    clear hdiag hline hqueen hrook hs ht hq hsc hqW hqB hPw hPb hp
    by_cases hE : b ty tx = '.'
    · simp only [hE, not_true_eq_false, ne_eq, and_false, imp_false, and_true, or_false]
      tauto
    · simp only [hE, not_false_eq_true, implies_true, ne_eq, and_true, and_false, false_or,
        true_implies, imp_self]
  · unfold movePattern PatternSpec
    simp only [hp]
    simp [toupper, whitePieces, abs_eq_iabs]
  · unfold movePattern PatternSpec
    simp only [hp]
    simp [toupper, whitePieces, abs_eq_iabs, hdiag]
  · unfold movePattern PatternSpec
    simp only [hp]
    simp [toupper, whitePieces, abs_eq_iabs, hline, hrook]
  · unfold movePattern PatternSpec
    simp only [hp]
    simp [toupper, whitePieces, abs_eq_iabs, hqueen]
    intro _
    rcases iabs_cases (tx - sx) with ⟨_, e1⟩ | ⟨_, e1⟩ <;>
    rcases iabs_cases (ty - sy) with ⟨_, e2⟩ | ⟨_, e2⟩ <;>
    rw [e1, e2] <;> omega
  · unfold movePattern PatternSpec
    simp only [hp]
    simp [toupper, whitePieces, abs_eq_iabs]

theorem movePattern_iff_spec_black (b : Board) (sx sy tx ty : Int)
    (hs : isInside sx sy = true) (ht : isInside tx ty = true)
    (hp : b sy sx ∈ blackPieces)
    (hq : b ty tx = '.' ∨ b ty tx ∈ whitePieces ∨ b ty tx ∈ blackPieces)
    (hsc : sameColor (b sy sx) (b ty tx) = false) :
    movePattern b (b sy sx) sx sy tx ty = some true ↔ PatternSpec b sx sy tx ty := by
  have hqB : b ty tx ∉ blackPieces := by
    intro h
    have := (sameColor_eq_true_iff _ _ (Or.inr (Or.inr hp)) hq).mpr (Or.inr ⟨hp, h⟩)
    rw [hsc] at this
    exact absurd this (by decide)
  have hqW : b ty tx ≠ '.' ↔ b ty tx ∈ whitePieces := by
    constructor
    · intro h
      rcases hq with h1 | h1 | h1
      · exact absurd h1 h
      · exact h1
      · exact absurd h1 hqB
    · intro h e
      rw [e] at h
      exact absurd h (by decide)
  have hdiag := guardCall_clearPath_true_iff b
    (decide (iabs (tx - sx) = iabs (ty - sy)) && decide (iabs (tx - sx) > 0)) sx sy tx ty hs ht
    (aligned_of_diag sx sy tx ty)
  have hline := guardCall_clearPath_true_iff b
    ((decide (iabs (tx - sx) = 0) && decide (iabs (ty - sy) > 0)) ||
      (decide (iabs (ty - sy) = 0) && decide (iabs (tx - sx) > 0))) sx sy tx ty hs ht
    (aligned_of_line sx sy tx ty)
  have hqueen := guardCall_clearPath_true_iff b
    ((decide (iabs (tx - sx) = iabs (ty - sy)) && decide (iabs (tx - sx) > 0)) ||
      (decide (iabs (tx - sx) = 0) && decide (iabs (ty - sy) > 0)) ||
      (decide (iabs (ty - sy) = 0) && decide (iabs (tx - sx) > 0))) sx sy tx ty hs ht
    (aligned_of_queen sx sy tx ty)
  have hrook := rook_shape_iff (tx - sx) (ty - sy)
  simp only [blackPieces, List.mem_cons, List.mem_singleton, List.not_mem_nil, or_false] at hp
  rcases hp with hp | hp | hp | hp | hp | hp
  · rw [hp] at hsc
    have hPw : 'p' ∉ whitePieces := by decide
    have hPb : 'p' ∈ blackPieces := by decide
    unfold movePattern PatternSpec
    simp only [hp]
    simp [toupper, hPw, hPb, isWhitePiece, abs_eq_iabs, hsc]
    rw [← hqW]
    clear hdiag hline hqueen hrook hs ht hq hsc hqW hqB hPw hPb hp
    by_cases hE : b ty tx = '.'
    · simp only [hE, not_true_eq_false, ne_eq, and_false, imp_false, and_true, or_false]
      tauto
    · simp only [hE, not_false_eq_true, implies_true, ne_eq, and_true, and_false, false_or,
        true_implies, imp_self]
  · unfold movePattern PatternSpec
    simp only [hp]
    simp [toupper, whitePieces, abs_eq_iabs]
  · unfold movePattern PatternSpec
    simp only [hp]
    simp [toupper, whitePieces, abs_eq_iabs, hdiag]
  · unfold movePattern PatternSpec
    simp only [hp]
    simp [toupper, whitePieces, abs_eq_iabs, hline, hrook]
  · unfold movePattern PatternSpec
    simp only [hp]
    simp [toupper, whitePieces, abs_eq_iabs, hqueen]
    intro _
    rcases iabs_cases (tx - sx) with ⟨_, e1⟩ | ⟨_, e1⟩ <;>
    rcases iabs_cases (ty - sy) with ⟨_, e2⟩ | ⟨_, e2⟩ <;>
    rw [e1, e2] <;> omega
  · unfold movePattern PatternSpec
    simp only [hp]
    simp [toupper, whitePieces, abs_eq_iabs]

/-- C6 (characterisation of `isLegalMove`): on a board of the characters `'.'`, `PNBRQK`
and `pnbrqk`, `isLegalMove` returns true exactly when both squares are in range and
differ, the source holds a piece, the destination holds no piece of its colour, the
movement pattern of the piece holds, and its colour is not in check on the board obtained
by moving it. -/
theorem isLegalMove_iff_spec (b : Board) (sx sy tx ty : Int) (hv : validBoard b = true) :
    (isLegalMove b sx sy tx ty).map Prod.fst = some true ↔ LegalSpec b sx sy tx ty := by
  rw [isLegalMove_true_iff]
  unfold LegalSpec
  by_cases hs : isInside sx sy = true
  · by_cases ht : isInside tx ty = true
    · have hp := validBoard_at b hv sx sy hs
      have hq := validBoard_at b hv tx ty ht
      have hw : isWhitePiece (b sy sx) = decide (b sy sx ∈ whitePieces) := by
        rw [Bool.eq_iff_iff, isWhitePiece_iff_mem _ hp]
        simp
      have hsc : sameColor (b sy sx) (b ty tx) = false ↔
          ¬ ((b sy sx ∈ whitePieces ∧ b ty tx ∈ whitePieces) ∨
             (b sy sx ∈ blackPieces ∧ b ty tx ∈ blackPieces)) := by
        rw [← sameColor_eq_true_iff _ _ hp hq]
        simp
      have hs2 := (isInside_iff sx sy).mp hs
      have ht2 := (isInside_iff tx ty).mp ht
      have hrange : (0 ≤ sx ∧ sx ≤ 7 ∧ 0 ≤ sy ∧ sy ≤ 7) ∧ (0 ≤ tx ∧ tx ≤ 7 ∧ 0 ≤ ty ∧ ty ≤ 7) := by
        omega
      have hne : ¬ (sx = tx ∧ sy = ty) ↔ (sx ≠ tx ∨ sy ≠ ty) := by
        constructor
        · intro h; by_contra h2; exact h ⟨by omega, by omega⟩
        · intro h h2; omega
      rw [hw, hsc, hne]
      constructor
      · rintro ⟨_, _, h3, h4, h5, h6, h7⟩
        have hpat : PatternSpec b sx sy tx ty := by
          rcases hp with h | h | h
          · exact absurd h h4
          · exact (movePattern_iff_spec_white b sx sy tx ty hs ht h hq (hsc.mpr h5)).mp h6
          · exact (movePattern_iff_spec_black b sx sy tx ty hs ht h hq (hsc.mpr h5)).mp h6
        exact ⟨hrange.1, hrange.2, h3, h4, h5, hpat, h7⟩
      · rintro ⟨_, _, h3, h4, h5, h6, h7⟩
        have hpat : movePattern b (b sy sx) sx sy tx ty = some true := by
          rcases hp with h | h | h
          · exact absurd h h4
          · exact (movePattern_iff_spec_white b sx sy tx ty hs ht h hq (hsc.mpr h5)).mpr h6
          · exact (movePattern_iff_spec_black b sx sy tx ty hs ht h hq (hsc.mpr h5)).mpr h6
        exact ⟨hs, ht, h3, h4, h5, hpat, h7⟩
    · have ht2 : ¬ (0 ≤ tx ∧ tx ≤ 7 ∧ 0 ≤ ty ∧ ty ≤ 7) := by
        intro h
        exact ht ((isInside_iff tx ty).mpr (by omega))
      constructor
      · rintro ⟨_, h, _⟩; exact absurd h ht
      · rintro ⟨_, h, _⟩; exact absurd h ht2
  · have hs2 : ¬ (0 ≤ sx ∧ sx ≤ 7 ∧ 0 ≤ sy ∧ sy ≤ 7) := by
      intro h
      exact hs ((isInside_iff sx sy).mpr (by omega))
    constructor
    · rintro ⟨h, _⟩; exact absurd h hs
    · rintro ⟨h, _⟩; exact absurd h hs2

theorem isLegalMove_iff_spec_witness :
    validBoard (initBoard startup).game.board = true ∧
    ((isLegalMove (initBoard startup).game.board 4 6 4 4).map Prod.fst = some true ↔
      LegalSpec (initBoard startup).game.board 4 6 4 4) :=
  ⟨by decide!, isLegalMove_iff_spec (initBoard startup).game.board 4 6 4 4 (by decide!)⟩

theorem legal_move_leaves_mover_out_of_check_witness :
    (isLegalMove promotionBoard 0 1 0 0).map Prod.fst = some true ∧
    ∃ s1, makeMove { startup with game := { startup.game with board := promotionBoard } }
        0 1 0 0 = some s1 ∧
      isInCheck s1.game.board (isWhitePiece (promotionBoard 1 0)) = some false :=
  ⟨by decide!,
   legal_move_leaves_mover_out_of_check
     { startup with game := { startup.game with board := promotionBoard } } 0 1 0 0
     (by decide!)⟩

/-- C11 (equivalence of `hasLegalMoves`): on every board and for either colour
`hasLegalMoves` returns, leaving the board alone, and it returns true exactly when some
in-range square holds a piece of the colour for which `isLegalMove` accepts some in-range
destination; the early return on the first hit does not change the answer. -/
theorem hasLegalMoves_equiv_exists (b : Board) (white : Bool) :
    (∃ r, hasLegalMoves b white = some (r, b)) ∧
    ((hasLegalMoves b white).map Prod.fst = some true ↔ ExistsLegalMove b white) ∧
    ((hasLegalMoves b white).map Prod.fst = some false ↔ ¬ ExistsLegalMove b white) := by
  have hE : ExistsLegalMove b white ↔ HasLegalMove b white := by
    constructor
    · rintro ⟨sx, sy, tx, ty, hs, _, hc, hl⟩
      exact ⟨sx, sy, tx, ty, hs, hc, hl⟩
    · rintro ⟨sx, sy, tx, ty, hs, hc, hl⟩
      exact ⟨sx, sy, tx, ty, hs, ((isLegalMove_true_iff b sx sy tx ty).mp hl).2.1, hc, hl⟩
  obtain ⟨r, hr⟩ := hasLegalMoves_total b white
  obtain ⟨h1, h2⟩ := hasLegalMoves_iff b white
  refine ⟨⟨r, hr⟩, ?_, ?_⟩
  · rw [hE, ← h1, hr]
    cases r <;> simp
  · rw [hE, ← h2, hr]
    cases r <;> simp

theorem forLoop_all_none {ρ : Type} (body : Int → Option (Option ρ)) (l : List Int)
    (h : ∀ i, i ∈ l → body i = some none) : forLoop body l = some none := by
  induction l with
  | nil => rfl
  | cons i rest ih =>
    simp only [forLoop, h i (List.mem_cons_self _ _),
      ih (fun j hj => h j (List.mem_cons_of_mem _ hj))]

/-- A loop in which only the iteration `i` can return a value returns what that iteration
returns. -/
theorem forLoop_single {ρ : Type} (body : Int → Option (Option ρ)) (l : List Int) (i : Int)
    (v : Option ρ) (hi : i ∈ l) (h : ∀ j, j ∈ l → j ≠ i → body j = some none)
    (hv : body i = some v) : forLoop body l = some v := by
  induction l with
  | nil => exact absurd hi (List.not_mem_nil i)
  | cons j rest ih =>
    by_cases hj : j = i
    · subst hj
      cases v with
      | some r => simp only [forLoop, hv]
      | none =>
        have hrest : forLoop body rest = some none :=
          forLoop_all_none body rest (fun k hk => by
            by_cases hkj : k = j
            · rw [hkj]; exact hv
            · exact h k (List.mem_cons_of_mem _ hk) hkj)
        simp only [forLoop, hv, hrest]
    · have hjn : body j = some none := h j (List.mem_cons_self _ _) hj
      have hi2 : i ∈ rest := by
        rcases List.mem_cons.mp hi with e | e
        · exact absurd e.symm hj
        · exact e
      simp only [forLoop, hjn]
      exact ih hi2 (fun k hk hne => h k (List.mem_cons_of_mem _ hk) hne)

theorem king_test_iff (white : Bool) (p : Char) :
    ((white && decide (p = 'K')) || (!white && decide (p = 'k'))) = true ↔ p = kingChar white := by
  cases white <;> simp [kingChar]

/-- C13 (definition of `isInCheck`): on a board whose only king of the colour stands on the
in-range square `(kx, ky)`, `isInCheck` of the colour is `isSquareAttacked` of that square
by the other colour; on a board without a king of the colour it is false. -/
theorem isInCheck_eq_king_attacked (b : Board) (white : Bool) :
    (∀ kx ky : Int, isInside kx ky = true → b ky kx = kingChar white →
      (∀ x y : Int, isInside x y = true → b y x = kingChar white → x = kx ∧ y = ky) →
      isInCheck b white = isSquareAttacked b kx ky (!white)) ∧
    ((∀ x y : Int, isInside x y = true → b y x ≠ kingChar white) →
      isInCheck b white = some false) := by
  constructor
  · intro kx ky hk hking huniq
    obtain ⟨a, ha⟩ := isSquareAttacked_total b kx ky (!white) hk
    have hkI := (isInside_iff kx ky).mp hk
    have hkx : kx ∈ idx8 := (mem_idx8 kx).mpr ⟨hkI.1, hkI.2.1⟩
    have hky : ky ∈ idx8 := (mem_idx8 ky).mpr ⟨hkI.2.2.1, hkI.2.2.2⟩
    have hcell : ∀ y x, y ∈ idx8 → x ∈ idx8 → ¬ (x = kx ∧ y = ky) →
        (if ((white && decide (b y x = 'K')) || (!white && decide (b y x = 'k'))) = true then
          (isSquareAttacked b x y (!white)).map some
        else some none) = some none := by
      intro y x hy hx hne
      have hnk : ¬ (((white && decide (b y x = 'K')) || (!white && decide (b y x = 'k'))) = true) := by
        rw [king_test_iff]
        intro e
        exact hne (huniq x y (isInside_of_mem hx hy) e)
      rw [if_neg hnk]
    have hrow : forLoop (fun x =>
        if ((white && decide (b ky x = 'K')) || (!white && decide (b ky x = 'k'))) = true then
          (isSquareAttacked b x ky (!white)).map some
        else some none) idx8 = some (some a) := by
      refine forLoop_single _ idx8 kx (some a) hkx (fun x hx hne => ?_) ?_
      · exact hcell ky x hky hx (fun h => hne h.1)
      · have hk2 : ((white && decide (b ky kx = 'K')) || (!white && decide (b ky kx = 'k'))) = true :=
          (king_test_iff white _).mpr hking
        rw [if_pos hk2, ha]
        rfl
    have hall : forLoop (fun y => forLoop (fun x =>
        if ((white && decide (b y x = 'K')) || (!white && decide (b y x = 'k'))) = true then
          (isSquareAttacked b x y (!white)).map some
        else some none) idx8) idx8 = some (some a) := by
      refine forLoop_single _ idx8 ky (some a) hky (fun y hy hne => ?_) hrow
      exact forLoop_all_none _ idx8 (fun x hx => hcell y x hy hx (fun h => hne h.2))
    rw [ha]
    exact congrArg (Option.map (fun r : Option Bool => r.getD false)) hall
  · intro hno
    have hall : forLoop (fun y => forLoop (fun x =>
        if ((white && decide (b y x = 'K')) || (!white && decide (b y x = 'k'))) = true then
          (isSquareAttacked b x y (!white)).map some
        else some none) idx8) idx8 = some none := by
      refine forLoop_all_none _ idx8 (fun y hy => forLoop_all_none _ idx8 (fun x hx => ?_))
      have hnk : ¬ (((white && decide (b y x = 'K')) || (!white && decide (b y x = 'k'))) = true) := by
        rw [king_test_iff]
        exact hno x y (isInside_of_mem hx hy)
      rw [if_neg hnk]
    exact congrArg (Option.map (fun r : Option Bool => r.getD false)) hall

theorem isInCheck_eq_king_attacked_witness :
    isInCheck (initBoard startup).game.board true
      = isSquareAttacked (initBoard startup).game.board 4 7 (!true) := by
  have huniq : ∀ x ∈ idx8, ∀ y ∈ idx8,
      (initBoard startup).game.board y x = kingChar true → x = 4 ∧ y = 7 := by decide!
  refine (isInCheck_eq_king_attacked (initBoard startup).game.board true).1 4 7
    (by decide) (by decide!) ?_
  intro x y hxy hk
  have hI := (isInside_iff x y).mp hxy
  exact huniq x ((mem_idx8 x).mpr ⟨hI.1, hI.2.1⟩) y ((mem_idx8 y).mpr ⟨hI.2.2.1, hI.2.2.2⟩) hk

/-- The squares strictly between two aligned squares are neither of the two. -/
theorem between_ne_ends (sx sy tx ty k : Int) (hal : Aligned sx sy tx ty)
    (hk0 : 0 < k) (hk : k < max |tx - sx| |ty - sy|) :
    ¬ (sy + k * Int.sign (ty - sy) = sy ∧ sx + k * Int.sign (tx - sx) = sx) ∧
    ¬ (sy + k * Int.sign (ty - sy) = ty ∧ sx + k * Int.sign (tx - sx) = tx) := by
  obtain ⟨hne, hline⟩ := hal
  rw [abs_eq_iabs, abs_eq_iabs] at hk hline
  rw [sign_eq_sgn, sign_eq_sgn]
  rcases sgn_cases (tx - sx) with ⟨d1, h1, e1⟩ | ⟨d1, h1, e1⟩ | ⟨d1, h1, e1⟩ <;>
  rcases sgn_cases (ty - sy) with ⟨d2, h2, e2⟩ | ⟨d2, h2, e2⟩ | ⟨d2, h2, e2⟩ <;>
  rw [e1, e2] at hk hline <;> rw [d1, d2] <;> omega

theorem pathClear_congr (b1 b2 : Board) (sx sy tx ty : Int)
    (h : ∀ k : Int, 0 < k → k < max |tx - sx| |ty - sy| →
      (b1 (sy + k * Int.sign (ty - sy)) (sx + k * Int.sign (tx - sx)) = '.' ↔
       b2 (sy + k * Int.sign (ty - sy)) (sx + k * Int.sign (tx - sx)) = '.')) :
    PathClear b1 sx sy tx ty ↔ PathClear b2 sx sy tx ty := by
  unfold PathClear
  constructor
  · intro h1 k hk0 hk
    exact (h k hk0 hk).mp (h1 k hk0 hk)
  · intro h1 k hk0 hk
    exact (h k hk0 hk).mpr (h1 k hk0 hk)

/-- C14 (path clarity): for two distinct in-range squares on a common file, rank or
diagonal, `clearPath` returns, and it returns true exactly when every square strictly
between them holds `'.'`. A piece placed on a square strictly between them makes it
false, and what the two end squares hold does not matter. -/
theorem clearPath_iff_between_empty (b : Board) (sx sy tx ty : Int)
    (hs : isInside sx sy = true) (ht : isInside tx ty = true) (hal : Aligned sx sy tx ty) :
    (∃ r, clearPath b sx sy tx ty = some r ∧ (r = true ↔ PathClear b sx sy tx ty)) ∧
    (∀ (k : Int) (c : Char), 0 < k → k < max |tx - sx| |ty - sy| → c ≠ '.' →
      clearPath (setCell b (sy + k * Int.sign (ty - sy)) (sx + k * Int.sign (tx - sx)) c)
        sx sy tx ty = some false) ∧
    (∀ c d : Char,
      clearPath (setCell (setCell b sy sx c) ty tx d) sx sy tx ty = clearPath b sx sy tx ty) := by
  refine ⟨clearPath_spec b sx sy tx ty hs ht hal, ?_, ?_⟩
  · intro k c hk0 hk hc
    obtain ⟨r, hr, hiff⟩ := clearPath_spec
      (setCell b (sy + k * Int.sign (ty - sy)) (sx + k * Int.sign (tx - sx)) c)
      sx sy tx ty hs ht hal
    rw [hr]
    cases r with
    | false => rfl
    | true =>
      have hclear := hiff.mp rfl k hk0 hk
      rw [setCell_same] at hclear
      exact absurd hclear hc
  · intro c d
    obtain ⟨r1, hr1, h1⟩ := clearPath_spec (setCell (setCell b sy sx c) ty tx d)
      sx sy tx ty hs ht hal
    obtain ⟨r2, hr2, h2⟩ := clearPath_spec b sx sy tx ty hs ht hal
    have hcongr : PathClear (setCell (setCell b sy sx c) ty tx d) sx sy tx ty ↔
        PathClear b sx sy tx ty := by
      refine pathClear_congr _ _ sx sy tx ty (fun k hk0 hk => ?_)
      obtain ⟨hn1, hn2⟩ := between_ne_ends sx sy tx ty k hal hk0 hk
      rw [setCell_other _ _ _ _ _ _ hn2, setCell_other _ _ _ _ _ _ hn1]
    rw [hr1, hr2]
    have : r1 = true ↔ r2 = true := by rw [h1, h2, hcongr]
    cases r1 <;> cases r2 <;> simp_all

theorem clearPath_iff_between_empty_witness :
    (∃ r, clearPath (initBoard startup).game.board 0 7 0 0 = some r ∧
      (r = true ↔ PathClear (initBoard startup).game.board 0 7 0 0)) ∧
    (∀ (k : Int) (c : Char), 0 < k → k < max |(0 : Int) - 0| |(0 : Int) - 7| → c ≠ '.' →
      clearPath (setCell (initBoard startup).game.board (7 + k * Int.sign (0 - 7))
        (0 + k * Int.sign (0 - 0)) c) 0 7 0 0 = some false) ∧
    (∀ c d : Char,
      clearPath (setCell (setCell (initBoard startup).game.board 7 0 c) 0 0 d) 0 7 0 0
        = clearPath (initBoard startup).game.board 0 7 0 0) :=
  clearPath_iff_between_empty (initBoard startup).game.board 0 7 0 0 (by decide) (by decide)
    ⟨Or.inr (by decide), Or.inl rfl⟩

/-- The board after a move between two distinct squares, by the three cases of the
promotion. -/
theorem makeMove_board_cases (s : Session) (sx sy tx ty : Int)
    (hs : isInside sx sy = true) (ht : isInside tx ty = true)
    (hne : ¬ (sx = tx ∧ sy = ty)) :
    ∃ s1, makeMove s sx sy tx ty = some s1 ∧
      s1.game.board =
        (if s.game.board sy sx = 'P' ∧ ty = 0 then
          setCell (movedBoard s.game.board sx sy tx ty) ty tx 'Q'
         else if s.game.board sy sx = 'p' ∧ ty = 7 then
          setCell (movedBoard s.game.board sx sy tx ty) ty tx 'q'
         else movedBoard s.game.board sx sy tx ty) := by
  obtain ⟨s1, hmk, hb⟩ := makeMove_board s sx sy tx ty hs ht
  have h3 : ¬ (ty = sy ∧ tx = sx) := fun h => hne ⟨h.2.symm, h.1.symm⟩
  have hdest : movedBoard s.game.board sx sy tx ty ty tx = s.game.board sy sx := by
    simp [movedBoard, setCell, h3]
  refine ⟨s1, hmk, ?_⟩
  rw [hb]
  simp only [hdest]
  by_cases hP : s.game.board sy sx = 'P' ∧ ty = 0
  · have hq : ¬ (setCell (movedBoard s.game.board sx sy tx ty) ty tx 'Q' ty tx = 'p' ∧ ty = 7) := by
      rw [setCell_same]
      intro h
      exact absurd h.1 (by decide)
    rw [if_pos hP, if_neg hq, if_pos hP]
  · rw [if_neg hP, if_neg hP]
    simp only [hdest]

/-- C15 (promotion): a move between two distinct squares of the board can be made; after
it the destination holds `'Q'` when a `'P'` arrived on row 0, `'q'` when a `'p'` arrived
on row 7, and in every other case the piece that was moved; the source square is empty
and no other square has changed. -/
theorem makeMove_places_piece (s : Session) (sx sy tx ty : Int)
    (hs : isInside sx sy = true) (ht : isInside tx ty = true)
    (hne : ¬ (sx = tx ∧ sy = ty)) :
    ∃ s1, makeMove s sx sy tx ty = some s1 ∧
      s1.game.board ty tx =
        (if s.game.board sy sx = 'P' ∧ ty = 0 then 'Q'
         else if s.game.board sy sx = 'p' ∧ ty = 7 then 'q'
         else s.game.board sy sx) ∧
      s1.game.board sy sx = '.' ∧
      (∀ y x : Int, ¬ (y = ty ∧ x = tx) → ¬ (y = sy ∧ x = sx) →
        s1.game.board y x = s.game.board y x) := by
  obtain ⟨s1, hmk, hb⟩ := makeMove_board_cases s sx sy tx ty hs ht hne
  have h3 : ¬ (ty = sy ∧ tx = sx) := fun h => hne ⟨h.2.symm, h.1.symm⟩
  have h4 : ¬ (sy = ty ∧ sx = tx) := fun h => hne ⟨h.2, h.1⟩
  have hdest : movedBoard s.game.board sx sy tx ty ty tx = s.game.board sy sx := by
    simp [movedBoard, setCell, h3]
  have hsrc : movedBoard s.game.board sx sy tx ty sy sx = '.' := by
    simp [movedBoard, setCell]
  have hoth : ∀ y x : Int, ¬ (y = ty ∧ x = tx) → ¬ (y = sy ∧ x = sx) →
      movedBoard s.game.board sx sy tx ty y x = s.game.board y x := by
    intro y x h1 h2
    simp [movedBoard, setCell, h1, h2]
  refine ⟨s1, hmk, ?_, ?_, ?_⟩
  · rw [hb]
    by_cases hP : s.game.board sy sx = 'P' ∧ ty = 0
    · rw [if_pos hP, if_pos hP, setCell_same]
    · rw [if_neg hP, if_neg hP]
      by_cases hp : s.game.board sy sx = 'p' ∧ ty = 7
      · rw [if_pos hp, if_pos hp, setCell_same]
      · rw [if_neg hp, if_neg hp, hdest]
  · rw [hb]
    by_cases hP : s.game.board sy sx = 'P' ∧ ty = 0
    · rw [if_pos hP, setCell_other _ _ _ _ _ _ h4, hsrc]
    · rw [if_neg hP]
      by_cases hp : s.game.board sy sx = 'p' ∧ ty = 7
      · rw [if_pos hp, setCell_other _ _ _ _ _ _ h4, hsrc]
      · rw [if_neg hp, hsrc]
  · intro y x hyt hys
    rw [hb]
    by_cases hP : s.game.board sy sx = 'P' ∧ ty = 0
    · rw [if_pos hP, setCell_other _ _ _ _ _ _ hyt, hoth y x hyt hys]
    · rw [if_neg hP]
      by_cases hp : s.game.board sy sx = 'p' ∧ ty = 7
      · rw [if_pos hp, setCell_other _ _ _ _ _ _ hyt, hoth y x hyt hys]
      · rw [if_neg hp, hoth y x hyt hys]

theorem makeMove_places_piece_witness :
    ∃ s1, makeMove (sessionOf promotionBoard) 0 1 0 0 = some s1 ∧
      s1.game.board 0 0 =
        (if (sessionOf promotionBoard).game.board 1 0 = 'P' ∧ (0 : Int) = 0 then 'Q'
         else if (sessionOf promotionBoard).game.board 1 0 = 'p' ∧ (0 : Int) = 7 then 'q'
         else (sessionOf promotionBoard).game.board 1 0) ∧
      s1.game.board 1 0 = '.' ∧
      (∀ y x : Int, ¬ (y = 0 ∧ x = 0) → ¬ (y = 1 ∧ x = 0) →
        s1.game.board y x = (sessionOf promotionBoard).game.board y x) :=
  makeMove_places_piece (sessionOf promotionBoard) 0 1 0 0 (by decide) (by decide) (by decide)

/-- C18 (undo on an empty history): with an empty undo stack `undoMove` returns the
session it was given, every field unchanged. -/
theorem undoMove_empty_stack (s : Session) (h : s.moveStack = []) : undoMove s = some s := by
  simp [undoMove, h]

theorem undoMove_empty_stack_witness : undoMove (initBoard startup) = some (initBoard startup) :=
  undoMove_empty_stack (initBoard startup) rfl

theorem isBlackPiece_iff_toNat (p : Char) :
    isBlackPiece p = true ↔ (97 ≤ p.toNat ∧ p.toNat ≤ 122) := by
  simp only [isBlackPiece, Bool.and_eq_true, decide_eq_true_eq, ge_iff_le]
  exact Iff.rfl

theorem isWhitePiece_iff_toNat (p : Char) :
    isWhitePiece p = true ↔ (65 ≤ p.toNat ∧ p.toNat ≤ 90) := by
  simp only [isWhitePiece, Bool.and_eq_true, decide_eq_true_eq, ge_iff_le]
  exact Iff.rfl

/-- On a character that is not a lower-case letter `toupper` changes nothing. -/
theorem toupper_of_not_black (p : Char) (h : isBlackPiece p = false) : toupper p = p := by
  have h2 : ¬ (97 ≤ p.toNat ∧ p.toNat ≤ 122) := by
    rw [← isBlackPiece_iff_toNat, h]
    decide
  unfold toupper Char.toUpper
  simp only [ge_iff_le]
  rw [if_neg h2]

theorem white_not_black (p : Char) (h : isWhitePiece p = true) : isBlackPiece p = false := by
  have h1 := (isWhitePiece_iff_toNat p).mp h
  by_contra h2
  have h3 := (isBlackPiece_iff_toNat p).mp (by simpa using h2)
  omega

theorem black_cases (p : Char) (h : isBlackPiece p = true) :
    p ∈ ['a', 'b', 'c', 'd', 'e', 'f', 'g', 'h', 'i', 'j', 'k', 'l', 'm', 'n', 'o', 'p', 'q',
      'r', 's', 't', 'u', 'v', 'w', 'x', 'y', 'z'] := by
  obtain ⟨h1, h2⟩ := (isBlackPiece_iff_toNat p).mp h
  have hp : p = Char.ofNat p.toNat := (Char.ofNat_toNat p).symm
  generalize p.toNat = n at hp h1 h2
  subst hp
  interval_cases n <;> decide

/-- On a lower-case letter `toupper` gives one of the six piece letters exactly for the
lower-case letter of that piece. -/
theorem toupper_black_iff (p : Char) (h : isBlackPiece p = true) :
    (toupper p = 'P' ↔ p = 'p') ∧ (toupper p = 'N' ↔ p = 'n') ∧ (toupper p = 'B' ↔ p = 'b') ∧
    (toupper p = 'R' ↔ p = 'r') ∧ (toupper p = 'Q' ↔ p = 'q') ∧ (toupper p = 'K' ↔ p = 'k') := by
  have hc := black_cases p h
  simp only [List.mem_cons, List.mem_singleton, List.not_mem_nil, or_false] at hc
  rcases hc with rfl | rfl | rfl | rfl | rfl | rfl | rfl | rfl | rfl | rfl | rfl | rfl | rfl |
    rfl | rfl | rfl | rfl | rfl | rfl | rfl | rfl | rfl | rfl | rfl | rfl | rfl <;> decide

theorem retTrueIf_eq_true_iff (o : Option Bool) :
    retTrueIf o = some (some true) ↔ o = some true := by
  rcases o with _ | _ | _ <;> simp [retTrueIf]

theorem retTrueIf_values (o : Option Bool) (v : Option Bool) (h : retTrueIf o = some v) :
    v = none ∨ v = some true := by
  rcases o with _ | _ | _ <;> simp [retTrueIf] at h <;> simp [← h]

/-- The body of the loops of `isSquareAttacked` either falls through or returns true. -/
theorem attackFrom_values (b : Board) (x y : Int) (byWhite : Bool) (sy sx : Int)
    (hs : isInside sx sy = true) (ht : isInside x y = true) :
    attackFrom b x y byWhite sy sx = some none ∨
      attackFrom b x y byWhite sy sx = some (some true) := by
  obtain ⟨v, hv⟩ := attackFrom_total b x y byWhite sy sx hs ht
  have hval : v = none ∨ v = some true := by
    unfold attackFrom at hv
    simp only [] at hv
    split_ifs at hv
    all_goals first
      | exact retTrueIf_values _ v hv
      | (left; simpa using hv.symm)
  rcases hval with h | h
  · left; rw [hv, h]
  · right; rw [hv, h]

theorem queen_shape_iff (dx dy : Int) :
    ((iabs dx = iabs dy ∧ 0 < iabs dx ∨ iabs dx = 0 ∧ 0 < iabs dy) ∨
        iabs dy = 0 ∧ 0 < iabs dx) ↔
      (iabs dx = iabs dy ∧ 0 < iabs dx ∨ dx = 0 ∧ ¬ dy = 0 ∨ dy = 0 ∧ ¬ dx = 0) := by
  rcases iabs_cases dx with ⟨_, e1⟩ | ⟨_, e1⟩ <;>
  rcases iabs_cases dy with ⟨_, e2⟩ | ⟨_, e2⟩ <;>
  rw [e1, e2] <;> omega

/-- The body of the loops of `isSquareAttacked` returns true for the square `(sx, sy)`
exactly when the piece on it attacks the target in the words of the specification. -/
theorem attackFrom_true_iff (b : Board) (x y : Int) (byWhite : Bool) (sy sx : Int)
    (hs : isInside sx sy = true) (ht : isInside x y = true) :
    attackFrom b x y byWhite sy sx = some (some true) ↔ AttacksFrom b x y byWhite sx sy := by
  have hdiag := guardCall_clearPath_true_iff b
    (decide (iabs (x - sx) = iabs (y - sy)) && decide (iabs (x - sx) > 0)) sx sy x y hs ht
    (aligned_of_diag sx sy x y)
  have hline := guardCall_clearPath_true_iff b
    ((decide (iabs (x - sx) = 0) && decide (iabs (y - sy) > 0)) ||
      (decide (iabs (y - sy) = 0) && decide (iabs (x - sx) > 0))) sx sy x y hs ht
    (aligned_of_line sx sy x y)
  have hqueen := guardCall_clearPath_true_iff b
    ((decide (iabs (x - sx) = iabs (y - sy)) && decide (iabs (x - sx) > 0)) ||
      (decide (iabs (x - sx) = 0) && decide (iabs (y - sy) > 0)) ||
      (decide (iabs (y - sy) = 0) && decide (iabs (x - sx) > 0))) sx sy x y hs ht
    (aligned_of_queen sx sy x y)
  have hrook := rook_shape_iff (x - sx) (y - sy)
  have hqs := queen_shape_iff (x - sx) (y - sy)
  unfold attackFrom AttacksFrom
  simp only []
  generalize b sy sx = p
  cases byWhite
  · -- attacks by Black
    by_cases hb : isBlackPiece p = true
    · obtain ⟨hP, hN, hB, hR, hQ, hK⟩ := toupper_black_iff p hb
      have h0 : p ≠ '.' := by
        intro e; rw [e] at hb; exact absurd hb (by decide)
      simp only [h0, hb, hP, hN, hB, hR, hQ, hK, if_false, Bool.false_and, Bool.not_false,
        Bool.true_and, Bool.not_true, Bool.false_eq_true, retTrueIf_eq_true_iff]
      by_cases e1 : p = 'p'
      · subst e1; simp [retTrueIf_eq_true_iff, abs_eq_iabs]
      · by_cases e2 : p = 'n'
        · subst e2; simp [retTrueIf_eq_true_iff, abs_eq_iabs]
        · by_cases e3 : p = 'b'
          · subst e3; simp [retTrueIf_eq_true_iff, abs_eq_iabs, hdiag]
          · by_cases e4 : p = 'r'
            · subst e4; simp [retTrueIf_eq_true_iff, abs_eq_iabs, hline, hrook]
            · by_cases e5 : p = 'q'
              · subst e5
                simp [retTrueIf_eq_true_iff, abs_eq_iabs, hqueen]
                intro _
                exact hqs
              · by_cases e6 : p = 'k'
                · subst e6; simp [retTrueIf_eq_true_iff, abs_eq_iabs]
                · simp [e1, e2, e3, e4, e5, e6]
    · have hbf : isBlackPiece p = false := by simpa using hb
      have hne : ∀ c : Char, isBlackPiece c = true → p ≠ c := by
        intro c hc e; rw [e] at hb; exact hb hc
      have e1 := hne 'p' (by decide)
      have e2 := hne 'n' (by decide)
      have e3 := hne 'b' (by decide)
      have e4 := hne 'r' (by decide)
      have e5 := hne 'q' (by decide)
      have e6 := hne 'k' (by decide)
      by_cases h0 : p = '.'
      · simp [h0]
      · simp [h0, hbf, e1, e2, e3, e4, e5, e6]
  · -- attacks by White
    by_cases hw : isWhitePiece p = true
    · have hu : toupper p = p := toupper_of_not_black p (white_not_black p hw)
      have h0 : p ≠ '.' := by
        intro e; rw [e] at hw; exact absurd hw (by decide)
      simp only [h0, hw, hu, if_false, if_true, Bool.true_and, Bool.not_true,
        Bool.false_and, Bool.false_eq_true, retTrueIf_eq_true_iff]
      by_cases e1 : p = 'P'
      · subst e1; simp [retTrueIf_eq_true_iff, abs_eq_iabs]
      · by_cases e2 : p = 'N'
        · subst e2; simp [retTrueIf_eq_true_iff, abs_eq_iabs]
        · by_cases e3 : p = 'B'
          · subst e3; simp [retTrueIf_eq_true_iff, abs_eq_iabs, hdiag]
          · by_cases e4 : p = 'R'
            · subst e4; simp [retTrueIf_eq_true_iff, abs_eq_iabs, hline, hrook]
            · by_cases e5 : p = 'Q'
              · subst e5
                simp [retTrueIf_eq_true_iff, abs_eq_iabs, hqueen]
                intro _
                exact hqs
              · by_cases e6 : p = 'K'
                · subst e6; simp [retTrueIf_eq_true_iff, abs_eq_iabs]
                · simp [e1, e2, e3, e4, e5, e6]
    · have hwf : isWhitePiece p = false := by simpa using hw
      have hne : ∀ c : Char, isWhitePiece c = true → p ≠ c := by
        intro c hc e; rw [e] at hw; exact hw hc
      have e1 := hne 'P' (by decide)
      have e2 := hne 'N' (by decide)
      have e3 := hne 'B' (by decide)
      have e4 := hne 'R' (by decide)
      have e5 := hne 'Q' (by decide)
      have e6 := hne 'K' (by decide)
      by_cases h0 : p = '.'
      · simp [h0]
      · simp [h0, hwf, e1, e2, e3, e4, e5, e6]

theorem forLoop_true_cases (body : Int → Option (Option Bool)) (l : List Int)
    (h : ∀ i, i ∈ l → body i = some none ∨ body i = some (some true)) :
    (forLoop body l = some none ∧ ∀ i, i ∈ l → body i = some none) ∨
    (forLoop body l = some (some true) ∧ ∃ i, i ∈ l ∧ body i = some (some true)) := by
  induction l with
  | nil => left; exact ⟨rfl, fun i hi => absurd hi (List.not_mem_nil i)⟩
  | cons i rest ih =>
    rcases h i (List.mem_cons_self _ _) with hi | hi
    · rcases ih (fun j hj => h j (List.mem_cons_of_mem _ hj)) with ⟨h1, h2⟩ | ⟨h1, j, hj, hj2⟩
      · left
        refine ⟨by simp only [forLoop, hi, h1], ?_⟩
        intro j hj
        rcases List.mem_cons.mp hj with rfl | hj
        · exact hi
        · exact h2 j hj
      · right
        exact ⟨by simp only [forLoop, hi, h1], j, List.mem_cons_of_mem _ hj, hj2⟩
    · right
      exact ⟨by simp only [forLoop, hi], i, List.mem_cons_self _ _, hi⟩

/-- C12 (reference definition of `isSquareAttacked`): for an in-range square
`isSquareAttacked` returns, and it returns true exactly when some square of the board
holds a piece of the given colour that attacks the target: a pawn one file away and one
rank behind it in the colour's forward direction, a knight at an L-offset, a bishop, rook
or queen on its own kind of line with every square strictly between empty, or a king at
Chebyshev distance 1. A pawn on the file of the target contributes no attack. -/
theorem isSquareAttacked_iff_spec (b : Board) (x y : Int) (byWhite : Bool)
    (h : isInside x y = true) :
    (∃ r, isSquareAttacked b x y byWhite = some r) ∧
    (isSquareAttacked b x y byWhite = some true ↔ AttackSpec b x y byWhite) ∧
    (∀ sx sy : Int, isInside sx sy = true → b sy sx = (if byWhite then 'P' else 'p') →
      x = sx → attackFrom b x y byWhite sy sx = some none) := by
  have hrow : ∀ sy, sy ∈ idx8 →
      (forLoop (fun sx => attackFrom b x y byWhite sy sx) idx8 = some none ∧
        ∀ sx, sx ∈ idx8 → attackFrom b x y byWhite sy sx = some none) ∨
      (forLoop (fun sx => attackFrom b x y byWhite sy sx) idx8 = some (some true) ∧
        ∃ sx, sx ∈ idx8 ∧ attackFrom b x y byWhite sy sx = some (some true)) :=
    fun sy hsy => forLoop_true_cases _ idx8
      (fun sx hsx => attackFrom_values b x y byWhite sy sx (isInside_of_mem hsx hsy) h)
  have hall := forLoop_true_cases
    (fun sy => forLoop (fun sx => attackFrom b x y byWhite sy sx) idx8) idx8
    (fun sy hsy => by
      rcases hrow sy hsy with ⟨h1, _⟩ | ⟨h1, _⟩
      · left; exact h1
      · right; exact h1)
  refine ⟨isSquareAttacked_total b x y byWhite h, ?_, ?_⟩
  · rcases hall with ⟨h1, h2⟩ | ⟨h1, sy, hsy, h2⟩
    · have hval : isSquareAttacked b x y byWhite = some false :=
        congrArg (Option.map (fun r : Option Bool => r.getD false)) h1
      have hno : ¬ AttackSpec b x y byWhite := by
        rintro ⟨sx, sy, hr, hatt⟩
        have hsx : sx ∈ idx8 := (mem_idx8 sx).mpr (by omega)
        have hsy : sy ∈ idx8 := (mem_idx8 sy).mpr (by omega)
        have htrue := (attackFrom_true_iff b x y byWhite sy sx (isInside_of_mem hsx hsy) h).mpr hatt
        rcases hrow sy hsy with ⟨_, h3⟩ | ⟨h3, _⟩
        · exact absurd ((h3 sx hsx).symm.trans htrue) (by decide)
        · exact absurd (h3.symm.trans (h2 sy hsy)) (by decide)
      rw [hval]
      simp [hno]
    · have hval : isSquareAttacked b x y byWhite = some true :=
        congrArg (Option.map (fun r : Option Bool => r.getD false)) h1
      have hyes : AttackSpec b x y byWhite := by
        rcases hrow sy hsy with ⟨h3, _⟩ | ⟨_, sx, hsx, h3⟩
        · exact absurd (h2.symm.trans h3) (by decide)
        · have hsxI := (mem_idx8 sx).mp hsx
          have hsyI := (mem_idx8 sy).mp hsy
          exact ⟨sx, sy, by omega,
            (attackFrom_true_iff b x y byWhite sy sx (isInside_of_mem hsx hsy) h).mp h3⟩
      rw [hval]
      simp [hyes]
  · intro sx sy hs hp hx
    rcases attackFrom_values b x y byWhite sy sx hs h with hv | hv
    · exact hv
    · have hatt := (attackFrom_true_iff b x y byWhite sy sx hs h).mp hv
      unfold AttacksFrom at hatt
      simp only [hp, hx, sub_self, abs_zero] at hatt
      cases byWhite <;> simp at hatt

theorem isSquareAttacked_iff_spec_witness :
    (∃ r, isSquareAttacked stalemateBoard 1 0 true = some r) ∧
    (isSquareAttacked stalemateBoard 1 0 true = some true ↔ AttackSpec stalemateBoard 1 0 true) ∧
    (∀ sx sy : Int, isInside sx sy = true →
      stalemateBoard sy sx = (if true = true then 'P' else 'p') →
      (1 : Int) = sx → attackFrom stalemateBoard 1 0 true sy sx = some none) :=
  isSquareAttacked_iff_spec stalemateBoard 1 0 true (by decide)

/-- The counters, the log and the undo stack after `makeMove` on squares of the board. -/
theorem makeMove_fields (s : Session) (sx sy tx ty : Int)
    (hs : isInside sx sy = true) (ht : isInside tx ty = true) :
    ∃ s1, makeMove s sx sy tx ty = some s1 ∧
      s1.game.whiteCaptures =
        (if s.game.board ty tx ≠ '.' ∧ isWhitePiece (s.game.board sy sx) = true
          then s.game.whiteCaptures + 1 else s.game.whiteCaptures) ∧
      s1.game.blackCaptures =
        (if s.game.board ty tx ≠ '.' ∧ ¬ isWhitePiece (s.game.board sy sx) = true
          then s.game.blackCaptures + 1 else s.game.blackCaptures) ∧
      s1.game.moveHistory = s.game.moveHistory ++
        [if s.game.board ty tx ≠ '.'
          then plainEntry sx sy tx ty ++ (" x" ++ pieceToName (s.game.board ty tx))
          else plainEntry sx sy tx ty] ∧
      s1.moveStack = s.moveStack ++
        [{ sx := sx, sy := sy, tx := tx, ty := ty, captured := s.game.board ty tx,
           wasKingMove := decide (toupper (s.game.board sy sx) = 'K'),
           wasRookMove := decide (toupper (s.game.board sy sx) = 'R') }] ∧
      s1.game.moveCount = s.game.moveCount + 1 ∧
      s1.game.whiteTurn = s.game.whiteTurn ∧
      s1.game.gameOver = s.game.gameOver := by
  unfold makeMove
  have h : ¬ ((!isInside sx sy || !isInside tx ty) = true) := by simp [hs, ht]
  rw [if_neg h]
  exact ⟨_, rfl, rfl, rfl, rfl, rfl, rfl, rfl, rfl⟩

theorem pieceToName_eq_pieceNameOf (q : Char) (h : q ∈ whitePieces ∨ q ∈ blackPieces) :
    pieceToName q = pieceNameOf q := by
  simp only [whitePieces, blackPieces, List.mem_cons, List.mem_singleton, List.not_mem_nil,
    or_false] at h
  rcases h with (rfl | rfl | rfl | rfl | rfl | rfl) | (rfl | rfl | rfl | rfl | rfl | rfl) <;>
    decide

theorem pieceNameOf_length (q : Char) (h : q ∈ whitePieces ∨ q ∈ blackPieces) :
    4 ≤ (pieceNameOf q).length := by
  simp only [whitePieces, blackPieces, List.mem_cons, List.mem_singleton, List.not_mem_nil,
    or_false] at h
  rcases h with (rfl | rfl | rfl | rfl | rfl | rfl) | (rfl | rfl | rfl | rfl | rfl | rfl) <;>
    decide

theorem plainEntry_length (sx sy tx ty : Int) : (plainEntry sx sy tx ty).length = 5 := by
  simp [plainEntry, posToNotation, String.length_append, String.length]

/-- An entry without a capture does not end in the suffix of a capture. -/
theorem plainEntry_no_suffix (sx sy tx ty : Int) (pre : String) (q : Char)
    (h : q ∈ whitePieces ∨ q ∈ blackPieces) :
    plainEntry sx sy tx ty ≠ pre ++ " x" ++ pieceNameOf q := by
  intro e
  have h1 := congrArg String.length e
  rw [plainEntry_length, String.length_append, String.length_append] at h1
  have h2 := pieceNameOf_length q h
  have h3 : (" x" : String).length = 2 := by decide
  omega

/-- C16 (capture bookkeeping): a move on squares of the board can be made. When a White
piece moves onto a Black piece the White capture count grows by one, the Black count is
unchanged and the entry appended to the log ends in `" x"` and the name of the captured
piece; likewise with the colours exchanged. When the destination is empty both counts
are unchanged and the entry appended has no such suffix. -/
theorem makeMove_capture_bookkeeping (s : Session) (sx sy tx ty : Int)
    (hs : isInside sx sy = true) (ht : isInside tx ty = true) :
    ∃ s1, makeMove s sx sy tx ty = some s1 ∧
      (s.game.board sy sx ∈ whitePieces → s.game.board ty tx ∈ blackPieces →
        s1.game.whiteCaptures = s.game.whiteCaptures + 1 ∧
        s1.game.blackCaptures = s.game.blackCaptures ∧
        s1.game.moveHistory = s.game.moveHistory ++
          [plainEntry sx sy tx ty ++ " x" ++ pieceNameOf (s.game.board ty tx)]) ∧
      (s.game.board sy sx ∈ blackPieces → s.game.board ty tx ∈ whitePieces →
        s1.game.blackCaptures = s.game.blackCaptures + 1 ∧
        s1.game.whiteCaptures = s.game.whiteCaptures ∧
        s1.game.moveHistory = s.game.moveHistory ++
          [plainEntry sx sy tx ty ++ " x" ++ pieceNameOf (s.game.board ty tx)]) ∧
      (s.game.board ty tx = '.' →
        s1.game.whiteCaptures = s.game.whiteCaptures ∧
        s1.game.blackCaptures = s.game.blackCaptures ∧
        s1.game.moveHistory = s.game.moveHistory ++ [plainEntry sx sy tx ty] ∧
        ∀ (pre : String) (q : Char), q ∈ whitePieces ∨ q ∈ blackPieces →
          plainEntry sx sy tx ty ≠ pre ++ " x" ++ pieceNameOf q) := by
  obtain ⟨s1, hmk, hw, hb, hlog, _⟩ := makeMove_fields s sx sy tx ty hs ht
  have hdw : ('.' : Char) ∉ whitePieces := by decide
  have hdb : ('.' : Char) ∉ blackPieces := by decide
  refine ⟨s1, hmk, ?_, ?_, ?_⟩
  · intro hp hq
    have hq0 : s.game.board ty tx ≠ '.' := fun e => hdb (e ▸ hq)
    have hpw : isWhitePiece (s.game.board sy sx) = true :=
      (isWhitePiece_iff_mem _ (Or.inr (Or.inl hp))).mpr hp
    refine ⟨?_, ?_, ?_⟩
    · rw [hw, if_pos ⟨hq0, hpw⟩]
    · rw [hb, if_neg (fun h => h.2 hpw)]
    · rw [hlog, if_pos hq0, pieceToName_eq_pieceNameOf _ (Or.inr hq), String.append_assoc]
  · intro hp hq
    have hq0 : s.game.board ty tx ≠ '.' := fun e => hdw (e ▸ hq)
    have hpw : ¬ isWhitePiece (s.game.board sy sx) = true := by
      intro h
      have h1 := (isWhitePiece_iff_mem _ (Or.inr (Or.inr hp))).mp h
      simp only [whitePieces, blackPieces, List.mem_cons, List.mem_singleton,
        List.not_mem_nil, or_false] at h1 hp
      rcases h1 with e | e | e | e | e | e <;> rw [e] at hp <;> revert hp <;> decide
    refine ⟨?_, ?_, ?_⟩
    · rw [hb, if_pos ⟨hq0, hpw⟩]
    · rw [hw, if_neg (fun h => hpw h.2)]
    · rw [hlog, if_pos hq0, pieceToName_eq_pieceNameOf _ (Or.inl hq), String.append_assoc]
  · intro hq
    have hq0 : ¬ s.game.board ty tx ≠ '.' := fun h => h hq
    refine ⟨?_, ?_, ?_, fun pre q hq2 => plainEntry_no_suffix sx sy tx ty pre q hq2⟩
    · rw [hw, if_neg (fun h => hq0 h.1)]
    · rw [hb, if_neg (fun h => hq0 h.1)]
    · rw [hlog, if_neg hq0]

theorem makeMove_capture_bookkeeping_witness :
    ∃ s1, makeMove (sessionOf captureBoard) 0 7 0 1 = some s1 ∧
      ((sessionOf captureBoard).game.board 7 0 ∈ whitePieces →
        (sessionOf captureBoard).game.board 1 0 ∈ blackPieces →
        s1.game.whiteCaptures = (sessionOf captureBoard).game.whiteCaptures + 1 ∧
        s1.game.blackCaptures = (sessionOf captureBoard).game.blackCaptures ∧
        s1.game.moveHistory = (sessionOf captureBoard).game.moveHistory ++
          [plainEntry 0 7 0 1 ++ " x" ++
            pieceNameOf ((sessionOf captureBoard).game.board 1 0)]) ∧
      ((sessionOf captureBoard).game.board 7 0 ∈ blackPieces →
        (sessionOf captureBoard).game.board 1 0 ∈ whitePieces →
        s1.game.blackCaptures = (sessionOf captureBoard).game.blackCaptures + 1 ∧
        s1.game.whiteCaptures = (sessionOf captureBoard).game.whiteCaptures ∧
        s1.game.moveHistory = (sessionOf captureBoard).game.moveHistory ++
          [plainEntry 0 7 0 1 ++ " x" ++
            pieceNameOf ((sessionOf captureBoard).game.board 1 0)]) ∧
      ((sessionOf captureBoard).game.board 1 0 = '.' →
        s1.game.whiteCaptures = (sessionOf captureBoard).game.whiteCaptures ∧
        s1.game.blackCaptures = (sessionOf captureBoard).game.blackCaptures ∧
        s1.game.moveHistory = (sessionOf captureBoard).game.moveHistory ++
          [plainEntry 0 7 0 1] ∧
        ∀ (pre : String) (q : Char), q ∈ whitePieces ∨ q ∈ blackPieces →
          plainEntry 0 7 0 1 ≠ pre ++ " x" ++ pieceNameOf q) :=
  makeMove_capture_bookkeeping (sessionOf captureBoard) 0 7 0 1 (by decide) (by decide)

/-- C19 (move notation): for a square of the board `posToNotation` is the string of the
file letter `'a' + x` and the rank digit `'8' - y`, so that `(0, 7)` is `a1` and `(7, 0)`
is `h8`; it is injective on the 64 squares; and the entry that `makeMove` appends to the
log is source, dash, destination, followed by `" x"` and the name of the captured piece
exactly when the destination was not empty. -/
theorem posToNotation_format :
    (∀ x y : Int, isInside x y = true →
      posToNotation x y =
        String.mk [Char.ofNat ('a'.toNat + x.toNat), Char.ofNat ('8'.toNat - y.toNat)]) ∧
    (posToNotation 0 7 = "a1" ∧ posToNotation 7 0 = "h8") ∧
    (∀ x y x1 y1 : Int, isInside x y = true → isInside x1 y1 = true →
      posToNotation x y = posToNotation x1 y1 → x = x1 ∧ y = y1) ∧
    (∀ (s : Session) (sx sy tx ty : Int), isInside sx sy = true → isInside tx ty = true →
      ∃ s1, makeMove s sx sy tx ty = some s1 ∧
        s1.game.moveHistory = s.game.moveHistory ++
          [if s.game.board ty tx ≠ '.' then
            posToNotation sx sy ++ "-" ++ posToNotation tx ty ++ " x" ++
              pieceToName (s.game.board ty tx)
           else posToNotation sx sy ++ "-" ++ posToNotation tx ty]) := by
  have hmem : ∀ x y : Int, isInside x y = true → x ∈ idx8 ∧ y ∈ idx8 := by
    intro x y h
    rw [isInside_iff] at h
    exact ⟨(mem_idx8 x).mpr ⟨h.1, h.2.1⟩, (mem_idx8 y).mpr ⟨h.2.2.1, h.2.2.2⟩⟩
  have hfmt : ∀ x, x ∈ idx8 → ∀ y, y ∈ idx8 →
      posToNotation x y =
        String.mk [Char.ofNat ('a'.toNat + x.toNat), Char.ofNat ('8'.toNat - y.toNat)] := by
    decide!
  have hinj : ∀ x, x ∈ idx8 → ∀ y, y ∈ idx8 → ∀ x1, x1 ∈ idx8 → ∀ y1, y1 ∈ idx8 →
      posToNotation x y = posToNotation x1 y1 → x = x1 ∧ y = y1 := by
    decide!
  refine ⟨fun x y h => hfmt x (hmem x y h).1 y (hmem x y h).2, ⟨by decide, by decide⟩, ?_, ?_⟩
  · intro x y x1 y1 h h1 e
    exact hinj x (hmem x y h).1 y (hmem x y h).2 x1 (hmem x1 y1 h1).1 y1 (hmem x1 y1 h1).2 e
  · intro s sx sy tx ty hs ht
    obtain ⟨s1, hmk, _, _, hlog, _⟩ := makeMove_fields s sx sy tx ty hs ht
    refine ⟨s1, hmk, ?_⟩
    rw [hlog]
    by_cases hq : s.game.board ty tx ≠ '.'
    · rw [if_pos hq, if_pos hq, plainEntry]
      simp only [String.append_assoc]
    · rw [if_neg hq, if_neg hq, plainEntry]

theorem foldl_clear_row (l : List Int) (y : Int) :
    ∀ (f : Int → Int → Bool) (y1 x1 : Int),
      (l.foldl (fun f1 x => setFlag f1 y x false) f) y1 x1
        = if y1 = y ∧ x1 ∈ l then false else f y1 x1 := by
  induction l with
  | nil => intro f y1 x1; simp
  | cons x rest ih =>
    intro f y1 x1
    rw [List.foldl_cons, ih]
    by_cases h1 : y1 = y
    · by_cases h2 : x1 ∈ rest
      · simp [h1, h2]
      · by_cases h3 : x1 = x
        · simp [h1, h2, h3, setFlag]
        · simp [h1, h2, h3, setFlag]
    · simp [h1, setFlag]

theorem foldl_clear_all (l : List Int) :
    ∀ (f : Int → Int → Bool) (y1 x1 : Int),
      (l.foldl (fun f1 y => idx8.foldl (fun f2 x => setFlag f2 y x false) f1) f) y1 x1
        = if y1 ∈ l ∧ x1 ∈ idx8 then false else f y1 x1 := by
  induction l with
  | nil => intro f y1 x1; simp
  | cons y rest ih =>
    intro f y1 x1
    rw [List.foldl_cons, ih, foldl_clear_row]
    by_cases h3 : x1 ∈ idx8
    · by_cases h1 : y1 ∈ rest
      · simp [h1, h3]
      · by_cases h2 : y1 = y
        · simp [h1, h2, h3]
        · simp [h1, h2, h3]
    · simp [h3]

/-- After `clearLegalMoves` no square of the board is flagged. -/
theorem clearLegalMoves_flags (g : GameState) (x y : Int) (h : isInside x y = true) :
    (clearLegalMoves g).legalMoves y x = false := by
  rw [isInside_iff] at h
  have hx : x ∈ idx8 := (mem_idx8 x).mpr ⟨h.1, h.2.1⟩
  have hy : y ∈ idx8 := (mem_idx8 y).mpr ⟨h.2.2.1, h.2.2.2⟩
  show (idx8.foldl (fun f y => idx8.foldl (fun f1 x => setFlag f1 y x false) f)
    g.legalMoves) y x = false
  rw [foldl_clear_all]
  simp [hx, hy]

theorem forLoopS_cons_none {σ ρ : Type} (body : Int → σ → Option (Option ρ × σ)) (i : Int)
    (rest : List Int) (s s1 : σ) (h : body i s = some (none, s1)) :
    forLoopS body (i :: rest) s = forLoopS body rest s1 := by
  simp only [forLoopS, h]

/-- The inner loop of `computeLegalMoves` over a row: it returns, restores the board and
flags exactly the accepted destinations among the squares it has visited. -/
theorem computeLegalMoves_row (b0 : Board) (sx sy y : Int) (l : List Int) :
    ∀ g : GameState, g.board = b0 →
      ∃ g1 : GameState,
        forLoopS (fun x (g2 : GameState) =>
          match isLegalMove g2.board sx sy x y with
          | none => none
          | some (true, b) =>
            some ((none : Option Unit),
              { g2 with board := b, legalMoves := setFlag g2.legalMoves y x true })
          | some (false, b) => some (none, { g2 with board := b })) l g = some (none, g1) ∧
        g1.board = b0 ∧
        ∀ y1 x1 : Int, g1.legalMoves y1 x1 =
          if y1 = y ∧ x1 ∈ l ∧ accepts b0 sx sy x1 y = true then true else g.legalMoves y1 x1 := by
  induction l with
  | nil =>
    intro g hg
    exact ⟨g, rfl, hg, fun y1 x1 => by simp⟩
  | cons x rest ih =>
    intro g hg
    have hleg := isLegalMove_eq_accepts g.board sx sy x y
    rw [hg] at hleg
    cases hacc : accepts b0 sx sy x y with
    | false =>
      rw [hacc] at hleg
      obtain ⟨g1, h1, h2, h3⟩ := ih { g with board := b0 } rfl
      refine ⟨g1, ?_, h2, ?_⟩
      · simp only [forLoopS, hg, hleg]
        exact h1
      · intro y1 x1
        rw [h3]
        by_cases e : x1 = x
        · subst e
          simp [hacc]
        · simp [e]
    | true =>
      rw [hacc] at hleg
      obtain ⟨g1, h1, h2, h3⟩ := ih
        { g with board := b0, legalMoves := setFlag g.legalMoves y x true } rfl
      refine ⟨g1, ?_, h2, ?_⟩
      · simp only [forLoopS, hg, hleg]
        exact h1
      · intro y1 x1
        rw [h3]
        by_cases e : x1 = x
        · subst e
          by_cases e2 : y1 = y
          · simp [hacc, e2, setFlag]
          · simp [e2, setFlag]
        · by_cases e2 : y1 = y
          · simp [e, e2, setFlag]
          · simp [e2, setFlag]

/-- The two loops of `computeLegalMoves` over the rows. -/
theorem computeLegalMoves_rows (b0 : Board) (sx sy : Int) (l : List Int) :
    ∀ g : GameState, g.board = b0 →
      ∃ g1 : GameState,
        forLoopS (fun y g1 => forLoopS (fun x (g2 : GameState) =>
          match isLegalMove g2.board sx sy x y with
          | none => none
          | some (true, b) =>
            some ((none : Option Unit),
              { g2 with board := b, legalMoves := setFlag g2.legalMoves y x true })
          | some (false, b) => some (none, { g2 with board := b })) idx8 g1) l g
          = some (none, g1) ∧
        g1.board = b0 ∧
        ∀ y1 x1 : Int, g1.legalMoves y1 x1 =
          if y1 ∈ l ∧ x1 ∈ idx8 ∧ accepts b0 sx sy x1 y1 = true then true
          else g.legalMoves y1 x1 := by
  induction l with
  | nil =>
    intro g hg
    exact ⟨g, rfl, hg, fun y1 x1 => by simp⟩
  | cons y rest ih =>
    intro g hg
    obtain ⟨g1, h1, h2, h3⟩ := computeLegalMoves_row b0 sx sy y idx8 g hg
    obtain ⟨g2, k1, k2, k3⟩ := ih g1 h2
    refine ⟨g2, (forLoopS_cons_none _ y rest g g1 h1).trans k1, k2, ?_⟩
    · intro y1 x1
      rw [k3, h3]
      by_cases e : y1 = y
      · subst e
        by_cases e2 : y1 ∈ rest <;> by_cases e3 : x1 ∈ idx8 <;>
          by_cases e4 : accepts b0 sx sy x1 y1 = true <;> simp [e2, e3, e4]
      · by_cases e2 : y1 ∈ rest <;> by_cases e3 : x1 ∈ idx8 <;>
          by_cases e4 : accepts b0 sx sy x1 y1 = true <;> simp [e, e2, e3, e4]

/-- C17 (legal destinations): `computeLegalMoves` returns and leaves the board alone; after
it the flag of an in-range square `(x, y)` is true exactly when `(sx, sy)` is in range and
not empty and `isLegalMove` accepts the move from `(sx, sy)` to `(x, y)`; the source
square is never flagged, and no square of the board is flagged when the source is out of
range or empty. -/
theorem computeLegalMoves_flags (g : GameState) (sx sy : Int) :
    ∃ g1, computeLegalMoves g sx sy = some g1 ∧ g1.board = g.board ∧
      (∀ x y : Int, isInside x y = true →
        (g1.legalMoves y x = true ↔
          (isInside sx sy = true ∧ g.board sy sx ≠ '.' ∧
            (isLegalMove g.board sx sy x y).map Prod.fst = some true))) ∧
      (isInside sx sy = true → g1.legalMoves sy sx = false) ∧
      ((isInside sx sy = false ∨ g.board sy sx = '.') →
        ∀ x y : Int, isInside x y = true → g1.legalMoves y x = false) := by
  have hacc : ∀ x y : Int, accepts g.board sx sy x y = true ↔
      (isLegalMove g.board sx sy x y).map Prod.fst = some true := by
    intro x y
    simp [accepts]
  have hself : accepts g.board sx sy sx sy = false := by
    by_contra h
    have h1 := (hacc sx sy).mp (by simpa using h)
    exact ((isLegalMove_true_iff g.board sx sy sx sy).mp h1).2.2.1 ⟨rfl, rfl⟩
  have key : ∃ g1, computeLegalMoves g sx sy = some g1 ∧ g1.board = g.board ∧
      ∀ x y : Int, isInside x y = true →
        (g1.legalMoves y x = true ↔
          (isInside sx sy = true ∧ g.board sy sx ≠ '.' ∧ accepts g.board sx sy x y = true)) := by
    unfold computeLegalMoves
    simp only []
    by_cases hs : isInside sx sy = true
    · have hs1 : ¬ ((!isInside sx sy) = true) := by simp [hs]
      rw [if_neg hs1]
      by_cases h0 : (clearLegalMoves g).board sy sx = '.'
      · rw [if_pos h0]
        refine ⟨clearLegalMoves g, rfl, rfl, fun x y hxy => ?_⟩
        rw [clearLegalMoves_flags g x y hxy]
        have h0b : g.board sy sx = '.' := h0
        simp [h0b]
      · rw [if_neg h0]
        obtain ⟨g3, h1, h2, h3⟩ := computeLegalMoves_rows g.board sx sy idx8 (clearLegalMoves g) rfl
        erw [h1]
        refine ⟨{ g3 with legalMoves := setFlag g3.legalMoves sy sx false }, rfl, h2,
          fun x y hxy => ?_⟩
        have hxI := (isInside_iff x y).mp hxy
        have hx : x ∈ idx8 := (mem_idx8 x).mpr ⟨hxI.1, hxI.2.1⟩
        have hy : y ∈ idx8 := (mem_idx8 y).mpr ⟨hxI.2.2.1, hxI.2.2.2⟩
        have h0b : g.board sy sx ≠ '.' := h0
        show setFlag g3.legalMoves sy sx false y x = true ↔ _
        by_cases e : y = sy ∧ x = sx
        · obtain ⟨rfl, rfl⟩ := e
          simp [setFlag, hself]
        · have hflag : setFlag g3.legalMoves sy sx false y x = g3.legalMoves y x := by
            simp [setFlag, e]
          rw [hflag, h3, clearLegalMoves_flags g x y hxy]
          simp [hx, hy, hs, h0b]
    · have hs1 : (!isInside sx sy) = true := by simpa using hs
      rw [if_pos hs1]
      refine ⟨clearLegalMoves g, rfl, rfl, fun x y hxy => ?_⟩
      rw [clearLegalMoves_flags g x y hxy]
      simp [hs]
  obtain ⟨g1, h1, h2, h3⟩ := key
  refine ⟨g1, h1, h2, ?_, ?_, ?_⟩
  · intro x y hxy
    rw [h3 x y hxy, hacc]
  · intro hs
    have := h3 sx sy hs
    rw [hself] at this
    by_contra hc
    have hc2 : g1.legalMoves sy sx = true := by simpa using hc
    exact absurd (this.mp hc2).2.2 (by decide)
  · intro hbad x y hxy
    by_contra hc
    have hc2 : g1.legalMoves y x = true := by simpa using hc
    obtain ⟨k1, k2, _⟩ := (h3 x y hxy).mp hc2
    rcases hbad with h | h
    · rw [k1] at h
      exact absurd h (by decide)
    · exact k2 h

/-- The fields of the session after `undoMove` pops a record that names squares of the
board. -/
theorem undoMove_fields (s : Session) (m : Move)
    (htop : s.moveStack.getLast? = some m)
    (hs : isInside m.sx m.sy = true) (ht : isInside m.tx m.ty = true) :
    ∃ s1, undoMove s = some s1 ∧
      s1.moveStack = s.moveStack.dropLast ∧
      s1.game.moveHistory = s.game.moveHistory.dropLast ∧
      s1.game.board =
        setCell (setCell s.game.board m.sy m.sx (s.game.board m.ty m.tx)) m.ty m.tx m.captured ∧
      s1.game.whiteTurn = (!s.game.whiteTurn) ∧
      s1.game.gameOver = false ∧
      s1.game.moveCount = s.game.moveCount - 1 ∧
      s1.game.whiteCaptures =
        (if m.captured ≠ '.' ∧ isWhitePiece (setCell (setCell s.game.board m.sy m.sx
            (s.game.board m.ty m.tx)) m.ty m.tx m.captured m.sy m.sx) = true
          then s.game.whiteCaptures - 1 else s.game.whiteCaptures) ∧
      s1.game.blackCaptures =
        (if m.captured ≠ '.' ∧ ¬ isWhitePiece (setCell (setCell s.game.board m.sy m.sx
            (s.game.board m.ty m.tx)) m.ty m.tx m.captured m.sy m.sx) = true
          then s.game.blackCaptures - 1 else s.game.blackCaptures) ∧
      (s1.game.lastMoveFromX, s1.game.lastMoveFromY, s1.game.lastMoveToX, s1.game.lastMoveToY) =
        (match s.moveStack.dropLast.getLast? with
         | some prev => (prev.sx, prev.sy, prev.tx, prev.ty)
         | none => (-1, -1, -1, -1)) := by
  have hin : ¬ ((!isInside m.sx m.sy || !isInside m.tx m.ty) = true) := by simp [hs, ht]
  have hlog : (if s.game.moveHistory.isEmpty = true then s.game.moveHistory
      else s.game.moveHistory.dropLast) = s.game.moveHistory.dropLast := by
    cases hl : s.game.moveHistory with
    | nil => rfl
    | cons a l => rfl
  unfold undoMove
  rw [htop]
  simp only []
  rw [if_neg hin, hlog]
  exact ⟨_, rfl, rfl, rfl, rfl, rfl, rfl, rfl, rfl, rfl, rfl⟩

/-- The log and the stack are equally long after `initBoard`. -/
theorem initBoard_logMatchesStack (s : Session) : LogMatchesStack (initBoard s) := rfl

/-- The function `makeMove` keeps the log and the stack equally long. -/
theorem makeMove_logMatchesStack (s s1 : Session) (sx sy tx ty : Int)
    (h : LogMatchesStack s) (hm : makeMove s sx sy tx ty = some s1) : LogMatchesStack s1 := by
  by_cases hin : (!isInside sx sy || !isInside tx ty) = true
  · unfold makeMove at hm
    rw [if_pos hin] at hm
    exact absurd hm (by simp)
  · have hs : isInside sx sy = true := by
      cases e : isInside sx sy <;> simp [e] at hin ⊢
    have ht : isInside tx ty = true := by
      cases e : isInside tx ty <;> simp [e] at hin ⊢
    obtain ⟨s2, h2, _, _, hlog, hst, _⟩ := makeMove_fields s sx sy tx ty hs ht
    rw [hm] at h2
    cases h2
    unfold LogMatchesStack at h ⊢
    rw [hlog, hst, List.length_append, List.length_append, h]
    rfl

/-- The function `undoMove` keeps the log and the stack equally long. -/
theorem undoMove_logMatchesStack (s s1 : Session)
    (h : LogMatchesStack s) (hu : undoMove s = some s1) : LogMatchesStack s1 := by
  cases htop : s.moveStack.getLast? with
  | none =>
    unfold undoMove at hu
    rw [htop] at hu
    cases hu
    exact h
  | some m =>
    by_cases hin : (!isInside m.sx m.sy || !isInside m.tx m.ty) = true
    · unfold undoMove at hu
      rw [htop] at hu
      simp only [] at hu
      rw [if_pos hin] at hu
      exact absurd hu (by simp)
    · have hs : isInside m.sx m.sy = true := by
        cases e : isInside m.sx m.sy <;> simp [e] at hin ⊢
      have ht : isInside m.tx m.ty = true := by
        cases e : isInside m.tx m.ty <;> simp [e] at hin ⊢
      obtain ⟨s2, h2, hst, hlog, _⟩ := undoMove_fields s m htop hs ht
      rw [hu] at h2
      cases h2
      unfold LogMatchesStack at h ⊢
      rw [hlog, hst, List.length_dropLast, List.length_dropLast, h]

/-- Every session that a sequence of moves and undos reaches from one whose log and stack
are equally long has them equally long. -/
theorem play_logMatchesStack (acts : List Action) :
    ∀ s s1 : Session, LogMatchesStack s → play s acts = some s1 → LogMatchesStack s1 := by
  induction acts with
  | nil =>
    intro s s1 h hp
    simp only [play, Option.some.injEq] at hp
    exact hp ▸ h
  | cons a rest ih =>
    intro s s1 h hp
    simp only [play] at hp
    cases hstep : step s a with
    | none => rw [hstep] at hp; exact absurd hp (by simp)
    | some s2 =>
      rw [hstep] at hp
      refine ih s2 s1 ?_ hp
      cases a with
      | undo => exact undoMove_logMatchesStack s s2 h hstep
      | move sx sy tx ty =>
        simp only [step] at hstep
        split at hstep
        · unfold moveAndFlip at hstep
          cases hm : makeMove s sx sy tx ty with
          | none => rw [hm] at hstep; exact absurd hstep (by simp)
          | some s3 =>
            rw [hm] at hstep
            simp only [Option.map_some', Option.some.injEq] at hstep
            have := makeMove_logMatchesStack s s3 sx sy tx ty h hm
            rw [← hstep]
            exact this
        · exact absurd hstep (by simp)

/-- C20 (undo postconditions): let the undo stack be non-empty with top record `m`, a
record of a move between two distinct squares of the board, and let the move log hold as
many entries as the stack, as it does in every session the program reaches. Then
`undoMove` returns; the stack and the move log are each one entry shorter, having lost
their last entry; the captured piece of the record stands on its destination, the piece
that stood there on its source, and no other square has changed; the side to move is
negated; the game-over flag is false; and the last-move squares are those of the new top
record, or all `-1` when the stack has become empty. -/
theorem undoMove_postconditions (s : Session) (m : Move)
    (htop : s.moveStack.getLast? = some m)
    (hs : isInside m.sx m.sy = true) (ht : isInside m.tx m.ty = true)
    (hne : ¬ (m.sx = m.tx ∧ m.sy = m.ty))
    (hlen : LogMatchesStack s) :
    ∃ s1, undoMove s = some s1 ∧
      (s1.moveStack = s.moveStack.dropLast ∧ s1.moveStack.length + 1 = s.moveStack.length) ∧
      (s1.game.moveHistory = s.game.moveHistory.dropLast ∧
        s1.game.moveHistory.length + 1 = s.game.moveHistory.length) ∧
      (s1.game.board m.ty m.tx = m.captured ∧
        s1.game.board m.sy m.sx = s.game.board m.ty m.tx ∧
        ∀ y x : Int, ¬ (y = m.ty ∧ x = m.tx) → ¬ (y = m.sy ∧ x = m.sx) →
          s1.game.board y x = s.game.board y x) ∧
      s1.game.whiteTurn = (!s.game.whiteTurn) ∧
      s1.game.gameOver = false ∧
      (∀ prev : Move, s1.moveStack.getLast? = some prev →
        s1.game.lastMoveFromX = prev.sx ∧ s1.game.lastMoveFromY = prev.sy ∧
        s1.game.lastMoveToX = prev.tx ∧ s1.game.lastMoveToY = prev.ty) ∧
      (s1.moveStack = [] →
        s1.game.lastMoveFromX = -1 ∧ s1.game.lastMoveFromY = -1 ∧
        s1.game.lastMoveToX = -1 ∧ s1.game.lastMoveToY = -1) := by
  obtain ⟨s1, hu, hst, hlog, hb, hturn, hover, _, _, _, hlast⟩ := undoMove_fields s m htop hs ht
  have hstack : s.moveStack ≠ [] := by
    intro e
    rw [e] at htop
    exact absurd htop (by simp)
  have hpos := List.length_pos.mpr hstack
  unfold LogMatchesStack at hlen
  have h4 : ¬ (m.sy = m.ty ∧ m.sx = m.tx) := fun h => hne ⟨h.2, h.1⟩
  refine ⟨s1, hu, ⟨hst, ?_⟩, ⟨hlog, ?_⟩, ⟨?_, ?_, ?_⟩, hturn, hover, ?_, ?_⟩
  · rw [hst, List.length_dropLast]
    omega
  · rw [hlog, List.length_dropLast]
    omega
  · rw [hb, setCell_same]
  · rw [hb, setCell_other _ _ _ _ _ _ h4, setCell_same]
  · intro y x h1 h2
    rw [hb, setCell_other _ _ _ _ _ _ h1, setCell_other _ _ _ _ _ _ h2]
  · intro prev hprev
    rw [hst] at hprev
    rw [hprev] at hlast
    simp only [Prod.mk.injEq] at hlast
    exact hlast
  · intro he
    rw [hst] at he
    rw [he] at hlast
    simp only [List.getLast?_nil, Prod.mk.injEq] at hlast
    exact hlast

theorem undoMove_postconditions_witness :
    ∃ s1, undoMove afterE4 = some s1 ∧
      (s1.moveStack = afterE4.moveStack.dropLast ∧
        s1.moveStack.length + 1 = afterE4.moveStack.length) ∧
      (s1.game.moveHistory = afterE4.game.moveHistory.dropLast ∧
        s1.game.moveHistory.length + 1 = afterE4.game.moveHistory.length) ∧
      (s1.game.board e4Record.ty e4Record.tx = e4Record.captured ∧
        s1.game.board e4Record.sy e4Record.sx = afterE4.game.board e4Record.ty e4Record.tx ∧
        ∀ y x : Int, ¬ (y = e4Record.ty ∧ x = e4Record.tx) →
          ¬ (y = e4Record.sy ∧ x = e4Record.sx) →
          s1.game.board y x = afterE4.game.board y x) ∧
      s1.game.whiteTurn = (!afterE4.game.whiteTurn) ∧
      s1.game.gameOver = false ∧
      (∀ prev : Move, s1.moveStack.getLast? = some prev →
        s1.game.lastMoveFromX = prev.sx ∧ s1.game.lastMoveFromY = prev.sy ∧
        s1.game.lastMoveToX = prev.tx ∧ s1.game.lastMoveToY = prev.ty) ∧
      (s1.moveStack = [] →
        s1.game.lastMoveFromX = -1 ∧ s1.game.lastMoveFromY = -1 ∧
        s1.game.lastMoveToX = -1 ∧ s1.game.lastMoveToY = -1) :=
  undoMove_postconditions afterE4 e4Record rfl (by decide) (by decide) (by decide) rfl

/-- The function `makeMove` returns only for squares of the board. -/
theorem makeMove_some_inside (s s1 : Session) (sx sy tx ty : Int)
    (h : makeMove s sx sy tx ty = some s1) :
    isInside sx sy = true ∧ isInside tx ty = true := by
  by_cases hin : (!isInside sx sy || !isInside tx ty) = true
  · unfold makeMove at h
    rw [if_pos hin] at h
    exact absurd h (by simp)
  · constructor
    · cases e : isInside sx sy <;> simp [e] at hin ⊢
    · cases e : isInside tx ty <;> simp [e] at hin ⊢

/-- The function `undoMove` either finds the stack empty and changes nothing, or pops a
record that names squares of the board. -/
theorem undoMove_some_cases (s s1 : Session) (h : undoMove s = some s1) :
    (s.moveStack = [] ∧ s1 = s) ∨
    (∃ m, s.moveStack.getLast? = some m ∧ isInside m.sx m.sy = true ∧
      isInside m.tx m.ty = true) := by
  cases htop : s.moveStack.getLast? with
  | none =>
    left
    unfold undoMove at h
    rw [htop] at h
    exact ⟨List.getLast?_eq_none_iff.mp htop, (Option.some.inj h).symm⟩
  | some m =>
    right
    refine ⟨m, rfl, ?_⟩
    by_cases hin : (!isInside m.sx m.sy || !isInside m.tx m.ty) = true
    · unfold undoMove at h
      rw [htop] at h
      simp only [] at h
      rw [if_pos hin] at h
      exact absurd h (by simp)
    · constructor
      · cases e : isInside m.sx m.sy <;> simp [e] at hin ⊢
      · cases e : isInside m.tx m.ty <;> simp [e] at hin ⊢

/-- The board after `makeMove`, square by square: the source is empty, the destination
holds the moved piece or the queen it was promoted to, the other squares are as they
were. -/
theorem makeMove_board_at (s : Session) (sx sy tx ty : Int)
    (hs : isInside sx sy = true) (ht : isInside tx ty = true) :
    ∃ s1, makeMove s sx sy tx ty = some s1 ∧
      ∀ y x : Int, s1.game.board y x =
        (if y = sy ∧ x = sx then '.'
         else if y = ty ∧ x = tx then promoted (s.game.board sy sx) ty
         else s.game.board y x) := by
  obtain ⟨s1, hmk, hb⟩ := makeMove_board s sx sy tx ty hs ht
  refine ⟨s1, hmk, fun y x => ?_⟩
  rw [hb]
  simp only []
  by_cases hsame : ty = sy ∧ tx = sx
  · obtain ⟨rfl, rfl⟩ := hsame
    have hdot : movedBoard s.game.board tx ty tx ty ty tx = '.' := by
      simp [movedBoard, setCell]
    have h1 : ¬ (movedBoard s.game.board tx ty tx ty ty tx = 'P' ∧ ty = 0) := by
      rw [hdot]; intro h; exact absurd h.1 (by decide)
    rw [if_neg h1]
    have h2 : ¬ (movedBoard s.game.board tx ty tx ty ty tx = 'p' ∧ ty = 7) := by
      rw [hdot]; intro h; exact absurd h.1 (by decide)
    rw [if_neg h2]
    by_cases e : y = ty ∧ x = tx
    · obtain ⟨rfl, rfl⟩ := e
      simp [hdot]
    · simp [movedBoard, setCell, e]
  · have hdest : movedBoard s.game.board sx sy tx ty ty tx = s.game.board sy sx := by
      simp [movedBoard, setCell, hsame]
    by_cases hP : s.game.board sy sx = 'P' ∧ ty = 0
    · have hq : ¬ (setCell (movedBoard s.game.board sx sy tx ty) ty tx 'Q' ty tx = 'p' ∧
          ty = 7) := by
        rw [setCell_same]; intro h; exact absurd h.1 (by decide)
      rw [hdest, if_pos hP, if_neg hq]
      by_cases e1 : y = sy ∧ x = sx
      · have e2 : ¬ (y = ty ∧ x = tx) := fun h => hsame ⟨h.1 ▸ e1.1, h.2 ▸ e1.2⟩
        simp [setCell, movedBoard, e1, e2]
        intro h3 h4
        exact absurd ⟨h3.symm, h4.symm⟩ hsame
      · by_cases e2 : y = ty ∧ x = tx
        · obtain ⟨rfl, rfl⟩ := e2
          rw [setCell_same, if_neg e1, if_pos ⟨rfl, rfl⟩, promoted, if_pos hP]
        · simp [setCell, movedBoard, e1, e2]
    · rw [hdest, if_neg hP, hdest]
      by_cases hp : s.game.board sy sx = 'p' ∧ ty = 7
      · rw [if_pos hp]
        by_cases e1 : y = sy ∧ x = sx
        · have e2 : ¬ (y = ty ∧ x = tx) := fun h => hsame ⟨h.1 ▸ e1.1, h.2 ▸ e1.2⟩
          simp [setCell, movedBoard, e1, e2]
          intro h3 h4
          exact absurd ⟨h3.symm, h4.symm⟩ hsame
        · by_cases e2 : y = ty ∧ x = tx
          · obtain ⟨rfl, rfl⟩ := e2
            rw [setCell_same, if_neg e1, if_pos ⟨rfl, rfl⟩, promoted, if_neg hP, if_pos hp]
          · simp [setCell, movedBoard, e1, e2]
      · rw [if_neg hp]
        by_cases e1 : y = sy ∧ x = sx
        · simp [setCell, movedBoard, e1]
        · by_cases e2 : y = ty ∧ x = tx
          · simp [setCell, movedBoard, e1, e2, promoted, hP, hp]
          · simp [setCell, movedBoard, e1, e2]

theorem promoted_white (p : Char) (ty : Int) :
    isWhitePiece (promoted p ty) = isWhitePiece p := by
  unfold promoted
  split_ifs with h1 h2
  · rw [h1.1]; rfl
  · rw [h2.1]; rfl
  · rfl

theorem promoted_of_plain (p : Char) (ty : Int)
    (h : ¬ (p = 'P' ∧ ty = 0) ∧ ¬ (p = 'p' ∧ ty = 7)) : promoted p ty = p := by
  unfold promoted
  rw [if_neg h.1, if_neg h.2]

/-- A call of `makeMove` followed by `undoMove`, whatever `whiteTurn` has become in
between: the stack, the log, the move count and both capture counts are what they were,
and so is the board except that the source square holds the queen when the move promoted
a pawn. -/
theorem makeMove_undoMove_fields (s : Session) (sx sy tx ty : Int) (w : Bool)
    (hs : isInside sx sy = true) (ht : isInside tx ty = true) :
    ∃ s1 s2, makeMove s sx sy tx ty = some s1 ∧
      undoMove { s1 with game := { s1.game with whiteTurn := w } } = some s2 ∧
      s2.moveStack = s.moveStack ∧
      s2.game.moveHistory = s.game.moveHistory ∧
      s2.game.moveCount = s.game.moveCount ∧
      s2.game.whiteTurn = (!w) ∧
      s2.game.whiteCaptures = s.game.whiteCaptures ∧
      s2.game.blackCaptures = s.game.blackCaptures ∧
      (∀ y x : Int, s2.game.board y x =
        (if (y = sy ∧ x = sx) ∧ ¬ (y = ty ∧ x = tx) then promoted (s.game.board sy sx) ty
         else s.game.board y x)) := by
  obtain ⟨s1, hmk, hb⟩ := makeMove_board_at s sx sy tx ty hs ht
  obtain ⟨s1', hmk', hwc, hbc, hlog, hst, hcnt, _, _⟩ := makeMove_fields s sx sy tx ty hs ht
  rw [hmk] at hmk'
  cases hmk'
  have htop : ({ s1 with game := { s1.game with whiteTurn := w } } : Session).moveStack.getLast?
      = some { sx := sx, sy := sy, tx := tx, ty := ty, captured := s.game.board ty tx,
               wasKingMove := decide (toupper (s.game.board sy sx) = 'K'),
               wasRookMove := decide (toupper (s.game.board sy sx) = 'R') } := by
    show s1.moveStack.getLast? = _
    rw [hst, List.getLast?_append]
    rfl
  obtain ⟨s2, hu, hst2, hlog2, hb2, hturn2, _, hcnt2, hwc2, hbc2, _⟩ :=
    undoMove_fields _ _ htop hs ht
  simp only [] at hst2 hlog2 hb2 hturn2 hcnt2 hwc2 hbc2
  have hsrc : setCell (setCell s1.game.board sy sx (s1.game.board ty tx)) ty tx
      (s.game.board ty tx) sy sx =
        (if sy = ty ∧ sx = tx then s.game.board sy sx else promoted (s.game.board sy sx) ty) := by
    by_cases e : sy = ty ∧ sx = tx
    · obtain ⟨rfl, rfl⟩ := e
      rw [setCell_same, if_pos ⟨rfl, rfl⟩]
    · have e' : ¬ (ty = sy ∧ tx = sx) := fun h => e ⟨h.1.symm, h.2.symm⟩
      rw [setCell_other _ _ _ _ _ _ e, setCell_same, if_neg e, hb ty tx, if_neg e',
        if_pos ⟨rfl, rfl⟩]
  have hwhite : isWhitePiece (setCell (setCell s1.game.board sy sx (s1.game.board ty tx)) ty tx
      (s.game.board ty tx) sy sx) = isWhitePiece (s.game.board sy sx) := by
    rw [hsrc]
    split_ifs
    · rfl
    · exact promoted_white _ _
  refine ⟨s1, s2, hmk, hu, ?_, ?_, ?_, hturn2, ?_, ?_, ?_⟩
  · rw [hst2, hst, List.dropLast_concat]
  · rw [hlog2, hlog, List.dropLast_concat]
  · rw [hcnt2, hcnt]; omega
  · rw [hwc2, hwhite, hwc]
    split_ifs <;> omega
  · rw [hbc2, hwhite, hbc]
    split_ifs <;> omega
  · intro y x
    rw [hb2]
    by_cases e2 : y = ty ∧ x = tx
    · obtain ⟨rfl, rfl⟩ := e2
      rw [setCell_same]
      simp
    · rw [setCell_other _ _ _ _ _ _ e2]
      by_cases e1 : y = sy ∧ x = sx
      · obtain ⟨rfl, rfl⟩ := e1
        have e' : ¬ (ty = y ∧ tx = x) := fun h => e2 ⟨h.1.symm, h.2.symm⟩
        rw [setCell_same, hb ty tx, if_neg e', if_pos ⟨rfl, rfl⟩]
        simp [e2]
      · rw [setCell_other _ _ _ _ _ _ e1, hb y x, if_neg e1, if_neg e2]
        simp [e1]

/-- C23 (round trip for non-promoting moves): for every session and every move on squares
of the board that does not bring a `'P'` to row 0 or a `'p'` to row 7, `makeMove`, the
turn flip and `undoMove` all return, and after them the board, the side to move, the undo
stack, the move log, the move count and both capture counts are what they were before
the move. -/
theorem makeMove_undoMove_round_trip (s : Session) (sx sy tx ty : Int)
    (hs : isInside sx sy = true) (ht : isInside tx ty = true)
    (hplain : ¬ (s.game.board sy sx = 'P' ∧ ty = 0) ∧ ¬ (s.game.board sy sx = 'p' ∧ ty = 7)) :
    ∃ s1 s2, moveAndFlip s sx sy tx ty = some s1 ∧ undoMove s1 = some s2 ∧
      s2.game.board = s.game.board ∧
      s2.game.whiteTurn = s.game.whiteTurn ∧
      s2.moveStack = s.moveStack ∧
      s2.game.moveHistory = s.game.moveHistory ∧
      s2.game.moveCount = s.game.moveCount ∧
      s2.game.whiteCaptures = s.game.whiteCaptures ∧
      s2.game.blackCaptures = s.game.blackCaptures := by
  obtain ⟨s1, hmk, _, _, _, _, _, hturn, _⟩ := makeMove_fields s sx sy tx ty hs ht
  obtain ⟨s1', s2, hmk', hu, hst, hlog, hcnt, hturn2, hwc, hbc, hb⟩ :=
    makeMove_undoMove_fields s sx sy tx ty (!s1.game.whiteTurn) hs ht
  rw [hmk] at hmk'
  cases hmk'
  refine ⟨_, s2, by rw [moveAndFlip, hmk]; rfl, hu, ?_, ?_, hst, hlog, hcnt, hwc, hbc⟩
  · funext y x
    rw [hb y x, promoted_of_plain _ _ hplain]
    split_ifs with h
    · rw [h.1.1, h.1.2]
    · rfl
  · rw [hturn2, hturn]
    simp

theorem makeMove_undoMove_round_trip_witness :
    ∃ s1 s2, moveAndFlip (sessionOf captureBoard) 0 7 0 1 = some s1 ∧ undoMove s1 = some s2 ∧
      s2.game.board = (sessionOf captureBoard).game.board ∧
      s2.game.whiteTurn = (sessionOf captureBoard).game.whiteTurn ∧
      s2.moveStack = (sessionOf captureBoard).moveStack ∧
      s2.game.moveHistory = (sessionOf captureBoard).game.moveHistory ∧
      s2.game.moveCount = (sessionOf captureBoard).game.moveCount ∧
      s2.game.whiteCaptures = (sessionOf captureBoard).game.whiteCaptures ∧
      s2.game.blackCaptures = (sessionOf captureBoard).game.blackCaptures :=
  makeMove_undoMove_round_trip (sessionOf captureBoard) 0 7 0 1 (by decide) (by decide)
    (by decide)

/-- A property of the session that `makeMove` and `undoMove` keep holds after every
sequence of their calls. -/
theorem rawPlay_inv (P : Session → Prop)
    (hmove : ∀ s s1 sx sy tx ty, P s → makeMove s sx sy tx ty = some s1 → P s1)
    (hundo : ∀ s s1, P s → undoMove s = some s1 → P s1) (acts : List Action) :
    ∀ s s1 : Session, P s → rawPlay s acts = some s1 → P s1 := by
  induction acts with
  | nil =>
    intro s s1 h hp
    simp only [rawPlay, Option.some.injEq] at hp
    exact hp ▸ h
  | cons a rest ih =>
    intro s s1 h hp
    simp only [rawPlay] at hp
    cases hstep : rawStep s a with
    | none => rw [hstep] at hp; exact absurd hp (by simp)
    | some s2 =>
      rw [hstep] at hp
      refine ih s2 s1 ?_ hp
      cases a with
      | undo => exact hundo s s2 h hstep
      | move sx sy tx ty => exact hmove s s2 sx sy tx ty h hstep

/-- The function `makeMove` adds one to the move count and keeps it equal to the length
of the stack. -/
theorem makeMove_moveCount (s s1 : Session) (sx sy tx ty : Int)
    (h : (s.moveStack.length : Int) = s.game.moveCount)
    (hm : makeMove s sx sy tx ty = some s1) :
    (s1.moveStack.length : Int) = s1.game.moveCount := by
  obtain ⟨hs, ht⟩ := makeMove_some_inside s s1 sx sy tx ty hm
  obtain ⟨s2, h2, _, _, _, hst, hcnt, _⟩ := makeMove_fields s sx sy tx ty hs ht
  rw [hm] at h2
  cases h2
  rw [hst, hcnt, List.length_append, ← h]
  simp

/-- The function `undoMove` keeps the move count equal to the length of the stack. -/
theorem undoMove_moveCount (s s1 : Session)
    (h : (s.moveStack.length : Int) = s.game.moveCount)
    (hu : undoMove s = some s1) :
    (s1.moveStack.length : Int) = s1.game.moveCount := by
  rcases undoMove_some_cases s s1 hu with ⟨_, rfl⟩ | ⟨m, htop, hs, ht⟩
  · exact h
  · obtain ⟨s2, h2, hst, _, _, _, _, hcnt, _⟩ := undoMove_fields s m htop hs ht
    rw [hu] at h2
    cases h2
    have hne : s.moveStack ≠ [] := by
      intro e
      rw [e] at htop
      exact absurd htop (by simp)
    have hpos := List.length_pos.mpr hne
    rw [hst, hcnt, List.length_dropLast, ← h]
    omega

/-- C24 (history consistency): in every session reached from a call of `initBoard` by
calls of `makeMove` and `undoMove`, the undo stack and the move log hold equally many
entries, `moveCount` is that number, and `moveCount` is not negative. -/
theorem history_lengths_agree (s0 : Session) (acts : List Action) (s : Session)
    (h : rawPlay (initBoard s0) acts = some s) :
    s.moveStack.length = s.game.moveHistory.length ∧
    (s.moveStack.length : Int) = s.game.moveCount ∧
    (s.game.moveHistory.length : Int) = s.game.moveCount ∧
    0 ≤ s.game.moveCount := by
  have hinv := rawPlay_inv
    (fun s => LogMatchesStack s ∧ (s.moveStack.length : Int) = s.game.moveCount)
    (fun s s1 sx sy tx ty hP hm =>
      ⟨makeMove_logMatchesStack s s1 sx sy tx ty hP.1 hm,
        makeMove_moveCount s s1 sx sy tx ty hP.2 hm⟩)
    (fun s s1 hP hu =>
      ⟨undoMove_logMatchesStack s s1 hP.1 hu, undoMove_moveCount s s1 hP.2 hu⟩)
    acts (initBoard s0) s ⟨initBoard_logMatchesStack s0, rfl⟩ h
  obtain ⟨h1, h2⟩ := hinv
  unfold LogMatchesStack at h1
  refine ⟨h1.symm, h2, ?_, ?_⟩
  · rw [h1]; exact h2
  · rw [← h2]; exact Int.natCast_nonneg _

theorem history_lengths_agree_witness :
    rawPlay (initBoard startup) sampleCalls = some sampleSession ∧
    sampleSession.moveStack.length = sampleSession.game.moveHistory.length ∧
    (sampleSession.moveStack.length : Int) = sampleSession.game.moveCount ∧
    (sampleSession.game.moveHistory.length : Int) = sampleSession.game.moveCount ∧
    0 ≤ sampleSession.game.moveCount :=
  ⟨rfl, history_lengths_agree startup sampleCalls sampleSession rfl⟩

theorem undoBoard_at (b : Board) (m : Move) (y x : Int) :
    undoBoard b m y x =
      (if y = m.ty ∧ x = m.tx then m.captured
       else if y = m.sy ∧ x = m.sx then b m.ty m.tx else b y x) := by
  simp only [undoBoard, setCell]

/-- Which capture count the undos of a stack decrement depends on the board only through
the squares that hold a White piece. -/
theorem pendingCaptures_congr (w : Bool) (l : List Move) :
    ∀ b1 b2 : Board, (∀ y x, isWhitePiece (b1 y x) = isWhitePiece (b2 y x)) →
      pendingCaptures w l b1 = pendingCaptures w l b2 := by
  induction l with
  | nil => intro _ _ _; rfl
  | cons m rest ih =>
    intro b1 b2 h
    have hu : ∀ y x, isWhitePiece (undoBoard b1 m y x) = isWhitePiece (undoBoard b2 m y x) := by
      intro y x
      rw [undoBoard_at, undoBoard_at]
      split_ifs
      · rfl
      · exact h _ _
      · exact h _ _
    simp only [pendingCaptures, hu m.sy m.sx, ih _ _ hu]

/-- Every record with a captured piece is undone against exactly one of the two
counts. -/
theorem pendingCaptures_sum (l : List Move) :
    ∀ b : Board, pendingCaptures true l b + pendingCaptures false l b =
      (l.filter (fun m => decide (m.captured ≠ '.'))).length := by
  induction l with
  | nil => intro _; rfl
  | cons m rest ih =>
    intro b
    have := ih (undoBoard b m)
    rw [pendingCaptures, pendingCaptures, List.filter_cons]
    by_cases hc : m.captured = '.'
    · have hd : decide (m.captured ≠ '.') = false := by simp [hc]
      have h1 : ¬ (m.captured ≠ '.' ∧ isWhitePiece (undoBoard b m m.sy m.sx) = true) :=
        fun h => h.1 hc
      have h2 : ¬ (m.captured ≠ '.' ∧ isWhitePiece (undoBoard b m m.sy m.sx) = false) :=
        fun h => h.1 hc
      rw [hd, if_neg h1, if_neg h2, if_neg (by decide)]
      omega
    · have hd : decide (m.captured ≠ '.') = true := by simp [hc]
      rw [hd, if_pos rfl, List.length_cons]
      cases hw : isWhitePiece (undoBoard b m m.sy m.sx)
      · rw [if_neg (by simp), if_pos ⟨hc, rfl⟩]
        omega
      · rw [if_pos ⟨hc, rfl⟩, if_neg (by simp)]
        omega

/-- The board that the undo of the record just pushed by `makeMove` gives back holds a
White piece exactly where the board before the move did. -/
theorem undoBoard_makeMove_white (s s1 : Session) (sx sy tx ty : Int)
    (hm : makeMove s sx sy tx ty = some s1) (wk wr : Bool) :
    ∀ y x : Int,
      isWhitePiece (undoBoard s1.game.board
        { sx := sx, sy := sy, tx := tx, ty := ty, captured := s.game.board ty tx,
          wasKingMove := wk, wasRookMove := wr } y x) = isWhitePiece (s.game.board y x) := by
  obtain ⟨hs, ht⟩ := makeMove_some_inside s s1 sx sy tx ty hm
  obtain ⟨s2, h2, hb⟩ := makeMove_board_at s sx sy tx ty hs ht
  rw [hm] at h2
  cases h2
  intro y x
  rw [undoBoard_at]
  simp only []
  by_cases e2 : y = ty ∧ x = tx
  · obtain ⟨rfl, rfl⟩ := e2
    rw [if_pos ⟨rfl, rfl⟩]
  · rw [if_neg e2]
    by_cases e1 : y = sy ∧ x = sx
    · obtain ⟨rfl, rfl⟩ := e1
      have e' : ¬ (ty = y ∧ tx = x) := fun h => e2 ⟨h.1.symm, h.2.symm⟩
      rw [if_pos ⟨rfl, rfl⟩, hb ty tx, if_neg e', if_pos ⟨rfl, rfl⟩]
      exact promoted_white _ _
    · rw [if_neg e1, hb y x, if_neg e1, if_neg e2]

/-- The function `makeMove` keeps each capture count equal to the number of captures
that the undos of the stack will take from it. -/
theorem makeMove_pendingCaptures (s s1 : Session) (sx sy tx ty : Int)
    (h : s.game.whiteCaptures = pendingCaptures true s.moveStack.reverse s.game.board ∧
      s.game.blackCaptures = pendingCaptures false s.moveStack.reverse s.game.board)
    (hm : makeMove s sx sy tx ty = some s1) :
    s1.game.whiteCaptures = pendingCaptures true s1.moveStack.reverse s1.game.board ∧
      s1.game.blackCaptures = pendingCaptures false s1.moveStack.reverse s1.game.board := by
  obtain ⟨hs, ht⟩ := makeMove_some_inside s s1 sx sy tx ty hm
  obtain ⟨s2, h2, hwc, hbc, _, hst, _⟩ := makeMove_fields s sx sy tx ty hs ht
  rw [hm] at h2
  cases h2
  have hw := undoBoard_makeMove_white s s1 sx sy tx ty hm
    (decide (toupper (s.game.board sy sx) = 'K')) (decide (toupper (s.game.board sy sx) = 'R'))
  have hrest : ∀ w, pendingCaptures w s.moveStack.reverse (undoBoard s1.game.board
      { sx := sx, sy := sy, tx := tx, ty := ty, captured := s.game.board ty tx,
        wasKingMove := decide (toupper (s.game.board sy sx) = 'K'),
        wasRookMove := decide (toupper (s.game.board sy sx) = 'R') })
      = pendingCaptures w s.moveStack.reverse s.game.board :=
    fun w => pendingCaptures_congr w _ _ _ hw
  rw [hst, List.reverse_append, List.reverse_singleton, List.singleton_append]
  simp only [pendingCaptures, hrest, hw sy sx]
  rw [hwc, hbc, h.1, h.2]
  constructor
  · cases hwp : isWhitePiece (s.game.board sy sx) <;>
      by_cases hc : s.game.board ty tx = '.' <;> simp [hwp, hc, add_comm]
  · cases hwp : isWhitePiece (s.game.board sy sx) <;>
      by_cases hc : s.game.board ty tx = '.' <;> simp [hwp, hc, add_comm]

/-- The function `undoMove` keeps each capture count equal to the number of captures
that the undos of the stack will take from it. -/
theorem undoMove_pendingCaptures (s s1 : Session)
    (h : s.game.whiteCaptures = pendingCaptures true s.moveStack.reverse s.game.board ∧
      s.game.blackCaptures = pendingCaptures false s.moveStack.reverse s.game.board)
    (hu : undoMove s = some s1) :
    s1.game.whiteCaptures = pendingCaptures true s1.moveStack.reverse s1.game.board ∧
      s1.game.blackCaptures = pendingCaptures false s1.moveStack.reverse s1.game.board := by
  rcases undoMove_some_cases s s1 hu with ⟨_, rfl⟩ | ⟨m, htop, hs, ht⟩
  · exact h
  · obtain ⟨s2, h2, hst, _, hb, _, _, _, hwc, hbc, _⟩ := undoMove_fields s m htop hs ht
    rw [hu] at h2
    cases h2
    have hstack : s.moveStack = s.moveStack.dropLast ++ [m] := by
      have hne : s.moveStack ≠ [] := by
        intro e
        rw [e] at htop
        exact absurd htop (by simp)
      have hl := List.dropLast_append_getLast hne
      rw [List.getLast?_eq_getLast _ hne] at htop
      rw [Option.some.inj htop] at hl
      exact hl.symm
    have hrev : s.moveStack.reverse = m :: s.moveStack.dropLast.reverse := by
      conv_lhs => rw [hstack]
      rw [List.reverse_append, List.reverse_singleton, List.singleton_append]
    have hb' : s1.game.board = undoBoard s.game.board m := hb
    rw [hrev] at h
    simp only [pendingCaptures] at h
    rw [hst, hb', hwc, hbc]
    change (if m.captured ≠ '.' ∧ isWhitePiece (undoBoard s.game.board m m.sy m.sx) = true
        then s.game.whiteCaptures - 1 else s.game.whiteCaptures) = _ ∧
      (if m.captured ≠ '.' ∧ ¬ isWhitePiece (undoBoard s.game.board m m.sy m.sx) = true
        then s.game.blackCaptures - 1 else s.game.blackCaptures) = _
    rw [h.1, h.2]
    cases hwp : isWhitePiece (undoBoard s.game.board m m.sy m.sx) <;>
      by_cases hc : m.captured = '.' <;> simp [hwp, hc]

/-- C25 (capture counts): in every session reached from a call of `initBoard` by calls of
`makeMove` and `undoMove`, neither capture count is negative; their sum is the number of
records on the undo stack with a captured piece; each count is the number of stacked
records whose undo will decrement it; and a call of `makeMove` followed by `undoMove`
gives back both counts, so that the undo decrements the count that the move
incremented. -/
theorem capture_counts_match_stack (s0 : Session) (acts : List Action) (s : Session)
    (h : rawPlay (initBoard s0) acts = some s) :
    (0 ≤ s.game.whiteCaptures ∧ 0 ≤ s.game.blackCaptures) ∧
    s.game.whiteCaptures + s.game.blackCaptures =
      ((s.moveStack.filter (fun m => decide (m.captured ≠ '.'))).length : Int) ∧
    (s.game.whiteCaptures = pendingCaptures true s.moveStack.reverse s.game.board ∧
      s.game.blackCaptures = pendingCaptures false s.moveStack.reverse s.game.board) ∧
    (∀ sx sy tx ty : Int, isInside sx sy = true → isInside tx ty = true →
      ∃ s1 s2, makeMove s sx sy tx ty = some s1 ∧ undoMove s1 = some s2 ∧
        s2.game.whiteCaptures = s.game.whiteCaptures ∧
        s2.game.blackCaptures = s.game.blackCaptures) := by
  have hinv := rawPlay_inv
    (fun s => s.game.whiteCaptures = pendingCaptures true s.moveStack.reverse s.game.board ∧
      s.game.blackCaptures = pendingCaptures false s.moveStack.reverse s.game.board)
    (fun s s1 sx sy tx ty hP hm => makeMove_pendingCaptures s s1 sx sy tx ty hP hm)
    (fun s s1 hP hu => undoMove_pendingCaptures s s1 hP hu)
    acts (initBoard s0) s ⟨rfl, rfl⟩ h
  have hsum := pendingCaptures_sum s.moveStack.reverse s.game.board
  rw [List.filter_reverse, List.length_reverse] at hsum
  refine ⟨⟨?_, ?_⟩, ?_, hinv, ?_⟩
  · rw [hinv.1]; exact Int.natCast_nonneg _
  · rw [hinv.2]; exact Int.natCast_nonneg _
  · rw [hinv.1, hinv.2, ← hsum]
    push_cast
    rfl
  · intro sx sy tx ty hs ht
    obtain ⟨s1, hmk, _, _, _, _, _, hturn, _⟩ := makeMove_fields s sx sy tx ty hs ht
    obtain ⟨s1', s2, hmk', hu, _, _, _, _, hwc, hbc, _⟩ :=
      makeMove_undoMove_fields s sx sy tx ty s1.game.whiteTurn hs ht
    rw [hmk] at hmk'
    cases hmk'
    exact ⟨s1, s2, hmk, hu, hwc, hbc⟩

theorem capture_counts_match_stack_witness :
    rawPlay (initBoard startup) sampleCalls = some sampleSession ∧
    ((0 ≤ sampleSession.game.whiteCaptures ∧ 0 ≤ sampleSession.game.blackCaptures) ∧
    sampleSession.game.whiteCaptures + sampleSession.game.blackCaptures =
      ((sampleSession.moveStack.filter (fun m => decide (m.captured ≠ '.'))).length : Int) ∧
    (sampleSession.game.whiteCaptures =
        pendingCaptures true sampleSession.moveStack.reverse sampleSession.game.board ∧
      sampleSession.game.blackCaptures =
        pendingCaptures false sampleSession.moveStack.reverse sampleSession.game.board) ∧
    (∀ sx sy tx ty : Int, isInside sx sy = true → isInside tx ty = true →
      ∃ s1 s2, makeMove sampleSession sx sy tx ty = some s1 ∧ undoMove s1 = some s2 ∧
        s2.game.whiteCaptures = sampleSession.game.whiteCaptures ∧
        s2.game.blackCaptures = sampleSession.game.blackCaptures)) :=
  ⟨rfl, capture_counts_match_stack startup sampleCalls sampleSession rfl⟩

/-- A square from which the loop body of `isSquareAttacked` returns true makes
`isSquareAttacked` return true. -/
theorem isSquareAttacked_of_attackFrom (b : Board) (x y : Int) (byWhite : Bool) (sx sy : Int)
    (hs : isInside sx sy = true) (ht : isInside x y = true)
    (h : attackFrom b x y byWhite sy sx = some (some true)) :
    isSquareAttacked b x y byWhite = some true := by
  have hsI := (isInside_iff sx sy).mp hs
  have hsx : sx ∈ idx8 := (mem_idx8 sx).mpr ⟨hsI.1, hsI.2.1⟩
  have hsy : sy ∈ idx8 := (mem_idx8 sy).mpr ⟨hsI.2.2.1, hsI.2.2.2⟩
  have hrow : ∀ y1, y1 ∈ idx8 →
      (forLoop (fun x1 => attackFrom b x y byWhite y1 x1) idx8 = some none ∧
        ∀ x1, x1 ∈ idx8 → attackFrom b x y byWhite y1 x1 = some none) ∨
      (forLoop (fun x1 => attackFrom b x y byWhite y1 x1) idx8 = some (some true) ∧
        ∃ x1, x1 ∈ idx8 ∧ attackFrom b x y byWhite y1 x1 = some (some true)) :=
    fun y1 hy1 => forLoop_true_cases _ idx8
      (fun x1 hx1 => attackFrom_values b x y byWhite y1 x1 (isInside_of_mem hx1 hy1) ht)
  have hall := forLoop_true_cases
    (fun y1 => forLoop (fun x1 => attackFrom b x y byWhite y1 x1) idx8) idx8
    (fun y1 hy1 => by
      rcases hrow y1 hy1 with ⟨h1, _⟩ | ⟨h1, _⟩
      · left; exact h1
      · right; exact h1)
  rcases hall with ⟨_, h2⟩ | ⟨h1, _⟩
  · rcases hrow sy hsy with ⟨_, h3⟩ | ⟨h3, _⟩
    · exact absurd ((h3 sx hsx).symm.trans h) (by decide)
    · exact absurd (h3.symm.trans (h2 sy hsy)) (by decide)
  · exact congrArg (Option.map (fun r : Option Bool => r.getD false)) h1

/-- On a board whose only king of the colour stands on `(kx, ky)`, `isInCheck` asks
`isSquareAttacked` about that square. -/
theorem isInCheck_at_king (b : Board) (white : Bool) (kx ky : Int)
    (hk : isInside kx ky = true) (hking : b ky kx = kingChar white)
    (huniq : ∀ x y : Int, isInside x y = true → b y x = kingChar white → x = kx ∧ y = ky) :
    isInCheck b white = isSquareAttacked b kx ky (!white) := by
  obtain ⟨a, ha⟩ := isSquareAttacked_total b kx ky (!white) hk
  have hkI := (isInside_iff kx ky).mp hk
  have hkx : kx ∈ idx8 := (mem_idx8 kx).mpr ⟨hkI.1, hkI.2.1⟩
  have hky : ky ∈ idx8 := (mem_idx8 ky).mpr ⟨hkI.2.2.1, hkI.2.2.2⟩
  have hother : ∀ y x, y ∈ idx8 → x ∈ idx8 → ¬ (x = kx ∧ y = ky) →
      (if ((white && decide (b y x = 'K')) || (!white && decide (b y x = 'k'))) = true then
        (isSquareAttacked b x y (!white)).map some
      else some none) = some none := by
    intro y x hy hx hne
    rw [if_neg]
    rw [king_test_iff]
    exact fun e => hne (huniq x y (isInside_of_mem hx hy) e)
  have hthis : (if ((white && decide (b ky kx = 'K')) || (!white && decide (b ky kx = 'k'))) = true
      then (isSquareAttacked b kx ky (!white)).map some else some none) = some (some a) := by
    rw [if_pos ((king_test_iff white _).mpr hking), ha]
    rfl
  have hloops : forLoop (fun y => forLoop (fun x =>
      if ((white && decide (b y x = 'K')) || (!white && decide (b y x = 'k'))) = true then
        (isSquareAttacked b x y (!white)).map some
      else some none) idx8) idx8 = some (some a) :=
    forLoop_single _ idx8 ky (some a) hky
      (fun y hy hne => forLoop_all_none _ idx8
        (fun x hx => hother y x hy hx (fun h => hne h.2)))
      (forLoop_single _ idx8 kx (some a) hkx
        (fun x hx hne => hother ky x hky hx (fun h => hne h.1)) hthis)
  rw [ha]
  exact congrArg (Option.map (fun r : Option Bool => r.getD false)) hloops

/-- A move onto an occupied square that the `switch` of `isLegalMove` lets through, made
by one of the six pieces of a colour, makes the loop body of `isSquareAttacked` return
true for the mover's square and the destination. -/
theorem attackFrom_of_movePattern (b : Board) (c : Bool) (sx sy tx ty : Int)
    (hp : b sy sx ∈ (if c then whitePieces else blackPieces))
    (hq : b ty tx ≠ '.')
    (hm : movePattern b (b sy sx) sx sy tx ty = some true) :
    attackFrom b tx ty c sy sx = some (some true) := by
  cases c
  · simp only [Bool.false_eq_true, if_false, blackPieces, List.mem_cons, List.mem_singleton,
      List.not_mem_nil, or_false] at hp
    rcases hp with hp | hp | hp | hp | hp | hp <;>
      · rw [hp] at hm
        unfold movePattern at hm
        unfold attackFrom
        simp only [hp]
        simp [toupper, isWhitePiece, isBlackPiece, retTrueIf_eq_true_iff, hq] at hm ⊢
        first
          | exact hm
          | omega
  · simp only [if_true, whitePieces, List.mem_cons, List.mem_singleton,
      List.not_mem_nil, or_false] at hp
    rcases hp with hp | hp | hp | hp | hp | hp <;>
      · rw [hp] at hm
        unfold movePattern at hm
        unfold attackFrom
        simp only [hp]
        simp [toupper, isWhitePiece, isBlackPiece, retTrueIf_eq_true_iff, hq] at hm ⊢
        first
          | exact hm
          | omega

/-- C22 (no legal king capture from a safe position): let the only king of the colour
opposite to `c` stand on `(kx, ky)` and not be in check. Then `isLegalMove` is false for
every move of a piece of colour `c` onto that square. The reason holds on every board:
whenever the `switch` of `isLegalMove` lets a piece of colour `c` through onto an
occupied square, `isSquareAttacked` reports that square as attacked by `c`. -/
theorem no_legal_capture_of_safe_king (b : Board) (c : Bool) (kx ky : Int)
    (hk : isInside kx ky = true) (hking : b ky kx = kingChar (!c))
    (huniq : ∀ x y : Int, isInside x y = true → b y x = kingChar (!c) → x = kx ∧ y = ky)
    (hsafe : isInCheck b (!c) = some false) :
    (∀ sx sy : Int, isInside sx sy = true →
      b sy sx ∈ (if c then whitePieces else blackPieces) →
      isLegalMove b sx sy kx ky = some (false, b)) ∧
    (∀ sx sy tx ty : Int, isInside sx sy = true → isInside tx ty = true →
      b sy sx ∈ (if c then whitePieces else blackPieces) → b ty tx ≠ '.' →
      movePattern b (b sy sx) sx sy tx ty = some true →
      isSquareAttacked b tx ty c = some true) := by
  have hattack : ∀ sx sy tx ty : Int, isInside sx sy = true → isInside tx ty = true →
      b sy sx ∈ (if c then whitePieces else blackPieces) → b ty tx ≠ '.' →
      movePattern b (b sy sx) sx sy tx ty = some true →
      isSquareAttacked b tx ty c = some true :=
    fun sx sy tx ty hs ht hp hq hm =>
      isSquareAttacked_of_attackFrom b tx ty c sx sy hs ht
        (attackFrom_of_movePattern b c sx sy tx ty hp hq hm)
  refine ⟨fun sx sy hs hp => ?_, hattack⟩
  obtain ⟨r, hr⟩ := isLegalMove_total b sx sy kx ky
  cases r with
  | false => exact hr
  | true =>
    exfalso
    have hlegal : (isLegalMove b sx sy kx ky).map Prod.fst = some true := by rw [hr]; rfl
    obtain ⟨_, _, _, _, _, hm, _⟩ := (isLegalMove_true_iff b sx sy kx ky).mp hlegal
    have hq : b ky kx ≠ '.' := by
      rw [hking]
      cases c <;> decide
    have hatt := hattack sx sy kx ky hs hk hp hq hm
    have hcheck := isInCheck_at_king b (!c) kx ky hk hking huniq
    rw [Bool.not_not, hatt, hsafe] at hcheck
    exact absurd hcheck (by decide)

theorem no_legal_capture_of_safe_king_witness :
    (∀ sx sy : Int, isInside sx sy = true →
      (initBoard startup).game.board sy sx ∈ (if true then whitePieces else blackPieces) →
      isLegalMove (initBoard startup).game.board sx sy 4 0
        = some (false, (initBoard startup).game.board)) ∧
    (∀ sx sy tx ty : Int, isInside sx sy = true → isInside tx ty = true →
      (initBoard startup).game.board sy sx ∈ (if true then whitePieces else blackPieces) →
      (initBoard startup).game.board ty tx ≠ '.' →
      movePattern (initBoard startup).game.board ((initBoard startup).game.board sy sx)
        sx sy tx ty = some true →
      isSquareAttacked (initBoard startup).game.board tx ty true = some true) := by
  have huniq : ∀ x ∈ idx8, ∀ y ∈ idx8,
      (initBoard startup).game.board y x = kingChar (!true) → x = 4 ∧ y = 0 := by decide!
  have hsafe : isInCheck (initBoard startup).game.board (!true) = some false := by decide!
  refine no_legal_capture_of_safe_king (initBoard startup).game.board true 4 0
    (by decide) (by decide!) ?_ hsafe
  intro x y hxy hk
  have hI := (isInside_iff x y).mp hxy
  exact huniq x ((mem_idx8 x).mpr ⟨hI.1, hI.2.1⟩) y ((mem_idx8 y).mpr ⟨hI.2.2.1, hI.2.2.2⟩) hk

/-- The engine with `clearPath` itself for the callee is the engine. -/
theorem attackFromWith_clearPath : attackFromWith clearPath = attackFrom := rfl

theorem isSquareAttackedWith_clearPath : isSquareAttackedWith clearPath = isSquareAttacked := rfl

theorem isInCheckWith_clearPath : isInCheckWith clearPath = isInCheck := rfl

theorem movePatternWith_clearPath : movePatternWith clearPath = movePattern := rfl

theorem isLegalMoveWith_clearPath : isLegalMoveWith clearPath = isLegalMove := rfl

/-- A guarded call whose guard implies the assertion of `clearPathAsserted` never breaks
it. -/
theorem guardCall_asserted (b : Board) (c : Bool) (sx sy tx ty : Int)
    (hs : isInside sx sy = true) (ht : isInside tx ty = true)
    (hc : c = true → Aligned sx sy tx ty) :
    guardCall c (clearPathAsserted b sx sy tx ty) = guardCall c (clearPath b sx sy tx ty) := by
  cases c with
  | false => rfl
  | true =>
    unfold clearPathAsserted
    rw [if_pos ⟨hs, ht, hc rfl⟩]

/-- No call of `clearPath` in the loop body of `isSquareAttacked` breaks the
assertion. -/
theorem attackFromWith_asserted (b : Board) (x y : Int) (byWhite : Bool) (sy sx : Int)
    (hs : isInside sx sy = true) (ht : isInside x y = true) :
    attackFromWith clearPathAsserted b x y byWhite sy sx = attackFrom b x y byWhite sy sx := by
  show attackFromWith clearPathAsserted b x y byWhite sy sx
    = attackFromWith clearPath b x y byWhite sy sx
  unfold attackFromWith
  simp only [guardCall_asserted b _ sx sy x y hs ht (aligned_of_diag sx sy x y),
    guardCall_asserted b _ sx sy x y hs ht (aligned_of_line sx sy x y),
    guardCall_asserted b _ sx sy x y hs ht (aligned_of_queen sx sy x y)]

theorem isSquareAttackedWith_asserted (b : Board) (x y : Int) (byWhite : Bool)
    (h : isInside x y = true) :
    isSquareAttackedWith clearPathAsserted b x y byWhite = isSquareAttacked b x y byWhite := by
  unfold isSquareAttackedWith isSquareAttacked
  rw [forLoop_congr _ (fun sy => forLoop (fun sx => attackFrom b x y byWhite sy sx) idx8) idx8
    (fun sy hsy => forLoop_congr _ _ idx8
      (fun sx hsx => attackFromWith_asserted b x y byWhite sy sx (isInside_of_mem hsx hsy) h))]

theorem isInCheckWith_asserted (b : Board) (white : Bool) :
    isInCheckWith clearPathAsserted b white = isInCheck b white := by
  unfold isInCheckWith isInCheck
  rw [forLoop_congr _ (fun y => forLoop (fun x =>
      let p := b y x
      if (white && decide (p = 'K')) || (!white && decide (p = 'k')) then
        (isSquareAttacked b x y (!white)).map some
      else some none) idx8) idx8
    (fun y hy => forLoop_congr _ _ idx8
      (fun x hx => by
        simp only [isSquareAttackedWith_asserted b x y (!white) (isInside_of_mem hx hy)]))]

/-- No call of `clearPath` in the `switch` of `isLegalMove` breaks the assertion. -/
theorem movePatternWith_asserted (b : Board) (p : Char) (sx sy tx ty : Int)
    (hs : isInside sx sy = true) (ht : isInside tx ty = true) :
    movePatternWith clearPathAsserted b p sx sy tx ty = movePattern b p sx sy tx ty := by
  show movePatternWith clearPathAsserted b p sx sy tx ty
    = movePatternWith clearPath b p sx sy tx ty
  unfold movePatternWith
  simp only [guardCall_asserted b _ sx sy tx ty hs ht (aligned_of_diag sx sy tx ty),
    guardCall_asserted b _ sx sy tx ty hs ht (aligned_of_line sx sy tx ty),
    guardCall_asserted b _ sx sy tx ty hs ht (aligned_of_queen sx sy tx ty)]

theorem isLegalMoveWith_asserted (b : Board) (sx sy tx ty : Int) :
    isLegalMoveWith clearPathAsserted b sx sy tx ty = isLegalMove b sx sy tx ty := by
  unfold isLegalMoveWith isLegalMove wouldBeInCheckWith wouldBeInCheck
  by_cases h : (!isInside sx sy || !isInside tx ty) = true
  · rw [if_pos h, if_pos h]
  · have hs : isInside sx sy = true := by
      cases e : isInside sx sy <;> simp [e] at h ⊢
    have ht : isInside tx ty = true := by
      cases e : isInside tx ty <;> simp [e] at h ⊢
    rw [if_neg h, if_neg h]
    simp only [movePatternWith_asserted b _ sx sy tx ty hs ht, isInCheckWith_asserted]

/-- Two distinct squares of the board on a common line are at most seven steps apart:
the loop of `clearPath` has at most six squares to visit before it reaches its target,
all of them on the board. -/
theorem aligned_steps (sx sy tx ty : Int)
    (hs : isInside sx sy = true) (ht : isInside tx ty = true) (hal : Aligned sx sy tx ty) :
    ∃ n : Nat, n ≤ 6 ∧ (sgn (tx - sx) ≠ 0 ∨ sgn (ty - sy) ≠ 0) ∧
      sx + sgn (tx - sx) + (n : Int) * sgn (tx - sx) = tx ∧
      sy + sgn (ty - sy) + (n : Int) * sgn (ty - sy) = ty ∧
      ∀ k : Nat, k < n →
        isInside (sx + sgn (tx - sx) + k * sgn (tx - sx))
          (sy + sgn (ty - sy) + k * sgn (ty - sy)) = true := by
  rw [isInside_iff] at hs ht
  obtain ⟨hne, hline⟩ := hal
  rw [abs_eq_iabs, abs_eq_iabs] at hline
  obtain ⟨n, hn⟩ : ∃ n : Nat, (n : Int) + 1 = max (iabs (tx - sx)) (iabs (ty - sy)) := by
    refine ⟨(max (iabs (tx - sx)) (iabs (ty - sy)) - 1).toNat, ?_⟩
    rcases sgn_cases (tx - sx) with ⟨_, h1, e1⟩ | ⟨_, h1, e1⟩ | ⟨_, h1, e1⟩ <;>
    rcases sgn_cases (ty - sy) with ⟨_, h2, e2⟩ | ⟨_, h2, e2⟩ | ⟨_, h2, e2⟩ <;>
    rw [e1, e2] <;> omega
  refine ⟨n, ?_, ?_, ?_, ?_, ?_⟩
  · rcases sgn_cases (tx - sx) with ⟨_, h1, e1⟩ | ⟨_, h1, e1⟩ | ⟨_, h1, e1⟩ <;>
    rcases sgn_cases (ty - sy) with ⟨_, h2, e2⟩ | ⟨_, h2, e2⟩ | ⟨_, h2, e2⟩ <;>
    rw [e1, e2] at hn <;> omega
  · rcases sgn_cases (tx - sx) with ⟨d1, h1, e1⟩ | ⟨d1, h1, e1⟩ | ⟨d1, h1, e1⟩ <;>
    rcases sgn_cases (ty - sy) with ⟨d2, h2, e2⟩ | ⟨d2, h2, e2⟩ | ⟨d2, h2, e2⟩ <;>
    rw [d1, d2] <;> omega
  · rcases sgn_cases (tx - sx) with ⟨d1, h1, e1⟩ | ⟨d1, h1, e1⟩ | ⟨d1, h1, e1⟩ <;>
    rcases sgn_cases (ty - sy) with ⟨d2, h2, e2⟩ | ⟨d2, h2, e2⟩ | ⟨d2, h2, e2⟩ <;>
    rw [e1, e2] at hn hline <;> rw [d1] <;> omega
  · rcases sgn_cases (tx - sx) with ⟨d1, h1, e1⟩ | ⟨d1, h1, e1⟩ | ⟨d1, h1, e1⟩ <;>
    rcases sgn_cases (ty - sy) with ⟨d2, h2, e2⟩ | ⟨d2, h2, e2⟩ | ⟨d2, h2, e2⟩ <;>
    rw [e1, e2] at hn hline <;> rw [d2] <;> omega
  · intro k hk
    rw [isInside_iff]
    rcases sgn_cases (tx - sx) with ⟨d1, h1, e1⟩ | ⟨d1, h1, e1⟩ | ⟨d1, h1, e1⟩ <;>
    rcases sgn_cases (ty - sy) with ⟨d2, h2, e2⟩ | ⟨d2, h2, e2⟩ | ⟨d2, h2, e2⟩ <;>
    rw [e1, e2] at hn hline <;> rw [d1, d2] <;> omega

/-- The loop of `clearPath`, started `n` steps before its target with all squares on the
way inside the board, makes at most `n` iterations, reads squares of the board only, and
returns what the loop without the record returns. -/
theorem clearPathTrace_spec (b : Board) (dx dy : Int) (hd : dx ≠ 0 ∨ dy ≠ 0) (n : Nat) :
    ∀ (fuel : Nat) (x y : Int), n < fuel →
      (∀ k : Nat, k < n → isInside (x + k * dx) (y + k * dy) = true) →
      ∃ r reads, clearPathTrace b dx dy (x + n * dx) (y + n * dy) fuel x y = some (r, reads) ∧
        clearPathLoop b dx dy (x + n * dx) (y + n * dy) fuel x y = some r ∧
        reads.length ≤ n ∧ ∀ q ∈ reads, isInside q.1 q.2 = true := by
  induction n with
  | zero =>
    intro fuel x y hf _
    obtain ⟨f, rfl⟩ : ∃ f, fuel = f + 1 := ⟨fuel - 1, by omega⟩
    refine ⟨true, [], ?_, ?_, by simp, by simp⟩
    · simp [clearPathTrace]
    · simp [clearPathLoop]
  | succ n ih =>
    intro fuel x y hf hin
    obtain ⟨f, rfl⟩ : ∃ f, fuel = f + 1 := ⟨fuel - 1, by omega⟩
    have hne : x ≠ x + ((n + 1 : Nat) : Int) * dx ∨ y ≠ y + ((n + 1 : Nat) : Int) * dy := by
      have hpos : ((n + 1 : Nat) : Int) ≠ 0 := by omega
      rcases hd with h | h
      · left
        intro e
        have : ((n + 1 : Nat) : Int) * dx = 0 := by linarith
        rcases mul_eq_zero.mp this with h0 | h0
        · exact hpos h0
        · exact h h0
      · right
        intro e
        have : ((n + 1 : Nat) : Int) * dy = 0 := by linarith
        rcases mul_eq_zero.mp this with h0 | h0
        · exact hpos h0
        · exact h h0
    have h0 : isInside x y = true := by
      have := hin 0 (by omega)
      simpa using this
    have htx : x + ((n + 1 : Nat) : Int) * dx = (x + dx) + (n : Int) * dx := by
      push_cast; ring
    have hty : y + ((n + 1 : Nat) : Int) * dy = (y + dy) + (n : Int) * dy := by
      push_cast; ring
    by_cases hb : b y x = '.'
    · have hin1 : ∀ k : Nat, k < n → isInside (x + dx + k * dx) (y + dy + k * dy) = true := by
        intro k hk
        have := hin (k + 1) (by omega)
        have e1 : x + ((k + 1 : Nat) : Int) * dx = x + dx + (k : Int) * dx := by push_cast; ring
        have e2 : y + ((k + 1 : Nat) : Int) * dy = y + dy + (k : Int) * dy := by push_cast; ring
        rw [e1, e2] at this
        exact this
      obtain ⟨r, reads, htr, hlp, hlen, hall⟩ := ih f (x + dx) (y + dy) (by omega) hin1
      refine ⟨r, (x, y) :: reads, ?_, ?_, ?_, ?_⟩
      · rw [clearPathTrace, if_pos hne]
        simp only [ne_eq, hb, not_true_eq_false, if_false]
        rw [htx, hty, htr]
        rfl
      · rw [clearPathLoop, if_pos hne]
        simp only [h0, Bool.not_true, Bool.false_eq_true, if_false, ne_eq, hb,
          not_true_eq_false]
        rw [htx, hty]
        exact hlp
      · simp only [List.length_cons]
        omega
      · intro q hq
        rcases List.mem_cons.mp hq with rfl | hq
        · exact h0
        · exact hall q hq
    · refine ⟨false, [(x, y)], ?_, ?_, ?_, ?_⟩
      · rw [clearPathTrace, if_pos hne]
        simp [hb]
      · rw [clearPathLoop, if_pos hne]
        simp [h0, hb]
      · simp
      · intro q hq
        rw [List.mem_singleton] at hq
        rw [hq]
        exact h0

/-- On two distinct squares of the board that share a file, rank or diagonal the loop of
`clearPath` finishes within six iterations and reads squares of the board only. -/
theorem clearPathReads_spec (b : Board) (sx sy tx ty : Int)
    (hs : isInside sx sy = true) (ht : isInside tx ty = true) (hal : Aligned sx sy tx ty) :
    ∃ r reads, clearPathReads b sx sy tx ty = some (r, reads) ∧
      clearPath b sx sy tx ty = some r ∧
      reads.length ≤ 6 ∧ ∀ q ∈ reads, isInside q.1 q.2 = true := by
  obtain ⟨n, hn6, hd, htx, hty, hin⟩ := aligned_steps sx sy tx ty hs ht hal
  obtain ⟨r, reads, htr, hlp, hlen, hall⟩ := clearPathTrace_spec b (sgn (tx - sx))
    (sgn (ty - sy)) hd n 16 (sx + sgn (tx - sx)) (sy + sgn (ty - sy)) (by omega) hin
  rw [htx, hty] at htr hlp
  refine ⟨r, reads, ?_, ?_, by omega, hall⟩
  · unfold clearPathReads
    simp only [clearPath_step_eq]
    exact htr
  · unfold clearPath
    simp only [clearPath_step_eq]
    exact hlp

/-- The function `checkGameEnd` returns on every state. -/
theorem checkGameEnd_total (g : GameState) : ∃ g1, checkGameEnd g = some g1 := by
  obtain ⟨r, hr⟩ := hasLegalMoves_total g.board g.whiteTurn
  obtain ⟨c, hc⟩ := isInCheck_total g.board g.whiteTurn
  unfold checkGameEnd
  rw [hr]
  simp only []
  cases r with
  | true => exact ⟨_, rfl⟩
  | false =>
    rw [hc]
    cases c <;> exact ⟨_, rfl⟩

/-- C21 (`clearPath` is never called off-axis and always terminates): with an assertion
in front of every call of `clearPath` that its two squares are on the board, distinct and
on a common file, rank or diagonal, `isSquareAttacked` (for a square of the board) and
`isLegalMove` still return, and return what they return without it, so that no call
breaks the assertion; a call that keeps it makes at most 6 iterations of the loop and
reads squares of the board only; and `isSquareAttacked`, `isInCheck`, `isLegalMove`,
`hasLegalMoves` and `checkGameEnd` return on every board. -/
theorem clearPath_calls_on_axis_and_total :
    ((∀ (b : Board) (x y : Int) (byWhite : Bool),
        isSquareAttackedWith clearPath b x y byWhite = isSquareAttacked b x y byWhite) ∧
     (∀ (b : Board) (sx sy tx ty : Int),
        isLegalMoveWith clearPath b sx sy tx ty = isLegalMove b sx sy tx ty)) ∧
    ((∀ (b : Board) (x y : Int) (byWhite : Bool), isInside x y = true →
        ∃ r, isSquareAttackedWith clearPathAsserted b x y byWhite = some r ∧
          isSquareAttacked b x y byWhite = some r) ∧
     (∀ (b : Board) (sx sy tx ty : Int),
        ∃ r, isLegalMoveWith clearPathAsserted b sx sy tx ty = some (r, b) ∧
          isLegalMove b sx sy tx ty = some (r, b))) ∧
    (∀ (b : Board) (sx sy tx ty : Int), isInside sx sy = true → isInside tx ty = true →
      Aligned sx sy tx ty →
      ∃ r reads, clearPathReads b sx sy tx ty = some (r, reads) ∧
        clearPath b sx sy tx ty = some r ∧
        reads.length ≤ 6 ∧ ∀ q ∈ reads, isInside q.1 q.2 = true) ∧
    ((∀ (b : Board) (white : Bool), ∃ r, isInCheck b white = some r) ∧
     (∀ (b : Board) (white : Bool), ∃ r, hasLegalMoves b white = some (r, b)) ∧
     (∀ g : GameState, ∃ g1, checkGameEnd g = some g1)) := by
  refine ⟨⟨fun _ _ _ _ => rfl, fun _ _ _ _ _ => rfl⟩, ⟨?_, ?_⟩, clearPathReads_spec,
    isInCheck_total, hasLegalMoves_total, checkGameEnd_total⟩
  · intro b x y byWhite h
    obtain ⟨r, hr⟩ := isSquareAttacked_total b x y byWhite h
    exact ⟨r, by rw [isSquareAttackedWith_asserted b x y byWhite h, hr], hr⟩
  · intro b sx sy tx ty
    obtain ⟨r, hr⟩ := isLegalMove_total b sx sy tx ty
    exact ⟨r, by rw [isLegalMoveWith_asserted, hr], hr⟩

/-- The assertion and the bound at work: an off-axis call breaks the assertion although
`clearPath` itself returns for it on the board of `initBoard`; a call from a1 to h8
makes exactly 6 iterations. -/
theorem clearPathAsserted_examples :
    clearPath (initBoard startup).game.board 0 0 1 2 = some false ∧
    clearPathAsserted (initBoard startup).game.board 0 0 1 2 = none ∧
    clearPathReads promotionBoard 0 7 7 0 =
      some (true, [(1, 6), (2, 5), (3, 4), (4, 3), (5, 2), (6, 1)]) := by
  refine ⟨?_, ?_, ?_⟩ <;> decide!

end Chess
